import Mathlib

/-!
# Additive secret sharing and the distributed integer mean

A shallow embedding of `secret_sharing.go` and `mean.go`.

* `*big.Int` values are `Int`; a slice `[]*big.Int` is a `List (Option Int)`
  whose `none` entries are nil pointers.
* A run-time panic is an `Except.error` carrying a `Fault`.
* The two random sources are explicit: `Rand.crypto` lists the successive
  results of `rand.Int(rand.Reader, ·)` and `Rand.slots` the successive
  results of `mr.Intn(·)`.  A loop that needs a further sample when the list
  is used up ends in `Fault.noEntropy`.
* Goroutines started by `Setup` are recorded in the `workers` field of the
  protocol instance; `Run` performs the channel exchange with them in program
  order.
* The interleavings of `Run` with the party goroutines are the executions of
  the transition system `Step`, whose steps are the hand-overs on the
  unbuffered channels and the local steps of each task.
-/

namespace Mpc

/-! ## Run-time faults and the random sources -/

/-- A run-time panic of the Go program, or the end of a finite sample list. -/
inductive Fault where
  | divByZero
  | nilDeref
  | indexOutOfRange
  | invalidArg
  | deadlock
  | noEntropy
  deriving DecidableEq, Repr

/-- The two random sources read by the package. -/
structure Rand where
  /-- Successive results of `rand.Int(rand.Reader, N)`. -/
  crypto : List Int
  /-- Successive results of `mr.Intn(n)`. -/
  slots : List Nat
  deriving DecidableEq, Repr

/-- A slice of `*big.Int`; `none` is a nil pointer. -/
abbrev BigInts := List (Option Int)

/-! ## `math/big` operations that can panic -/

/-- `z.Mod(x, y)`: Euclidean modulus, panics when `y = 0`. -/
def bigMod (x y : Int) : Except Fault Int :=
  if y = 0 then .error .divByZero else .ok (x % y)

/-- `z.Div(x, y)`: Euclidean quotient, panics when `y = 0`. -/
def bigDiv (x y : Int) : Except Fault Int :=
  if y = 0 then .error .divByZero else .ok (x / y)

/-- `z.DivMod(x, y, m)`: Euclidean quotient and modulus, panics when `y = 0`. -/
def bigDivMod (x y : Int) : Except Fault (Int × Int) :=
  if y = 0 then .error .divByZero else .ok (x / y, x % y)

/-- `z.Add(x, y)` where `y` is a pointer that may be nil. -/
def bigAdd (x : Int) (y : Option Int) : Except Fault Int :=
  match y with
  | some v => .ok (x + v)
  | none => .error .nilDeref

/-- `z.ModInverse(g, n)` for `n ≠ 0`: the inverse of `g` in `ℤ/nℤ` taken in
`[0, |n|)`, or nil (`none`) when `g` and `n` are not relatively prime. -/
def ModInverse (g n : Int) : Option Int :=
  if Int.gcd g n = 1 then some (Int.gcdA g n % n) else none

/-- The conversion `int64(u)` of a 64-bit unsigned value. -/
def wrap64 (u : Int) : Int := (u + 2 ^ 63) % 2 ^ 64 - 2 ^ 63

/-- `x.Int64()`: the low 64 bits of `|x|` as an `int64`, negated for negative `x`. -/
def toInt64 (x : Int) : Int :=
  let v := wrap64 ((x.natAbs : Int) % 2 ^ 64)
  if x < 0 then wrap64 (-v) else v

/-- Indexed store `xs[i] = v`, panics when `i` is out of range. -/
def store {α : Type} (xs : List α) (i : Nat) (v : α) : Except Fault (List α) :=
  if i < xs.length then .ok (xs.set i v) else .error .indexOutOfRange

/-- Indexed load `xs[i]`, panics when `i` is out of range. -/
def load {α : Type} (xs : List α) (i : Nat) : Except Fault α :=
  match xs[i]? with
  | some v => .ok v
  | none => .error .indexOutOfRange

/-! ## `secret_sharing.go` -/

/-- `mr.Intn(n)`: panics when `n ≤ 0`, otherwise the next slot value. -/
def Intn (n : Int) (rnd : Rand) : Except Fault (Nat × Rand) :=
  if n ≤ 0 then .error .invalidArg
  else match rnd.slots with
    | [] => .error .noEntropy
    | j :: rest => .ok (j, { rnd with slots := rest })

/-- The loop of `getRandom`, with loop variables `gcd` and `r`, over the
results `rand.Int` still has to give.  `rand.Int` panics when `N ≤ 0`;
`GCD(nil, nil, r, N)` is the greatest common divisor of `|r|` and `|N|`, so
`GCD(0, N) = |N|`. -/
def getRandomLoop (N : Int) : Int → Int → List Int → Except Fault (Int × List Int)
  | gcd, r, [] =>
    if gcd ≠ 1 then
      (if N ≤ 0 then .error .invalidArg else .error .noEntropy)
    else .ok (r, [])
  | gcd, r, s :: rest =>
    if gcd ≠ 1 then
      (if N ≤ 0 then .error .invalidArg
       else getRandomLoop N (Int.gcd s N) s rest)
    else .ok (r, s :: rest)

/-- `getRandom(N)`: `gcd` and `r` start at zero, so the loop body runs at
least once. -/
def getRandom (N : Int) (rnd : Rand) : Except Fault (Int × Rand) :=
  match getRandomLoop N 0 0 rnd.crypto with
  | .ok (r, rest) => .ok (r, { rnd with crypto := rest })
  | .error e => .error e

/-- The `for i := 0; i < n; i++` loop of `GenerateShares`; `todo` counts the
iterations left. -/
def sharesLoop (M : Int) (j : Nat) :
    Nat → Nat → BigInts → Int → Rand → Except Fault (BigInts × Int × Rand)
  | 0, _, shares, sum, rnd => .ok (shares, sum, rnd)
  | todo + 1, i, shares, sum, rnd =>
    if i ≠ j then
      match getRandom M rnd with
      | .error e => .error e
      | .ok (r, rnd1) =>
        match store shares i (some r) with
        | .error e => .error e
        | .ok shares1 => sharesLoop M j todo (i + 1) shares1 (sum + r) rnd1
    else sharesLoop M j todo (i + 1) shares sum rnd

/-- `GenerateShares(secret, n, M)`. -/
def GenerateShares (secret n M : Int) (rnd : Rand) : Except Fault (BigInts × Rand) :=
  if n < 0 then .error .invalidArg
  else
    match Intn n rnd with
    | .error e => .error e
    | .ok (j, rnd1) =>
      match sharesLoop M j n.toNat 0 (List.replicate n.toNat none) 0 rnd1 with
      | .error e => .error e
      | .ok (shares, sum, rnd2) =>
        match bigMod (secret - sum) M with
        | .error e => .error e
        | .ok v =>
          match store shares j (some v) with
          | .error e => .error e
          | .ok shares1 => .ok (shares1, rnd2)

/-- `GenerateBeaverTriplet(N)`: the array `[3]*big.Int` as a triple. -/
def GenerateBeaverTriplet (N : Int) (rnd : Rand) :
    Except Fault ((Option Int × Option Int × Option Int) × Rand) :=
  match getRandom N rnd with
  | .error e => .error e
  | .ok (x, rnd1) =>
    match getRandom N rnd1 with
    | .error e => .error e
    | .ok (y, rnd2) =>
      match Intn 2 rnd2 with
      | .error e => .error e
      | .ok (c, rnd3) =>
        if c > 0 then
          .ok ((some ((x * y) % N), some x, some y), rnd3)
        else
          match ModInverse y N with
          | none => .error .nilDeref
          | some yi => .ok ((some y, some x, ModInverse (x * yi) N), rnd3)

/-- Message format exchanged between protocol parties. -/
structure Message where
  id : Int
  v : BigInts
  deriving DecidableEq, Repr

/-- The broadcast agent; `parties = none` is the nil map left by
`NewBroadcastAgent`, channels are named by their handle. -/
structure BroadcastAgent where
  parties : Option (List (Int × Nat))
  messages : List Message
  deriving DecidableEq, Repr

/-- `NewBroadcastAgent(n)` returns `&BroadcastAgent{}`. -/
def NewBroadcastAgent (_n : Int) : BroadcastAgent :=
  { parties := none, messages := [] }

/-- `(*BroadcastAgent).Broadcast(round, m)`: the agent afterwards and the
batches sent, one for each registered channel (none for the nil map).  The
argument `round` is not read. -/
def Broadcast (ba : BroadcastAgent) (_round : Int) (m : Message) :
    BroadcastAgent × List (Nat × List Message) :=
  let messages1 := ba.messages ++ [m]
  let parties := ba.parties.getD []
  if messages1.length = parties.length then
    ({ ba with messages := messages1 }, parties.map (fun e => (e.2, messages1)))
  else ({ ba with messages := messages1 }, [])

/-- Parameters of the protocols on the commodity model. -/
structure Parameters where
  n : Int
  M : Int
  triplet : Option Int × Option Int × Option Int
  assinc : Int
  deriving DecidableEq, Repr

/-! ## `mean.go` -/

/-- A party goroutine as `Setup` builds it: `client` is the handle of the
channel it listens on. -/
structure DistributedIntMeanParty where
  id : Nat
  param : Parameters
  ba : BroadcastAgent
  client : Nat
  deriving DecidableEq, Repr

/-- The protocol instance.  `parties` holds channel handles, `wg` the counter
of the wait group, and `workers` the goroutines started on behalf of the
instance that still wait for their share vector. -/
structure DistributedIntMean where
  param : Option Parameters
  parcels : List Int
  parties : List Nat
  shares : List BigInts
  ba : Option BroadcastAgent
  wg : Int
  result : Int
  workers : List DistributedIntMeanParty
  deriving DecidableEq, Repr

/-- `NewDistributedIntMean()` returns `&DistributedIntMean{}`. -/
def NewDistributedIntMean : DistributedIntMean :=
  { param := none, parcels := [], parties := [], shares := [], ba := none,
    wg := 0, result := 0, workers := [] }

/-- The loop `for i, p := range dim.parcels` of `Setup`, giving the rows of
the share matrix. -/
def setupShares (n M : Int) : List Int → Rand → Except Fault (List BigInts × Rand)
  | [], rnd => .ok ([], rnd)
  | p :: ps, rnd =>
    match GenerateShares p n M rnd with
    | .error e => .error e
    | .ok (row, rnd1) =>
      match setupShares n M ps rnd1 with
      | .error e => .error e
      | .ok (rows, rnd2) => .ok (row :: rows, rnd2)

/-- The loop `for i := 0; i < dim.param.n; i++` of `Setup`; `todo` counts the
iterations left.  A new channel gets the next unused handle. -/
def spawnLoop (param : Parameters) (ba : BroadcastAgent) :
    Nat → Nat → DistributedIntMean → Except Fault DistributedIntMean
  | 0, _, dim => .ok dim
  | todo + 1, i, dim =>
    let parties1 := dim.parties ++ [dim.parties.length]
    match load parties1 i with
    | .error e => .error e
    | .ok ch =>
      spawnLoop param ba todo (i + 1)
        { dim with
          parties := parties1
          wg := dim.wg + 1
          workers := dim.workers ++ [{ id := i, param := param, ba := ba, client := ch }] }

/-- An `error` value of Go: `none` is nil. -/
abbrev GoError := Option String

/-- `(*DistributedIntMean).Setup(param, args)`. -/
def Setup (dim : DistributedIntMean) (param : Parameters) (args : List Int) (rnd : Rand) :
    Except Fault (GoError × DistributedIntMean × Rand) :=
  if param.n < 2 then
    .ok (some "The number of computing parties must be equal to or greater than 2", dim, rnd)
  else if args.length < 1 then
    .ok (some "At least one number (int64 argument) is required in order to compute a mean",
      dim, rnd)
  else
    match setupShares param.n param.M args rnd with
    | .error e => .error e
    | .ok (rows, rnd1) =>
      let ba := NewBroadcastAgent param.n
      match spawnLoop param ba param.n.toNat 0
          { dim with param := some param, parcels := args, shares := rows, ba := some ba } with
      | .error e => .error e
      | .ok dim1 => .ok (none, dim1, rnd1)

/-- The summation loop of `(*DistributedIntMeanParty).Run`. -/
def partySum : Int → BigInts → Except Fault Int
  | sum, [] => .ok sum
  | sum, p :: ps =>
    match bigAdd sum p with
    | .error e => .error e
    | .ok sum1 => partySum sum1 ps

/-- `(*DistributedIntMeanParty).Run()` from the share vector it receives to
the reply `[]*big.Int{sum, m}` it sends. -/
def PartyRun (dmp : DistributedIntMeanParty) (parcels : BigInts) : Except Fault BigInts :=
  let lens : Int := parcels.length
  match partySum 0 parcels with
  | .error e => .error e
  | .ok sum0 =>
    match bigMod sum0 dmp.param.M with
    | .error e => .error e
    | .ok sum1 =>
      match bigDivMod sum1 lens with
      | .error e => .error e
      | .ok (sum2, m0) =>
        match bigMod sum2 dmp.param.M with
        | .error e => .error e
        | .ok sum3 =>
          match bigMod m0 dmp.param.M with
          | .error e => .error e
          | .ok m1 => .ok [some sum3, some m1]

/-- The inner loop `for j, s := range dim.shares` of `Run`: column `i` of
the share matrix. -/
def column (i : Nat) : List BigInts → Except Fault BigInts
  | [] => .ok []
  | s :: rest =>
    match load s i with
    | .error e => .error e
    | .ok v =>
      match column i rest with
      | .error e => .error e
      | .ok vs => .ok (v :: vs)

/-- The first goroutine of a pool that listens on channel `p`, taken out of
the pool. -/
def takeListener (p : Nat) :
    List DistributedIntMeanParty → Option (DistributedIntMeanParty × List DistributedIntMeanParty)
  | [] => none
  | w :: ws =>
    if w.client = p then some (w, ws)
    else
      match takeListener p ws with
      | none => none
      | some (x, rest) => some (x, w :: rest)

/-- The first reply offered on channel `p`, taken out of the pending replies. -/
def takeReply (p : Nat) : List (Nat × BigInts) → Option (BigInts × List (Nat × BigInts))
  | [] => none
  | o :: os =>
    if o.1 = p then some (o.2, os)
    else
      match takeReply p os with
      | none => none
      | some (x, rest) => some (x, o :: rest)

/-- The first loop of `Run`: party `i` is sent column `i` on channel `p`.  The
send blocks for ever when no goroutine listens on `p`; otherwise the first
listener takes the vector, computes its reply and offers it on `p`.  The
result lists the replies on offer and the goroutines still listening. -/
def sendLoop (shares : List BigInts) :
    Nat → List Nat → List DistributedIntMeanParty → List (Nat × BigInts) →
      Except Fault (List (Nat × BigInts) × List DistributedIntMeanParty)
  | _, [], waiting, offered => .ok (offered, waiting)
  | i, p :: ps, waiting, offered =>
    match column i shares with
    | .error e => .error e
    | .ok pShares =>
      match takeListener p waiting with
      | none => .error .deadlock
      | some (w, waiting1) =>
        match PartyRun w pShares with
        | .error e => .error e
        | .ok reply => sendLoop shares (i + 1) ps waiting1 (offered ++ [(p, reply)])

/-- One hand-over of the first loop of `Run`: the channel, the id of the
goroutine that takes the vector, the vector sent and the reply the goroutine
computes from it. -/
structure Delivery where
  channel : Nat
  party : Nat
  vector : BigInts
  reply : BigInts
  deriving DecidableEq, Repr

/-- The first loop of `Run` once more, recording every hand-over; `sendLoop`
offers exactly the replies recorded here (`sendLoop_eq_sendLog`). -/
def sendLog (shares : List BigInts) :
    Nat → List Nat → List DistributedIntMeanParty →
      Except Fault (List Delivery × List DistributedIntMeanParty)
  | _, [], waiting => .ok ([], waiting)
  | i, p :: ps, waiting =>
    match column i shares with
    | .error e => .error e
    | .ok pShares =>
      match takeListener p waiting with
      | none => .error .deadlock
      | some (w, waiting1) =>
        match PartyRun w pShares with
        | .error e => .error e
        | .ok reply =>
          match sendLog shares (i + 1) ps waiting1 with
          | .error e => .error e
          | .ok (log, waiting2) =>
            .ok ({ channel := p, party := w.id, vector := pShares, reply := reply } :: log,
              waiting2)

/-- The second loop of `Run`: `zs[i] = <-p`.  The receive blocks for ever when
no reply is on offer on `p`; the goroutine whose reply is taken calls
`wg.Done()` and ends.  The result is `zs`, the replies left on offer and the
wait-group counter. -/
def recvLoop :
    Nat → List Nat → List BigInts → List (Nat × BigInts) → Int →
      Except Fault (List BigInts × List (Nat × BigInts) × Int)
  | _, [], zs, offered, wg => .ok (zs, offered, wg)
  | i, p :: ps, zs, offered, wg =>
    match takeReply p offered with
    | none => .error .deadlock
    | some (reply, offered1) =>
      match store zs i reply with
      | .error e => .error e
      | .ok zs1 => recvLoop (i + 1) ps zs1 offered1 (wg - 1)

/-- The loop `for _, zi := range zs` of `Run`, accumulating `z` and `sumMod`. -/
def sumReplies : Int → Int → List BigInts → Except Fault (Int × Int)
  | z, sumMod, [] => .ok (z, sumMod)
  | z, sumMod, zi :: rest =>
    match load zi 0 with
    | .error e => .error e
    | .ok q =>
      match bigAdd z q with
      | .error e => .error e
      | .ok z1 =>
        match load zi 1 with
        | .error e => .error e
        | .ok r =>
          match bigAdd sumMod r with
          | .error e => .error e
          | .ok sumMod1 => sumReplies z1 sumMod1 rest

/-- Lines 91 to 105 of `Run`: the reconstruction from the replies `zs`, giving
the value stored in `dim.result` together with the final `sumMod`. -/
def reconstruct (M : Int) (parcelCount : Nat) (zs : List BigInts) : Except Fault (Int × Int) :=
  match sumReplies 0 0 zs with
  | .error e => .error e
  | .ok (z0, sumMod0) =>
    let lens : Int := parcelCount
    match bigDiv M lens with
    | .error e => .error e
    | .ok outroMod =>
      match bigMod z0 outroMod with
      | .error e => .error e
      | .ok z =>
        let sumMod1 := sumMod0 + z
        match bigDiv sumMod1 lens with
        | .error e => .error e
        | .ok sumMod2 =>
          match bigMod sumMod2 outroMod with
          | .error e => .error e
          | .ok sumMod3 => .ok (toInt64 z, sumMod3)

/-- Lines 76 to 89 of `Run`: the two loops that send the share vectors and
collect the replies in `zs`.  The result is `zs`, the goroutines still
listening and the wait-group counter. -/
def exchange (dim : DistributedIntMean) :
    Except Fault (List BigInts × List DistributedIntMeanParty × Int) :=
  match sendLoop dim.shares 0 dim.parties dim.workers [] with
  | .error e => .error e
  | .ok (offered, waiting) =>
    match dim.param with
    | none => .error .nilDeref
    | some param =>
      if param.n < 0 then .error .invalidArg
      else
        match recvLoop 0 dim.parties (List.replicate param.n.toNat []) offered dim.wg with
        | .error e => .error e
        | .ok (zs, _, wg1) => .ok (zs, waiting, wg1)

/-- `(*DistributedIntMean).Run()`.  `wg.Wait()` blocks for ever when the
counter is not back to zero once every reply has been taken. -/
def Run (dim : DistributedIntMean) : Except Fault (GoError × DistributedIntMean) :=
  match exchange dim with
  | .error e => .error e
  | .ok (zs, waiting, wg1) =>
    match dim.param with
    | none => .error .nilDeref
    | some param =>
      match reconstruct param.M dim.parcels.length zs with
      | .error e => .error e
      | .ok (result, _) =>
        if wg1 ≠ 0 then .error .deadlock
        else .ok (none, { dim with result := result, wg := wg1, workers := waiting })

/-- `(*DistributedIntMean).Output()`. -/
def Output (dim : DistributedIntMean) : Int := dim.result

/-- One protocol session as `TestDistributedIntMean_Run` drives it: `Setup` on
a new instance (its error is not looked at), then `Run`, then `Output`. -/
def session (param : Parameters) (args : List Int) (rnd : Rand) : Except Fault Int :=
  match Setup NewDistributedIntMean param args rnd with
  | .error e => .error e
  | .ok (_, dim1, _) =>
    match Run dim1 with
    | .error e => .error e
    | .ok (_, dim2) => .ok (Output dim2)

/-! ## Specification helpers for the sample stream -/

/-- The samples of a list that are coprime with `N`, in order. -/
def units (N : Int) (l : List Int) : List Int :=
  l.filter (fun s => Int.gcd s N = 1)

/-- What is left of the samples once the first one coprime with `N` is drawn. -/
def afterUnit (N : Int) (l : List Int) : List Int :=
  (l.dropWhile (fun s => !decide (Int.gcd s N = 1))).tail

/-- What is left of the samples once `k` samples coprime with `N` are drawn. -/
def skipUnits (N : Int) : Nat → List Int → List Int
  | 0, l => l
  | k + 1, l => skipUnits N k (afterUnit N l)


/-- The share values `GenerateShares` returns when slot `j` absorbs the
remainder and `us` lists the accepted samples in the order drawn. -/
def sharesSpec (secret M : Int) (j n : Nat) (us : List Int) : List Int :=
  us.take j ++ ((secret - (us.take (n - 1)).sum) % M) :: (us.drop j).take (n - 1 - j)

/-- The rows of the share matrix `Setup` builds for the given parcels when
`js` lists the remainder slots and `us` the accepted samples, both in the
order drawn: every row uses up `n - 1` accepted samples. -/
def rowsSpec (M : Int) (n : Nat) : List Int → List Nat → List Int → List (List Int)
  | [], _, _ => []
  | _ :: _, [], _ => []
  | p :: ps, j :: js, us => sharesSpec p M j n us :: rowsSpec M n ps js (us.drop (n - 1))

/-- The goroutine `Setup` starts in iteration `i` on a fresh instance. -/
def freshWorker (param : Parameters) (i : Nat) : DistributedIntMeanParty :=
  { id := i, param := param, ba := NewBroadcastAgent param.n, client := i }

/-- Column `i` of a matrix of share values. -/
def colSpec (i : Nat) (rows : List (List Int)) : List Int :=
  rows.map (fun r => r.getD i 0)

/-- The reply of a party that receives the share values `vals` under modulus
`M`: quotient and remainder of the reduced sum by the number of values. -/
def replySpec (M : Int) (vals : List Int) : Int × Int :=
  ((vals.sum % M) / (vals.length : Int), (vals.sum % M) % (vals.length : Int))

/-- A reply as the slice `[]*big.Int{sum, m}`. -/
def toReply (qr : Int × Int) : BigInts := [some qr.1, some qr.2]

/-- The replies of the `n` parties on a share matrix given by its rows. -/
def repliesSpec (M : Int) (n : Nat) (rows : List (List Int)) : List (Int × Int) :=
  (List.range n).map (fun t => replySpec M (colSpec t rows))

/-- The instance a successful `Setup` on a fresh instance leaves, for the
share matrix `rows`. -/
def configured (param : Parameters) (args : List Int) (rows : List (List Int)) :
    DistributedIntMean :=
  { param := some param
    parcels := args
    parties := List.range param.n.toNat
    shares := rows.map (List.map some)
    ba := some (NewBroadcastAgent param.n)
    wg := param.n
    result := 0
    workers := (List.range param.n.toNat).map (freshWorker param) }

/-- The hand-over to party `t` on a configured instance with share values `rows`. -/
def deliverySpec (param : Parameters) (rows : List (List Int)) (t : Nat) : Delivery :=
  { channel := t, party := t, vector := (colSpec t rows).map some,
    reply := toReply (replySpec param.M (colSpec t rows)) }

/-- A sequence of calls `Broadcast(round, m)` on one agent: the agent
afterwards and, call by call, the batches sent. -/
def broadcasts (ba : BroadcastAgent) :
    List (Int × Message) → BroadcastAgent × List (List (Nat × List Message))
  | [] => (ba, [])
  | c :: rest =>
    ((broadcasts (Broadcast ba c.1 c.2).1 rest).1,
      (Broadcast ba c.1 c.2).2 :: (broadcasts (Broadcast ba c.1 c.2).1 rest).2)

/-! ## A modulus as `NewParameters(128)` draws it -/

/-- A prime of 128 bits, `859 * 2 ^ 118 + 1`. -/
def prime128 : Nat := 285451712094810683706092566195203997697

/-- Binary exponentiation modulo `p`; `fuel` bounds the bit length of the exponent. -/
def powMod (p a : Nat) : Nat → Nat → Nat
  | 0, _ => 1 % p
  | fuel + 1, e =>
    if e = 0 then 1 % p
    else if e % 2 = 1 then powMod p a fuel (e / 2) * powMod p a fuel (e / 2) % p * a % p
    else powMod p a fuel (e / 2) * powMod p a fuel (e / 2) % p

/-! ## The tasks of `Run` as a transition system

`Run` and the party goroutines started by `Setup` run concurrently and meet
on unbuffered channels.  A state holds the program point of `Run`, the
program point of every goroutine, the slice `zs`, the counter of the wait
group and the result; a step is one channel hand-over or one local step of a
single task, so the executions from `Sys.init` are the interleavings of the
tasks. -/

/-- Program point of a party goroutine in `(*DistributedIntMeanParty).Run`. -/
inductive PartyPc where
  /-- Blocked in `dmp.parcels = <-dmp.client`. -/
  | listening
  /-- Holds its share vector; the reply is not computed yet. -/
  | received (parcels : BigInts)
  /-- Blocked in `dmp.client <- []*big.Int{sum, m}`. -/
  | offering (reply : BigInts)
  /-- The reply is taken; `dmp.wg.Done()` is still to come. -/
  | replied
  /-- After `dmp.wg.Done()`. -/
  | terminated
  deriving DecidableEq, Repr

/-- A party goroutine with its program point and the number of messages it
has received and sent so far. -/
structure Task where
  worker : DistributedIntMeanParty
  pc : PartyPc
  received : Nat
  sent : Nat
  deriving DecidableEq, Repr

/-- Program point of `(*DistributedIntMean).Run`: in the first loop before the
send of iteration `i`, in the second loop before the receive of iteration
`i`, before the reconstruction, in `dim.wg.Wait()`, and after the return. -/
inductive RunPc where
  | send (i : Nat)
  | recv (i : Nat)
  | reconstruct
  | wait
  | returned
  deriving DecidableEq, Repr

/-- A state of `Run` and the party goroutines. `dim` holds the fields `Run`
only reads (`parties`, `shares`, `param`, `parcels`). -/
structure Sys where
  dim : DistributedIntMean
  pc : RunPc
  zs : List BigInts
  wg : Int
  result : Int
  tasks : List Task
  deriving DecidableEq, Repr

/-- The state in which `Run` is called: every goroutine listens. -/
def Sys.init (dim : DistributedIntMean) : Sys :=
  { dim := dim, pc := .send 0, zs := [], wg := dim.wg, result := dim.result,
    tasks := dim.workers.map (fun w => { worker := w, pc := .listening, received := 0, sent := 0 }) }

/-- One step of one task, or one hand-over on a channel between two tasks. -/
inductive Step : Sys → Sys → Prop where
  /-- `p <- pShares` meets the receive of a goroutine listening on `p`. -/
  | handover (s : Sys) (i p t : Nat) (task : Task) (pShares : BigInts) :
      s.pc = .send i → s.dim.parties[i]? = some p → column i s.dim.shares = .ok pShares →
      s.tasks[t]? = some task → task.worker.client = p → task.pc = .listening →
      Step s { s with
        pc := .send (i + 1)
        tasks := s.tasks.set t
          { task with pc := .received pShares, received := task.received + 1 } }
  /-- The first loop ends; `zs` is made. -/
  | sendDone (s : Sys) (i : Nat) (param : Parameters) :
      s.pc = .send i → s.dim.parties[i]? = none → s.dim.param = some param → 0 ≤ param.n →
      Step s { s with pc := .recv 0, zs := List.replicate param.n.toNat [] }
  /-- A goroutine computes its reply. -/
  | compute (s : Sys) (t : Nat) (task : Task) (parcels reply : BigInts) :
      s.tasks[t]? = some task → task.pc = .received parcels →
      PartyRun task.worker parcels = .ok reply →
      Step s { s with tasks := s.tasks.set t { task with pc := .offering reply } }
  /-- `zs[i] = <-p` meets the send of a goroutine offering its reply on `p`. -/
  | takeReply (s : Sys) (i p t : Nat) (task : Task) (reply : BigInts) (zs1 : List BigInts) :
      s.pc = .recv i → s.dim.parties[i]? = some p →
      s.tasks[t]? = some task → task.worker.client = p → task.pc = .offering reply →
      store s.zs i reply = .ok zs1 →
      Step s { s with
        pc := .recv (i + 1)
        zs := zs1
        tasks := s.tasks.set t { task with pc := .replied, sent := task.sent + 1 } }
  /-- A reply offered on a channel meets the receive of another goroutine
  listening on the same channel. -/
  | relay (s : Sys) (t u : Nat) (task other : Task) (reply : BigInts) :
      t ≠ u → s.tasks[t]? = some task → s.tasks[u]? = some other →
      task.worker.client = other.worker.client →
      task.pc = .offering reply → other.pc = .listening →
      Step s { s with
        tasks := (s.tasks.set t { task with pc := .replied, sent := task.sent + 1 }).set u
          { other with pc := .received reply, received := other.received + 1 } }
  /-- The second loop ends. -/
  | recvDone (s : Sys) (i : Nat) :
      s.pc = .recv i → s.dim.parties[i]? = none →
      Step s { s with pc := .reconstruct }
  /-- Lines 91 to 105: the result is reconstructed from `zs`. -/
  | reconstructed (s : Sys) (param : Parameters) (result sumMod : Int) :
      s.pc = .reconstruct → s.dim.param = some param →
      reconstruct param.M s.dim.parcels.length s.zs = .ok (result, sumMod) →
      Step s { s with pc := .wait, result := result }
  /-- A goroutine calls `dmp.wg.Done()` and ends. -/
  | done (s : Sys) (t : Nat) (task : Task) :
      s.tasks[t]? = some task → task.pc = .replied →
      Step s { s with
        wg := s.wg - 1
        tasks := s.tasks.set t { task with pc := .terminated } }
  /-- `dim.wg.Wait()` returns once the counter is zero, and `Run` returns. -/
  | waited (s : Sys) :
      s.pc = .wait → s.wg = 0 →
      Step s { s with pc := .returned }

/-- The states some interleaving of the tasks reaches from the call of `Run`. -/
def Reachable (dim : DistributedIntMean) (s : Sys) : Prop :=
  Relation.ReflTransGen Step (Sys.init dim) s

/-- Steps a goroutine still has before it ends. -/
def Task.rank (task : Task) : Nat :=
  match task.pc with
  | .listening => 4
  | .received _ => 3
  | .offering _ => 2
  | .replied => 1
  | .terminated => 0

/-- One for a goroutine that has not called `wg.Done()` yet. -/
def Task.alive (task : Task) : Nat :=
  if task.pc = .terminated then 0 else 1

/-- Steps `Run` still has before it returns, with `n` channels. -/
def RunPc.rank (n : Nat) : RunPc → Nat
  | .send i => (n - i) + n + 4
  | .recv i => (n - i) + 3
  | .reconstruct => 2
  | .wait => 1
  | .returned => 0

/-- A bound on the steps left in a state. -/
def Sys.measure (s : Sys) : Nat :=
  s.pc.rank s.dim.parties.length + (s.tasks.map Task.rank).sum

/-! ## Specification helpers for the tasks of `Run` -/

/-- The vector party `t` is sent on a configured instance with share values `rows`. -/
def colOf (rows : List (List Int)) (t : Nat) : BigInts :=
  (colSpec t rows).map some

/-- The reply of party `t` on a configured instance with share values `rows`. -/
def replyOf (param : Parameters) (rows : List (List Int)) (t : Nat) : BigInts :=
  toReply (replySpec param.M (colSpec t rows))

/-- The value `Run` stores on a configured instance with share values `rows`. -/
def resultOf (param : Parameters) (args : List Int) (rows : List (List Int)) : Int :=
  toInt64 (((repliesSpec param.M param.n.toNat rows).map Prod.fst).sum
    % (param.M / (args.length : Int)))

/-- Goroutine `t` of a configured instance at stage `k`: listening, holding
its vector, offering its reply, replied, terminated. -/
def stageTask (param : Parameters) (rows : List (List Int)) (t : Nat) : Nat → Task
  | 0 => { worker := freshWorker param t, pc := .listening, received := 0, sent := 0 }
  | 1 => { worker := freshWorker param t, pc := .received (colOf rows t), received := 1,
           sent := 0 }
  | 2 => { worker := freshWorker param t, pc := .offering (replyOf param rows t),
           received := 1, sent := 0 }
  | 3 => { worker := freshWorker param t, pc := .replied, received := 1, sent := 1 }
  | _ => { worker := freshWorker param t, pc := .terminated, received := 1, sent := 1 }

/-- The stages goroutine `t` can be in when `Run` is at program point `pc`. -/
def allowed (pc : RunPc) (t k : Nat) : Prop :=
  match pc with
  | .send i => if t < i then k = 1 ∨ k = 2 else k = 0
  | .recv i => if t < i then k = 3 ∨ k = 4 else k = 1 ∨ k = 2
  | _ => k = 3 ∨ k = 4

/-- What holds of `zs`, the result and the wait group at each program point of
`Run` on a configured instance. -/
def phase (param : Parameters) (args : List Int) (rows : List (List Int)) (s : Sys) : Prop :=
  match s.pc with
  | .send i => i ≤ param.n.toNat
  | .recv i => i ≤ param.n.toNat ∧
      s.zs = (List.range i).map (replyOf param rows) ++ List.replicate (param.n.toNat - i) []
  | .reconstruct => s.zs = (List.range param.n.toNat).map (replyOf param rows)
  | .wait => s.zs = (List.range param.n.toNat).map (replyOf param rows) ∧
      s.result = resultOf param args rows
  | .returned => s.zs = (List.range param.n.toNat).map (replyOf param rows) ∧
      s.result = resultOf param args rows ∧ s.wg = 0

/-- The invariant of the transition system on a configured instance. -/
structure RunInv (param : Parameters) (args : List Int) (rows : List (List Int)) (s : Sys) :
    Prop where
  dim_eq : s.dim = configured param args rows
  len : s.tasks.length = param.n.toNat
  tasks : ∀ (t : Nat) (task : Task), s.tasks[t]? = some task →
    ∃ k, allowed s.pc t k ∧ task = stageTask param rows t k
  wg : s.wg = (((s.tasks.map Task.alive).sum : Nat) : Int)
  phase : phase param args rows s

/-! # Verification

## The sample stream and `getRandom` -/

theorem units_cons_of_dropWhile (N : Int) (l : List Int) (u : Int) (rest : List Int)
    (h : l.dropWhile (fun s => !decide (Int.gcd s N = 1)) = u :: rest) :
    units N l = u :: units N rest := by
  induction l with
  | nil => simp at h
  | cons a t ih =>
    by_cases ha : Int.gcd a N = 1
    · simp [List.dropWhile, ha] at h
      obtain ⟨rfl, rfl⟩ := h
      simp [units, List.filter, ha]
    · simp [List.dropWhile, ha] at h
      have := ih h
      simp [units, List.filter, ha] at this ⊢
      exact this

theorem dropWhile_of_units_cons (N : Int) (l : List Int) (u : Int) (us : List Int)
    (h : units N l = u :: us) :
    ∃ rest, l.dropWhile (fun s => !decide (Int.gcd s N = 1)) = u :: rest ∧ units N rest = us := by
  induction l with
  | nil => simp [units] at h
  | cons a t ih =>
    by_cases ha : Int.gcd a N = 1
    · simp [units, List.filter, ha] at h
      obtain ⟨rfl, rfl⟩ := h
      exact ⟨t, by simp [List.dropWhile, ha], rfl⟩
    · simp [units, List.filter, ha] at h
      obtain ⟨rest, h1, h2⟩ := ih (by simpa [units] using h)
      exact ⟨rest, by simpa [List.dropWhile, ha] using h1, h2⟩

theorem getRandomLoop_eq (N : Int) (hN : 0 < N) (l : List Int) (g r : Int) (hg : g ≠ 1) :
    getRandomLoop N g r l =
      match l.dropWhile (fun s => !decide (Int.gcd s N = 1)) with
      | [] => .error .noEntropy
      | s :: rest => .ok (s, rest) := by
  induction l generalizing g r with
  | nil => simp [getRandomLoop, hg, not_le.mpr hN]
  | cons a t ih =>
    by_cases ha : Int.gcd a N = 1
    · simp [getRandomLoop, hg, not_le.mpr hN, List.dropWhile, ha]
      cases t <;> simp [getRandomLoop, ha]
    · have ha' : ((Int.gcd a N : Nat) : Int) ≠ 1 := by exact_mod_cast ha
      simp [getRandomLoop, hg, not_le.mpr hN, List.dropWhile, ha]
      exact ih _ _ ha'

theorem getRandom_of_units (N : Int) (hN : 0 < N) (rnd : Rand) (u : Int) (us : List Int)
    (h : units N rnd.crypto = u :: us) :
    getRandom N rnd = .ok (u, { rnd with crypto := afterUnit N rnd.crypto }) ∧
      units N (afterUnit N rnd.crypto) = us := by
  obtain ⟨rest, h1, h2⟩ := dropWhile_of_units_cons N _ u us h
  have := getRandomLoop_eq N hN rnd.crypto 0 0 (by decide)
  rw [h1] at this
  simp [getRandom, this, afterUnit, h1, h2]

theorem afterUnit_suffix (N : Int) (l : List Int) : afterUnit N l <:+ l :=
  (List.tail_suffix _).trans (List.dropWhile_suffix _)

theorem skipUnits_suffix (N : Int) (k : Nat) (l : List Int) : skipUnits N k l <:+ l := by
  induction k generalizing l with
  | zero => exact List.suffix_refl _
  | succ k ih => exact (ih _).trans (afterUnit_suffix N l)

theorem units_afterUnit (N : Int) (l : List Int) : units N (afterUnit N l) = (units N l).tail := by
  cases h : units N l with
  | nil =>
    have : ∀ s ∈ l, Int.gcd s N ≠ 1 := by
      intro s hs hc
      have : s ∈ units N l := by simp [units, hs, hc]
      rw [h] at this
      simp at this
    have hd : l.dropWhile (fun s => !decide (Int.gcd s N = 1)) = [] := by
      rw [List.dropWhile_eq_nil_iff]
      intro s hs
      simpa using this s hs
    simp [afterUnit, hd, units]
  | cons u us =>
    obtain ⟨rest, h1, h2⟩ := dropWhile_of_units_cons N _ u us h
    simp [afterUnit, h1, h2]

theorem units_skipUnits (N : Int) (k : Nat) (l : List Int) :
    units N (skipUnits N k l) = (units N l).drop k := by
  induction k generalizing l with
  | zero => simp [skipUnits]
  | succ k ih =>
    rw [skipUnits, ih, units_afterUnit]
    simp [List.drop_tail]

/-! ## `GenerateShares` -/

theorem store_append_replicate (pre : BigInts) (t : Nat) (v : Option Int) :
    store (pre ++ List.replicate (t + 1) none) pre.length v
      = .ok ((pre ++ [v]) ++ List.replicate t none) := by
  simp [store, List.replicate_succ]

theorem sharesLoop_past_slot (M : Int) (hM : 0 < M) (j : Nat) (todo : Nat) :
    ∀ (pre : BigInts) (sum : Int) (rnd : Rand), j < pre.length →
      todo ≤ (units M rnd.crypto).length →
      sharesLoop M j todo pre.length (pre ++ List.replicate todo none) sum rnd
        = .ok (pre ++ ((units M rnd.crypto).take todo).map some,
            sum + ((units M rnd.crypto).take todo).sum,
            { rnd with crypto := skipUnits M todo rnd.crypto }) := by
  induction todo with
  | zero => intro pre sum rnd _ _; simp [sharesLoop, skipUnits]
  | succ t ih =>
    intro pre sum rnd hj hlen
    cases hU : units M rnd.crypto with
    | nil => simp [hU] at hlen
    | cons u us =>
      obtain ⟨hg, hrest⟩ := getRandom_of_units M hM rnd u us hU
      have hne : pre.length ≠ j := by omega
      have hlen' : t ≤ (units M (afterUnit M rnd.crypto)).length := by
        rw [hrest]; simpa [hU] using hlen
      have := ih (pre ++ [some u]) (sum + u) { rnd with crypto := afterUnit M rnd.crypto }
        (by simp; omega) hlen'
      simp only [List.length_append, List.length_singleton] at this
      rw [sharesLoop]
      simp only [hne, ne_eq, not_false_eq_true, if_true, hg, store_append_replicate]
      rw [this]
      simp [hrest, skipUnits, add_assoc]

theorem sharesLoop_before_slot (M : Int) (hM : 0 < M) (j : Nat) (todo : Nat) :
    ∀ (pre : BigInts) (sum : Int) (rnd : Rand), pre.length ≤ j → j < pre.length + todo →
      todo - 1 ≤ (units M rnd.crypto).length →
      sharesLoop M j todo pre.length (pre ++ List.replicate todo none) sum rnd
        = .ok (pre ++ (((units M rnd.crypto).take (j - pre.length)).map some ++
              none :: (((units M rnd.crypto).drop (j - pre.length)).take
                (todo - 1 - (j - pre.length))).map some),
            sum + ((units M rnd.crypto).take (todo - 1)).sum,
            { rnd with crypto := skipUnits M (todo - 1) rnd.crypto }) := by
  induction todo with
  | zero => intro pre sum rnd h1 h2; omega
  | succ t ih =>
    intro pre sum rnd h1 h2 hlen
    by_cases hij : pre.length = j
    · -- the slot itself: nothing is drawn
      subst hij
      have := sharesLoop_past_slot M hM pre.length t (pre ++ [none]) sum rnd (by simp)
        (by simpa using hlen)
      simp only [List.length_append, List.length_singleton] at this
      rw [sharesLoop]
      simp only [ne_eq, not_true_eq_false, if_false]
      have e : pre ++ List.replicate (t + 1) none = (pre ++ [none]) ++ List.replicate t none := by
        simp [List.replicate_succ]
      rw [e, this]
      simp
    · have hlt : pre.length < j := lt_of_le_of_ne h1 hij
      have ht : 1 ≤ t := by omega
      cases hU : units M rnd.crypto with
      | nil => simp [hU] at hlen; omega
      | cons u us =>
        obtain ⟨hg, hrest⟩ := getRandom_of_units M hM rnd u us hU
        have hlen' : t - 1 ≤ (units M (afterUnit M rnd.crypto)).length := by
          rw [hrest]; simp [hU] at hlen; omega
        have := ih (pre ++ [some u]) (sum + u) { rnd with crypto := afterUnit M rnd.crypto }
          (by simp; omega) (by simp; omega) hlen'
        simp only [List.length_append, List.length_singleton] at this
        rw [sharesLoop]
        simp only [hij, ne_eq, not_false_eq_true, if_true, hg, store_append_replicate]
        rw [this, hrest]
        have e1 : j - pre.length = (j - (pre.length + 1)) + 1 := by omega
        have e2 : t + 1 - 1 = (t - 1) + 1 := by omega
        have e3 : t + 1 - 1 - (j - pre.length) = t - 1 - (j - (pre.length + 1)) := by omega
        rw [e3, e2, e1]
        simp [skipUnits, add_assoc]

theorem set_at_length {α : Type} (a b : List α) (x v : α) (j : Nat) (h : a.length = j) :
    (a ++ x :: b).set j v = a ++ v :: b := by
  subst h
  induction a with
  | nil => rfl
  | cons y t ih => simp [ih]

theorem GenerateShares_eq (secret n M : Int) (rnd : Rand) (j : Nat) (sl : List Nat)
    (hM : 0 < M) (hslots : rnd.slots = j :: sl) (hj : (j : Int) < n)
    (hlen : n.toNat - 1 ≤ (units M rnd.crypto).length) :
    GenerateShares secret n M rnd
      = .ok ((sharesSpec secret M j n.toNat (units M rnd.crypto)).map some,
          { crypto := skipUnits M (n.toNat - 1) rnd.crypto, slots := sl }) := by
  have hn0 : ¬ n < 0 := by omega
  have hn1 : ¬ n ≤ 0 := by omega
  have hjn : j < n.toNat := by omega
  have hloop := sharesLoop_before_slot M hM j n.toNat [] 0
    { rnd with slots := sl } (by simp) (by simpa using hjn) (by simpa using hlen)
  simp only [List.length_nil, List.nil_append, Nat.sub_zero, zero_add] at hloop
  unfold GenerateShares
  simp only [hn0, if_false, Intn, hn1, hslots, hloop, bigMod, hM.ne', store]
  have hl : j < (List.map some (List.take j (units M rnd.crypto)) ++
      none :: List.map some (List.take (n.toNat - 1 - j)
        (List.drop j (units M rnd.crypto)))).length := by
    simp only [List.length_append, List.length_map, List.length_take, List.length_cons,
      List.length_drop]
    omega
  simp only [hl, if_true]
  have hj' : j = (List.map some (List.take j (units M rnd.crypto))).length := by
    simp only [List.length_map, List.length_take]; omega
  congr 2
  rw [set_at_length _ _ _ _ _ hj'.symm]
  simp [sharesSpec]

theorem sharesSpec_length (secret M : Int) (j n : Nat) (us : List Int)
    (hj : j < n) (hlen : n - 1 ≤ us.length) :
    (sharesSpec secret M j n us).length = n := by
  simp only [sharesSpec, List.length_append, List.length_take, List.length_cons,
    List.length_drop]
  omega

theorem take_sum_split (us : List Int) (j m : Nat) :
    (us.take (j + m)).sum = (us.take j).sum + ((us.drop j).take m).sum := by
  rw [List.take_add, List.sum_append]

theorem sharesSpec_sum (secret M : Int) (j n : Nat) (us : List Int) (hj : j < n) :
    (sharesSpec secret M j n us).sum % M = secret % M := by
  have e : n - 1 = j + (n - 1 - j) := by omega
  have hs := take_sum_split us j (n - 1 - j)
  rw [← e] at hs
  simp only [sharesSpec, List.sum_append, List.sum_cons]
  have : (us.take j).sum + ((secret - (us.take (n - 1)).sum) % M +
      ((us.drop j).take (n - 1 - j)).sum)
      = (us.take (n - 1)).sum + (secret - (us.take (n - 1)).sum) % M := by
    rw [hs]; ring
  rw [this, Int.add_emod, Int.emod_emod, ← Int.add_emod]
  congr 1
  ring

theorem sharesSpec_mem (secret M : Int) (j n : Nat) (us : List Int) (v : Int)
    (hv : v ∈ sharesSpec secret M j n us) :
    v ∈ us ∨ v = (secret - (us.take (n - 1)).sum) % M := by
  simp only [sharesSpec, List.mem_append, List.mem_cons] at hv
  rcases hv with h | h | h
  · exact Or.inl (List.mem_of_mem_take h)
  · exact Or.inr h
  · exact Or.inl (List.mem_of_mem_drop (List.mem_of_mem_take h))

theorem units_mem (N : Int) (l : List Int) (v : Int) (hv : v ∈ units N l) :
    v ∈ l ∧ Int.gcd v N = 1 := by
  simpa [units] using hv

/-! ## `ModInverse` and `GenerateBeaverTriplet` -/

theorem ModInverse_of_coprime (g n : Int) (h : Int.gcd g n = 1) :
    ∃ z, ModInverse g n = some z ∧ g * z ≡ 1 [ZMOD n] := by
  refine ⟨Int.gcdA g n % n, by simp [ModInverse, h], ?_⟩
  have hb := Int.gcd_eq_gcd_ab g n
  rw [h] at hb
  have h1 : g * Int.gcdA g n ≡ 1 [ZMOD n] := by
    have : g * Int.gcdA g n = 1 - n * Int.gcdB g n := by
      have : (1 : Int) = g * Int.gcdA g n + n * Int.gcdB g n := by exact_mod_cast hb
      linarith
    rw [this]
    exact Int.modEq_iff_dvd.mpr ⟨Int.gcdB g n, by ring⟩
  exact ((Int.mod_modEq _ _).mul_left g).trans h1

theorem coprime_of_inverse (a z n : Int) (h : a * z ≡ 1 [ZMOD n]) : Int.gcd z n = 1 := by
  rw [← Int.isCoprime_iff_gcd_eq_one]
  obtain ⟨k, hk⟩ := Int.modEq_iff_dvd.mp h
  exact ⟨a, k, by linarith⟩

theorem beaver_second_branch (x y yi t N : Int) (hy : y * yi ≡ 1 [ZMOD N])
    (ht : x * yi * t ≡ 1 [ZMOD N]) : x * t ≡ y [ZMOD N] := by
  have h1 : x * t * (y * yi) ≡ x * t * 1 [ZMOD N] := hy.mul_left _
  have h2 : y * (x * yi * t) ≡ y * 1 [ZMOD N] := ht.mul_left _
  have e : x * t * (y * yi) = y * (x * yi * t) := by ring
  rw [e] at h1
  simpa using h1.symm.trans h2

/-! ## `Setup` -/

theorem skipUnits_add (N : Int) (a b : Nat) (l : List Int) :
    skipUnits N (a + b) l = skipUnits N b (skipUnits N a l) := by
  induction a generalizing l with
  | zero => simp [skipUnits]
  | succ a ih =>
    rw [Nat.succ_add, skipUnits, ih, skipUnits]

theorem setupShares_eq (n M : Int) (hM : 0 < M) (parcels : List Int) :
    ∀ (rnd : Rand), parcels.length ≤ rnd.slots.length →
      (∀ j ∈ rnd.slots.take parcels.length, (j : Int) < n) →
      parcels.length * (n.toNat - 1) ≤ (units M rnd.crypto).length →
      setupShares n M parcels rnd
        = .ok ((rowsSpec M n.toNat parcels rnd.slots (units M rnd.crypto)).map (List.map some),
            { crypto := skipUnits M (parcels.length * (n.toNat - 1)) rnd.crypto,
              slots := rnd.slots.drop parcels.length }) := by
  induction parcels with
  | nil => intro rnd _ _ _; simp [setupShares, rowsSpec, skipUnits]
  | cons p ps ih =>
    intro rnd hk hj hu
    obtain ⟨cr, sls⟩ := rnd
    cases sls with
    | nil => simp at hk
    | cons j js =>
      simp only [List.length_cons, Nat.succ_mul] at hk hj hu ⊢
      have hj0 : (j : Int) < n := hj j (by simp [List.take])
      have h1 := GenerateShares_eq p n M ⟨cr, j :: js⟩ j js hM rfl hj0 (by simp only; omega)
      have h2 := ih ⟨skipUnits M (n.toNat - 1) cr, js⟩ (by simpa using hk)
        (fun x hx => hj x (by simp [List.take, hx]))
        (by simp only [units_skipUnits, List.length_drop]; omega)
      simp only [units_skipUnits] at h2
      rw [setupShares, h1]
      simp only [h2, rowsSpec, List.map_cons, List.drop_succ_cons]
      rw [Nat.add_comm (ps.length * (n.toNat - 1)), skipUnits_add]

theorem spawnLoop_ok (param : Parameters) (ba : BroadcastAgent) (todo : Nat) :
    ∀ (i : Nat) (dim : DistributedIntMean), i ≤ dim.parties.length →
      ∃ dim1, spawnLoop param ba todo i dim = .ok dim1 ∧ dim1.param = dim.param ∧
        dim1.parcels = dim.parcels ∧ dim1.shares = dim.shares ∧ dim1.ba = dim.ba ∧
        dim1.result = dim.result ∧ dim1.parties.length = dim.parties.length + todo := by
  induction todo with
  | zero => intro i dim _; exact ⟨dim, rfl, rfl, rfl, rfl, rfl, rfl, rfl⟩
  | succ t ih =>
    intro i dim hi
    have hl : i < (dim.parties ++ [dim.parties.length]).length := by simp; omega
    obtain ⟨ch, hch⟩ : ∃ ch, load (dim.parties ++ [dim.parties.length]) i = .ok ch := by
      unfold load
      rw [List.getElem?_eq_getElem hl]
      exact ⟨_, rfl⟩
    rw [spawnLoop]
    simp only [hch]
    obtain ⟨d, hd, h1, h2, h3, h4, h5, h6⟩ := ih (i + 1)
      { dim with
        parties := dim.parties ++ [dim.parties.length]
        wg := dim.wg + 1
        workers := dim.workers ++ [{ id := i, param := param, ba := ba, client := ch }] }
      (by simp; omega)
    refine ⟨d, hd, h1, h2, h3, h4, h5, ?_⟩
    rw [h6]; simp; omega

theorem spawnLoop_fresh (param : Parameters) (todo : Nat) :
    ∀ (i : Nat) (dim : DistributedIntMean), dim.parties = List.range i →
      dim.workers = (List.range i).map (freshWorker param) →
      spawnLoop param (NewBroadcastAgent param.n) todo i dim
        = .ok { dim with
            parties := List.range (i + todo)
            wg := dim.wg + todo
            workers := (List.range (i + todo)).map (freshWorker param) } := by
  induction todo with
  | zero =>
    intro i dim hp hw
    simp only [spawnLoop, Nat.add_zero, Nat.cast_zero, add_zero]
    rw [← hw, ← hp]
  | succ t ih =>
    intro i dim hp hw
    have hch : load (dim.parties ++ [dim.parties.length]) i = .ok i := by
      simp [load, hp]
    rw [spawnLoop]
    simp only [hch]
    rw [ih (i + 1) _ (by simp [hp, List.range_succ]) (by simp [hw, List.range_succ, freshWorker])]
    have e : i + 1 + t = i + (t + 1) := by omega
    simp only [Nat.cast_succ, e, add_assoc]
    congr 2
    ring

/-! ## `PartyRun` and the exchange of `Run` -/

theorem partySum_some (vals : List Int) (sum : Int) :
    partySum sum (vals.map some) = .ok (sum + vals.sum) := by
  induction vals generalizing sum with
  | nil => simp [partySum]
  | cons a t ih => simp [partySum, bigAdd, ih, add_assoc]

theorem ediv_small (s k M : Int) (hs : 0 ≤ s) (hsM : s < M) (hk : 0 < k) :
    (s / k) % M = s / k ∧ (s % k) % M = s % k := by
  have h1 : 0 ≤ s / k := Int.ediv_nonneg hs hk.le
  have h2 : s / k ≤ s := Int.ediv_le_self k hs
  have h3 : 0 ≤ s % k := Int.emod_nonneg _ hk.ne'
  have h4 : s % k ≤ s := by
    have := Int.emod_add_ediv s k
    nlinarith
  exact ⟨Int.emod_eq_of_lt h1 (by omega), Int.emod_eq_of_lt h3 (by omega)⟩

theorem PartyRun_eq (w : DistributedIntMeanParty) (vals : List Int) (hM : 0 < w.param.M)
    (hk : vals ≠ []) :
    PartyRun w (vals.map some) = .ok (toReply (replySpec w.param.M vals)) := by
  have hlen : (0 : Int) < (vals.length : Int) := by
    cases vals with
    | nil => exact absurd rfl hk
    | cons a t => simp only [List.length_cons]; omega
  have hs0 := Int.emod_nonneg vals.sum hM.ne'
  have hs1 := Int.emod_lt_of_pos vals.sum hM
  obtain ⟨e1, e2⟩ := ediv_small (vals.sum % w.param.M) vals.length w.param.M hs0 hs1 hlen
  unfold PartyRun
  simp only [partySum_some, zero_add, bigMod, hM.ne', if_false, bigDivMod, List.length_map,
    hlen.ne', e1, e2, toReply, replySpec]

theorem load_map_some (r : List Int) (i : Nat) (hi : i < r.length) :
    load (r.map some) i = .ok (some (r.getD i 0)) := by
  simp [load, List.getElem?_eq_getElem hi, List.getD_eq_getElem _ _ hi]

theorem column_eq (i : Nat) (rows : List (List Int)) (h : ∀ r ∈ rows, i < r.length) :
    column i (rows.map (List.map some)) = .ok ((colSpec i rows).map some) := by
  induction rows with
  | nil => simp [column, colSpec]
  | cons r t ih =>
    have h1 := load_map_some r i (h r (by simp))
    have h2 := ih (fun x hx => h x (by simp [hx]))
    simp only [List.map_cons, column, h1, h2, colSpec]

theorem takeListener_fresh (param : Parameters) (i m : Nat) :
    takeListener i ((List.range' i (m + 1)).map (freshWorker param))
      = some (freshWorker param i, (List.range' (i + 1) m).map (freshWorker param)) := by
  simp [List.range', takeListener, freshWorker]

theorem sendLoop_fresh (param : Parameters) (hM : 0 < param.M) (rows : List (List Int))
    (hrows : rows ≠ []) (m : Nat) :
    ∀ (i : Nat) (offered : List (Nat × BigInts)), (∀ r ∈ rows, i + m ≤ r.length) →
      sendLoop (rows.map (List.map some)) i (List.range' i m)
          ((List.range' i m).map (freshWorker param)) offered
        = .ok (offered ++ (List.range' i m).map
            (fun t => (t, toReply (replySpec param.M (colSpec t rows)))), []) := by
  induction m with
  | zero => intro i offered _; simp [sendLoop]
  | succ m ih =>
    intro i offered h
    have hcol := column_eq i rows (fun r hr => by have := h r hr; omega)
    have hne : colSpec i rows ≠ [] := by
      cases rows with
      | nil => exact absurd rfl hrows
      | cons a t => simp [colSpec]
    have hp := PartyRun_eq (freshWorker param i) (colSpec i rows) hM hne
    have hih := ih (i + 1)
      (offered ++ [(i, toReply (replySpec param.M (colSpec i rows)))])
      (fun r hr => by have := h r hr; omega)
    rw [List.range'_succ, sendLoop]
    simp only [hcol]
    rw [← List.range'_succ, takeListener_fresh]
    simp only [hp]
    rw [show (freshWorker param i).param.M = param.M from rfl, hih]
    simp [List.range'_succ]

theorem recvLoop_fresh (f : Nat → BigInts) (m : Nat) :
    ∀ (i : Nat) (pre : List BigInts) (wg : Int), pre.length = i →
      recvLoop i (List.range' i m) (pre ++ List.replicate m [])
          ((List.range' i m).map (fun t => (t, f t))) wg
        = .ok (pre ++ (List.range' i m).map f, [], wg - m) := by
  induction m with
  | zero => intro i pre wg _; simp [recvLoop]
  | succ m ih =>
    intro i pre wg hpre
    have hst : store (pre ++ List.replicate (m + 1) []) i (f i)
        = .ok ((pre ++ [f i]) ++ List.replicate m []) := by
      subst hpre
      simp [store, List.replicate_succ]
    rw [List.range'_succ, recvLoop]
    simp only [List.map_cons, takeReply, if_true, hst]
    rw [ih (i + 1) (pre ++ [f i]) (wg - 1) (by simp [hpre])]
    simp only [List.append_assoc, List.singleton_append, Nat.cast_succ]
    congr 3
    ring

/-! ## The reconstruction of `Run` -/

theorem sumReplies_eq (replies : List (Int × Int)) (z sumMod : Int) :
    sumReplies z sumMod (replies.map toReply)
      = .ok (z + (replies.map Prod.fst).sum, sumMod + (replies.map Prod.snd).sum) := by
  induction replies generalizing z sumMod with
  | nil => simp [sumReplies]
  | cons a t ih =>
    simp [sumReplies, toReply, load, bigAdd, ih, add_assoc]

theorem reconstruct_eq (replies : List (Int × Int)) (M : Int) (k : Nat)
    (h : M / (k : Int) ≠ 0) :
    reconstruct M k (replies.map toReply)
      = .ok (toInt64 ((replies.map Prod.fst).sum % (M / (k : Int))),
          (((replies.map Prod.snd).sum + (replies.map Prod.fst).sum % (M / (k : Int)))
            / (k : Int)) % (M / (k : Int))) := by
  have hk : (k : Int) ≠ 0 := by
    intro h0
    rw [h0, Int.ediv_zero] at h
    exact h rfl
  unfold reconstruct
  simp only [sumReplies_eq, zero_add, bigDiv, hk, if_false, bigMod, h]

theorem exchange_configured (param : Parameters) (args : List Int) (rows : List (List Int))
    (hn : 0 ≤ param.n) (hM : 0 < param.M) (hrows : rows ≠ [])
    (hlen : ∀ r ∈ rows, r.length = param.n.toNat) :
    exchange (configured param args rows)
      = .ok ((repliesSpec param.M param.n.toNat rows).map toReply, [], 0) := by
  have hs := sendLoop_fresh param hM rows hrows param.n.toNat 0 []
    (fun r hr => by rw [hlen r hr]; omega)
  have hr := recvLoop_fresh (fun t => toReply (replySpec param.M (colSpec t rows)))
    param.n.toNat 0 [] param.n rfl
  have hn' : ¬ param.n < 0 := by omega
  have e : ((param.n.toNat : Nat) : Int) = param.n := Int.toNat_of_nonneg hn
  have hmap : (List.range' 0 param.n.toNat).map
      (fun t => toReply (replySpec param.M (colSpec t rows)))
      = (repliesSpec param.M param.n.toNat rows).map toReply := by
    simp [repliesSpec, List.range_eq_range']
  rw [List.nil_append] at hs hr
  rw [List.nil_append, hmap, e, sub_self] at hr
  unfold exchange
  simp only [configured, List.range_eq_range', hs, hn', if_false, hr]

theorem Run_of_exchange (dim : DistributedIntMean) (param : Parameters)
    (replies : List (Int × Int)) (waiting : List DistributedIntMeanParty)
    (hp : dim.param = some param) (h : param.M / (dim.parcels.length : Int) ≠ 0)
    (hex : exchange dim = .ok (replies.map toReply, waiting, 0)) :
    Run dim
      = .ok (none,
          { dim with
            result := toInt64
              ((replies.map Prod.fst).sum % (param.M / (dim.parcels.length : Int)))
            wg := 0
            workers := waiting }) := by
  unfold Run
  simp only [hex, hp, reconstruct_eq _ _ _ h, ne_eq, not_true_eq_false, if_false]

theorem Run_configured (param : Parameters) (args : List Int) (rows : List (List Int))
    (hn : 0 ≤ param.n) (hM : 0 < param.M) (hrows : rows ≠ [])
    (hlen : ∀ r ∈ rows, r.length = param.n.toNat)
    (h : param.M / (args.length : Int) ≠ 0) :
    Run (configured param args rows)
      = .ok (none,
          { configured param args rows with
            result := toInt64
              (((repliesSpec param.M param.n.toNat rows).map Prod.fst).sum
                % (param.M / (args.length : Int)))
            wg := 0
            workers := [] }) :=
  Run_of_exchange (configured param args rows) param _ [] rfl h
    (exchange_configured param args rows hn hM hrows hlen)

/-! ## `Setup` on a fresh instance and the share matrix -/

theorem Setup_fresh_eq (param : Parameters) (args : List Int) (rnd : Rand)
    (hn : 2 ≤ param.n) (hM : 0 < param.M) (hargs : args ≠ [])
    (hk : args.length ≤ rnd.slots.length)
    (hj : ∀ j ∈ rnd.slots.take args.length, (j : Int) < param.n)
    (hu : args.length * (param.n.toNat - 1) ≤ (units param.M rnd.crypto).length) :
    Setup NewDistributedIntMean param args rnd
      = .ok (none,
          configured param args
            (rowsSpec param.M param.n.toNat args rnd.slots (units param.M rnd.crypto)),
          { crypto := skipUnits param.M (args.length * (param.n.toNat - 1)) rnd.crypto
            slots := rnd.slots.drop args.length }) := by
  have h1 : ¬ param.n < 2 := by omega
  have h2 : ¬ args.length < 1 := by
    cases args with
    | nil => exact absurd rfl hargs
    | cons a t => simp
  unfold Setup
  simp only [h1, h2, if_false, setupShares_eq param.n param.M hM args rnd hk hj hu]
  rw [spawnLoop_fresh param param.n.toNat 0 _ (by simp [NewDistributedIntMean])
    (by simp [NewDistributedIntMean])]
  have e : ((param.n.toNat : Nat) : Int) = param.n := Int.toNat_of_nonneg (by omega)
  simp only [NewDistributedIntMean, zero_add, e, configured]

theorem rowsSpec_props (M : Int) (n : Nat) (parcels : List Int) :
    ∀ (js : List Nat) (us : List Int), parcels.length ≤ js.length →
      (∀ j ∈ js.take parcels.length, j < n) → parcels.length * (n - 1) ≤ us.length →
      (rowsSpec M n parcels js us).length = parcels.length ∧
        (∀ r ∈ rowsSpec M n parcels js us, r.length = n) ∧
        ((rowsSpec M n parcels js us).map List.sum).sum ≡ parcels.sum [ZMOD M] := by
  induction parcels with
  | nil => intro js us _ _ _; simp [rowsSpec, Int.ModEq]
  | cons p ps ih =>
    intro js us hk hj hu
    cases js with
    | nil => simp at hk
    | cons j js =>
      simp only [List.length_cons, Nat.succ_mul] at hk hj hu
      have hj0 : j < n := hj j (by simp [List.take])
      obtain ⟨h1, h2, h3⟩ := ih js (us.drop (n - 1)) (by omega)
        (fun x hx => hj x (by simp [List.take, hx]))
        (by simp only [List.length_drop]; omega)
      refine ⟨by simp [rowsSpec, h1], ?_, ?_⟩
      · intro r hr
        simp only [rowsSpec, List.mem_cons] at hr
        rcases hr with rfl | hr
        · exact sharesSpec_length p M j n us hj0 (by omega)
        · exact h2 r hr
      · simp only [rowsSpec, List.map_cons, List.sum_cons]
        exact Int.ModEq.add (sharesSpec_sum p M j n us hj0) h3

/-! ## Arithmetic of the reconstruction -/

theorem map_getD_range (r : List Int) :
    (List.range r.length).map (fun t => r.getD t 0) = r := by
  apply List.ext_getElem (by simp)
  intro i h1 h2
  simp [List.getElem?_eq_getElem h2]

theorem sum_columns_eq_sum_rows (n : Nat) (rows : List (List Int))
    (h : ∀ r ∈ rows, r.length = n) :
    ((List.range n).map (fun t => (colSpec t rows).sum)).sum = (rows.map List.sum).sum := by
  induction rows with
  | nil => simp [colSpec]
  | cons r t ih =>
    have hr : r.length = n := h r (by simp)
    have e : ((List.range n).map (fun t => r.getD t 0)).sum = r.sum := by
      rw [← hr, map_getD_range]
    simp only [colSpec, List.map_cons, List.sum_cons] at ih ⊢
    rw [List.sum_map_add, e, ih (fun x hx => h x (by simp [hx]))]

theorem sum_map_emod_modEq (M : Int) (xs : List Int) :
    (xs.map (fun x => x % M)).sum ≡ xs.sum [ZMOD M] := by
  induction xs with
  | nil => rfl
  | cons a t ih =>
    simp only [List.map_cons, List.sum_cons]
    exact Int.ModEq.add (Int.mod_modEq a M) ih

theorem sum_bounds (M : Int) (ss : List Int) (h : ∀ s ∈ ss, 0 ≤ s ∧ s < M) :
    0 ≤ ss.sum ∧ ss.sum ≤ (ss.length : Int) * (M - 1) := by
  induction ss with
  | nil => simp
  | cons a t ih =>
    obtain ⟨h1, h2⟩ := ih (fun x hx => h x (by simp [hx]))
    obtain ⟨h3, h4⟩ := h a (by simp)
    simp only [List.sum_cons, List.length_cons, Nat.cast_succ]
    constructor
    · omega
    · nlinarith

theorem quot_rem_sum (k : Int) (ss : List Int) :
    k * (ss.map (fun s => s / k)).sum + (ss.map (fun s => s % k)).sum = ss.sum := by
  induction ss with
  | nil => simp
  | cons a t ih =>
    simp only [List.map_cons, List.sum_cons]
    have := Int.emod_add_ediv a k
    linarith

theorem rem_sum_bounds (k : Int) (hk : 0 < k) (ss : List Int) :
    0 ≤ (ss.map (fun s => s % k)).sum ∧
      (ss.map (fun s => s % k)).sum ≤ (ss.length : Int) * (k - 1) := by
  have := sum_bounds k (ss.map (fun s => s % k)) (by
    intro s hs
    obtain ⟨x, _, rfl⟩ := List.mem_map.mp hs
    exact ⟨Int.emod_nonneg _ hk.ne', Int.emod_lt_of_pos _ hk⟩)
  simpa using this

theorem near_mean_core (k M S : Int) (ss : List Int) (hk : 0 < k) (hM : 0 < M)
    (hn : 1 ≤ ss.length) (hss : ∀ s ∈ ss, 0 ≤ s ∧ s < M) (hcong : ss.sum ≡ S [ZMOD M])
    (hS0 : 0 ≤ S) (hSM : S < M) :
    ∃ δ : Int, -((ss.length : Int) - 1) ≤ δ ∧ δ ≤ (ss.length : Int) - 1 ∧
      (ss.map (fun s => s / k)).sum % (M / k) = (S / k + δ) % (M / k) := by
  obtain ⟨c, hc⟩ := Int.modEq_iff_dvd.mp hcong.symm
  obtain ⟨hs0, hs1⟩ := sum_bounds M ss hss
  obtain ⟨hR0, hR1⟩ := rem_sum_bounds k hk ss
  have hqr := quot_rem_sum k ss
  have hn' : (1 : Int) ≤ (ss.length : Int) := by exact_mod_cast hn
  set n : Int := (ss.length : Int) with hn_def
  set Z := (ss.map (fun s => s / k)).sum with hZ
  set R := (ss.map (fun s => s % k)).sum with hR
  -- the number of wrap-arounds
  have hc0 : 0 ≤ c := by
    by_contra hneg
    have : c ≤ -1 := by omega
    nlinarith
  have hc1 : c ≤ n - 1 := by
    by_contra hneg
    have : n ≤ c := by omega
    nlinarith
  have hMd := Int.emod_add_ediv M k
  have hSd := Int.emod_add_ediv S k
  have hm0 := Int.emod_nonneg M hk.ne'
  have hm1 := Int.emod_lt_of_pos M hk
  have hr0 := Int.emod_nonneg S hk.ne'
  have hr1 := Int.emod_lt_of_pos S hk
  have hkey : k * (Z - c * (M / k) - S / k) = S % k + (M % k) * c - R := by
    have e1 : k * Z = S + M * c - R := by linarith
    have e2 : M * c = (M % k) * c + k * (M / k) * c := by
      conv_lhs => rw [← hMd]
      ring
    have e3 : S = S % k + k * (S / k) := hSd.symm
    calc k * (Z - c * (M / k) - S / k)
        = k * Z - k * (M / k) * c - k * (S / k) := by ring
      _ = S % k + (M % k) * c - R := by rw [e1, e2]; linarith
  have hmc0 : 0 ≤ (M % k) * c := mul_nonneg hm0 hc0
  have hmc1 : (M % k) * c ≤ (k - 1) * (n - 1) :=
    mul_le_mul (by omega) hc1 hc0 (by omega)
  refine ⟨Z - c * (M / k) - S / k, ?_, ?_, ?_⟩
  · have : -(n * k) < k * (Z - c * (M / k) - S / k) := by
      rw [hkey]; nlinarith
    have : k * (-n) < k * (Z - c * (M / k) - S / k) := by linarith
    have := lt_of_mul_lt_mul_left this hk.le
    omega
  · have : k * (Z - c * (M / k) - S / k) < k * n := by
      rw [hkey]; nlinarith
    have := lt_of_mul_lt_mul_left this hk.le
    omega
  · have e : Z = (S / k + (Z - c * (M / k) - S / k)) + c * (M / k) := by ring
    conv_lhs => rw [e]
    exact Int.add_mul_emod_self

/-! ## `Setup` followed by `Run` on a fresh instance -/

theorem toInt64_small (z : Int) (h0 : 0 ≤ z) (h1 : z < 2 ^ 63) : toInt64 z = z := by
  have e : ((z.natAbs : Nat) : Int) = z := Int.natAbs_of_nonneg h0
  have h2 : ¬ z < 0 := by omega
  simp only [toInt64, wrap64, e, h2, if_false]
  omega

theorem repliesSpec_quotients (M : Int) (n : Nat) (rows : List (List Int)) :
    (repliesSpec M n rows).map Prod.fst
      = ((List.range n).map (fun t => (colSpec t rows).sum % M)).map
          (fun s => s / (rows.length : Int)) := by
  simp [repliesSpec, replySpec, colSpec, Function.comp_def]

theorem protocol_near_mean (param : Parameters) (args : List Int) (rnd : Rand)
    (hn : 2 ≤ param.n) (hargs : args ≠ [])
    (hk : args.length ≤ rnd.slots.length)
    (hj : ∀ j ∈ rnd.slots.take args.length, (j : Int) < param.n)
    (hu : args.length * (param.n.toNat - 1) ≤ (units param.M rnd.crypto).length)
    (hS0 : 0 ≤ args.sum) (hSM : args.sum < param.M)
    (hdiv : param.M / (args.length : Int) ≠ 0) :
    ∃ (dim1 : DistributedIntMean) (rnd1 : Rand) (dim2 : DistributedIntMean) (δ : Int),
      Setup NewDistributedIntMean param args rnd = .ok (none, dim1, rnd1) ∧
      Run dim1 = .ok (none, dim2) ∧
      -(param.n - 1) ≤ δ ∧ δ ≤ param.n - 1 ∧
      Output dim2 = toInt64
        ((args.sum / (args.length : Int) + δ) % (param.M / (args.length : Int))) := by
  have hM : 0 < param.M := by omega
  have hlen0 : 0 < args.length := List.length_pos.mpr hargs
  have hkpos : (0 : Int) < (args.length : Int) := by exact_mod_cast hlen0
  have e : ((param.n.toNat : Nat) : Int) = param.n := Int.toNat_of_nonneg (by omega)
  obtain ⟨hr1, hr2, hr3⟩ := rowsSpec_props param.M param.n.toNat args rnd.slots
    (units param.M rnd.crypto) hk (fun j hj' => by have := hj j hj'; omega) hu
  set rows := rowsSpec param.M param.n.toNat args rnd.slots (units param.M rnd.crypto)
    with hrows
  have hne : rows ≠ [] := by
    intro h0
    rw [h0] at hr1
    simp at hr1
    omega
  have hsetup := Setup_fresh_eq param args rnd hn hM hargs hk hj hu
  have hrun := Run_configured param args rows (by omega) hM hne hr2 hdiv
  -- the reduced column sums
  set ss := (List.range param.n.toNat).map (fun t => (colSpec t rows).sum % param.M) with hss
  have hsslen : ss.length = param.n.toNat := by simp [hss]
  have hcong : ss.sum ≡ args.sum [ZMOD param.M] := by
    have h1 := sum_map_emod_modEq param.M
      ((List.range param.n.toNat).map (fun t => (colSpec t rows).sum))
    rw [List.map_map] at h1
    have h2 := sum_columns_eq_sum_rows param.n.toNat rows hr2
    rw [h2] at h1
    exact h1.trans hr3
  obtain ⟨δ, hd1, hd2, hd3⟩ := near_mean_core (args.length : Int) param.M args.sum ss hkpos hM
    (by rw [hsslen]; omega)
    (by
      intro s hs
      obtain ⟨t, _, rfl⟩ := List.mem_map.mp hs
      exact ⟨Int.emod_nonneg _ hM.ne', Int.emod_lt_of_pos _ hM⟩)
    hcong hS0 hSM
  rw [hsslen, e] at hd1 hd2
  refine ⟨_, _, _, δ, hsetup, hrun, hd1, hd2, ?_⟩
  simp only [Output]
  rw [repliesSpec_quotients, hr1, ← hd3]

theorem session_near_mean (param : Parameters) (args : List Int) (rnd : Rand)
    (hn : 2 ≤ param.n) (hargs : args ≠ [])
    (hk : args.length ≤ rnd.slots.length)
    (hj : ∀ j ∈ rnd.slots.take args.length, (j : Int) < param.n)
    (hu : args.length * (param.n.toNat - 1) ≤ (units param.M rnd.crypto).length)
    (hS0 : 0 ≤ args.sum) (hSM : args.sum < param.M)
    (hdiv : param.M / (args.length : Int) ≠ 0) :
    ∃ δ : Int, -(param.n - 1) ≤ δ ∧ δ ≤ param.n - 1 ∧
      session param args rnd = .ok (toInt64
        ((args.sum / (args.length : Int) + δ) % (param.M / (args.length : Int)))) := by
  obtain ⟨dim1, rnd1, dim2, δ, h1, h2, h3, h4, h5⟩ :=
    protocol_near_mean param args rnd hn hargs hk hj hu hS0 hSM hdiv
  refine ⟨δ, h3, h4, ?_⟩
  unfold session
  simp only [h1, h2, h5]

theorem session_in_band (param : Parameters) (args : List Int) (rnd : Rand)
    (hn : 2 ≤ param.n) (hargs : args ≠ [])
    (hk : args.length ≤ rnd.slots.length)
    (hj : ∀ j ∈ rnd.slots.take args.length, (j : Int) < param.n)
    (hu : args.length * (param.n.toNat - 1) ≤ (units param.M rnd.crypto).length)
    (hS0 : 0 ≤ args.sum) (hSM : args.sum < param.M)
    (hlo : param.n - 1 ≤ args.sum / (args.length : Int))
    (hhi : args.sum / (args.length : Int) + (param.n - 1) < param.M / (args.length : Int))
    (h63 : args.sum / (args.length : Int) + (param.n - 1) < 2 ^ 63) :
    ∃ v : Int, session param args rnd = .ok v ∧
      args.sum / (args.length : Int) - (param.n - 1) ≤ v ∧
      v ≤ args.sum / (args.length : Int) + (param.n - 1) := by
  obtain ⟨δ, h1, h2, h3⟩ := session_near_mean param args rnd hn hargs hk hj hu hS0 hSM
    (by omega)
  have hz0 : 0 ≤ args.sum / (args.length : Int) + δ := by omega
  have hz1 : args.sum / (args.length : Int) + δ < param.M / (args.length : Int) := by omega
  rw [Int.emod_eq_of_lt hz0 hz1, toInt64_small _ hz0 (by omega)] at h3
  exact ⟨_, h3, by omega, by omega⟩

/-! ## `prime128` is prime -/

theorem powMod_eq (p a : Nat) (fuel : Nat) : ∀ e : Nat, e < 2 ^ fuel →
    powMod p a fuel e = a ^ e % p := by
  induction fuel with
  | zero =>
    intro e he
    have : e = 0 := by simpa using he
    simp [powMod, this]
  | succ f ih =>
    intro e he
    have hhalf : e / 2 < 2 ^ f := by
      rw [pow_succ] at he
      omega
    rw [powMod, ih _ hhalf]
    by_cases h0 : e = 0
    · simp [h0]
    · simp only [h0, if_false]
      have hsplit : e = 2 * (e / 2) + e % 2 := (Nat.div_add_mod e 2).symm
      have e1 : a ^ (e / 2) % p * (a ^ (e / 2) % p) % p = a ^ (e / 2) * a ^ (e / 2) % p :=
        (Nat.mul_mod _ _ p).symm
      rw [e1]
      by_cases h1 : e % 2 = 1
      · simp only [h1, if_true]
        conv_rhs => rw [hsplit, h1, pow_succ, pow_mul', sq]
        rw [Nat.mul_mod (a ^ (e / 2) * a ^ (e / 2) % p) a p, Nat.mod_mod, ← Nat.mul_mod]
      · simp only [h1, if_false]
        have h2 : e % 2 = 0 := by omega
        conv_rhs => rw [hsplit, h2, add_zero, pow_mul', sq]

set_option maxRecDepth 100000 in
theorem prime128_order : powMod prime128 3 128 (prime128 - 1) = 1 ∧
    powMod prime128 3 128 ((prime128 - 1) / 2) ≠ 1 ∧
    powMod prime128 3 128 ((prime128 - 1) / 859) ≠ 1 := by
  refine ⟨by rfl, by decide, by decide⟩

theorem prime128_prime : Nat.Prime prime128 := by
  obtain ⟨h1, h2, h3⟩ := prime128_order
  have hlt : ∀ e, e ≤ prime128 - 1 → e < 2 ^ 128 := by
    intro e he
    have : prime128 - 1 < 2 ^ 128 := by decide
    omega
  have cast : ∀ e : Nat, e ≤ prime128 - 1 →
      ((3 : ZMod prime128) ^ e = 1 ↔ powMod prime128 3 128 e = 1) := by
    intro e he
    rw [powMod_eq _ _ _ _ (hlt e he)]
    have : ((3 : ZMod prime128) ^ e) = ((3 ^ e : Nat) : ZMod prime128) := by push_cast; rfl
    rw [this, show (1 : ZMod prime128) = ((1 : Nat) : ZMod prime128) by simp,
      ZMod.natCast_eq_natCast_iff']
    have : 1 % prime128 = 1 := by decide
    rw [this]
  apply lucas_primality prime128 3
  · exact (cast _ le_rfl).mpr h1
  · intro q hq hdvd
    have hfac : prime128 - 1 = 859 * 2 ^ 118 := by decide
    have h859 : Nat.Prime 859 := by norm_num
    rw [hfac] at hdvd
    rcases (Nat.Prime.dvd_mul hq).mp hdvd with h | h
    · have := (Nat.prime_dvd_prime_iff_eq hq h859).mp h
      subst this
      exact fun hc => h3 ((cast _ (Nat.div_le_self _ _)).mp hc)
    · have := (Nat.prime_dvd_prime_iff_eq hq Nat.prime_two).mp (hq.dvd_of_dvd_pow h)
      subst this
      exact fun hc => h2 ((cast _ (Nat.div_le_self _ _)).mp hc)

/-! ## Faults of `Run` on a configured instance -/

theorem reconstruct_divByZero (replies : List (Int × Int)) (M : Int) (k : Nat)
    (hk : k ≠ 0) (h : M / (k : Int) = 0) :
    reconstruct M k (replies.map toReply) = .error .divByZero := by
  have hk' : (k : Int) ≠ 0 := by exact_mod_cast hk
  unfold reconstruct
  simp only [sumReplies_eq, zero_add, bigDiv, hk', if_false, bigMod, h, if_true]

theorem Run_configured_divByZero (param : Parameters) (args : List Int)
    (rows : List (List Int)) (hn : 0 ≤ param.n) (hM : 0 < param.M) (hrows : rows ≠ [])
    (hlen : ∀ r ∈ rows, r.length = param.n.toNat) (hargs : args ≠ [])
    (h : param.M / (args.length : Int) = 0) :
    Run (configured param args rows) = .error .divByZero := by
  have hex := exchange_configured param args rows hn hM hrows hlen
  have hk : args.length ≠ 0 := by
    intro h0
    exact hargs (List.length_eq_zero.mp h0)
  unfold Run
  simp only [hex]
  simp only [configured, reconstruct_divByZero _ _ _ hk h]

theorem party_completes (param : Parameters) (rows : List (List Int)) (i : Nat)
    (hM : 0 < param.M) (hrows : rows ≠ []) (hi : ∀ r ∈ rows, i < r.length) :
    column i (rows.map (List.map some)) = .ok ((colSpec i rows).map some) ∧
      PartyRun (freshWorker param i) ((colSpec i rows).map some)
        = .ok (toReply (replySpec param.M (colSpec i rows))) := by
  refine ⟨column_eq i rows hi, ?_⟩
  have hne : colSpec i rows ≠ [] := by
    cases rows with
    | nil => exact absurd rfl hrows
    | cons a t => simp [colSpec]
  exact PartyRun_eq (freshWorker param i) (colSpec i rows) hM hne

/-! ## The share matrix row by row -/

theorem rowsSpec_row (M : Int) (n : Nat) (parcels : List Int) :
    ∀ (js : List Nat) (us : List Int) (i : Nat) (p : Int), parcels.length ≤ js.length →
      (∀ j ∈ js.take parcels.length, j < n) → parcels[i]? = some p →
      ∃ r, (rowsSpec M n parcels js us)[i]? = some r ∧ r.sum % M = p % M := by
  induction parcels with
  | nil => intro js us i p _ _ h; simp at h
  | cons a ps ih =>
    intro js us i p hk hj hp
    cases js with
    | nil => simp at hk
    | cons j js =>
      simp only [List.length_cons] at hk hj
      have hj0 : j < n := hj j (by simp [List.take])
      cases i with
      | zero =>
        simp only [List.getElem?_cons_zero, Option.some.injEq] at hp
        subst hp
        exact ⟨_, by simp [rowsSpec], sharesSpec_sum a M j n us hj0⟩
      | succ i =>
        simp only [List.getElem?_cons_succ] at hp
        obtain ⟨r, h1, h2⟩ := ih js (us.drop (n - 1)) i p (by omega)
          (fun x hx => hj x (by simp [List.take, hx])) hp
        exact ⟨r, by simpa [rowsSpec] using h1, h2⟩

theorem rowsSpec_range (M : Int) (hM : 0 < M) (n : Nat) (parcels : List Int) :
    ∀ (js : List Nat) (us : List Int), (∀ u ∈ us, 0 ≤ u ∧ u < M) →
      ∀ r ∈ rowsSpec M n parcels js us, ∀ v ∈ r, 0 ≤ v ∧ v < M := by
  induction parcels with
  | nil => intro js us _ r hr; simp [rowsSpec] at hr
  | cons a ps ih =>
    intro js us hus r hr v hv
    cases js with
    | nil => simp [rowsSpec] at hr
    | cons j js =>
      simp only [rowsSpec, List.mem_cons] at hr
      rcases hr with rfl | hr
      · rcases sharesSpec_mem a M j n us v hv with h | h
        · exact hus v h
        · rw [h]
          exact ⟨Int.emod_nonneg _ hM.ne', Int.emod_lt_of_pos _ hM⟩
      · exact ih js (us.drop (n - 1)) (fun u hu => hus u (List.mem_of_mem_drop hu)) r hr v hv

theorem column_sums_modEq (M : Int) (n : Nat) (rows : List (List Int)) (S : Int)
    (hlen : ∀ r ∈ rows, r.length = n) (hsum : (rows.map List.sum).sum ≡ S [ZMOD M]) :
    ((List.range n).map (fun t => (colSpec t rows).sum % M)).sum ≡ S [ZMOD M] := by
  have h1 := sum_map_emod_modEq M ((List.range n).map (fun t => (colSpec t rows).sum))
  rw [List.map_map] at h1
  rw [sum_columns_eq_sum_rows n rows hlen] at h1
  exact h1.trans hsum

theorem colSpec_length (i : Nat) (rows : List (List Int)) : (colSpec i rows).length = rows.length := by
  simp [colSpec]

theorem replySpec_recombine (M : Int) (vals : List Int) :
    (replySpec M vals).1 * (vals.length : Int) + (replySpec M vals).2 = vals.sum % M := by
  have := Int.emod_add_ediv (vals.sum % M) (vals.length : Int)
  simp only [replySpec]
  linarith

theorem sharesSpec_unit_of_ne (secret M : Int) (j n : Nat) (us : List Int) (i : Nat) (v : Int)
    (hi : (sharesSpec secret M j n us)[i]? = some v) (hne : i ≠ j) (hj : j ≤ us.length) :
    v ∈ us := by
  have hlt : (us.take j).length = j := by simp [hj]
  unfold sharesSpec at hi
  rcases Nat.lt_or_gt_of_ne hne with h | h
  · rw [List.getElem?_append_left (by omega)] at hi
    exact List.mem_of_mem_take (List.getElem?_mem hi)
  · rw [List.getElem?_append_right (by omega), hlt] at hi
    obtain ⟨m, hm⟩ : ∃ m, i - j = m + 1 := ⟨i - j - 1, by omega⟩
    rw [hm, List.getElem?_cons_succ] at hi
    exact List.mem_of_mem_drop (List.mem_of_mem_take (List.getElem?_mem hi))

/-! ## The hand-overs of the first loop of `Run` -/

theorem sendLoop_eq_sendLog (shares : List BigInts) (ps : List Nat) :
    ∀ (i : Nat) (waiting : List DistributedIntMeanParty) (offered : List (Nat × BigInts)),
      sendLoop shares i ps waiting offered =
        match sendLog shares i ps waiting with
        | .error e => .error e
        | .ok (log, waiting1) =>
          .ok (offered ++ log.map (fun d => (d.channel, d.reply)), waiting1) := by
  induction ps with
  | nil => intro i waiting offered; simp [sendLoop, sendLog]
  | cons p ps ih =>
    intro i waiting offered
    rw [sendLoop, sendLog]
    cases hc : column i shares with
    | error e => rfl
    | ok pShares =>
      simp only
      cases ht : takeListener p waiting with
      | none => rfl
      | some wp =>
        obtain ⟨w, waiting1⟩ := wp
        simp only
        cases hp : PartyRun w pShares with
        | error e => rfl
        | ok reply =>
          simp only
          rw [ih]
          cases hl : sendLog shares (i + 1) ps waiting1 with
          | error e => rfl
          | ok lw =>
            obtain ⟨log, waiting2⟩ := lw
            simp

theorem sendLog_fresh (param : Parameters) (hM : 0 < param.M) (rows : List (List Int))
    (hrows : rows ≠ []) (m : Nat) :
    ∀ (i : Nat), (∀ r ∈ rows, i + m ≤ r.length) →
      sendLog (rows.map (List.map some)) i (List.range' i m)
          ((List.range' i m).map (freshWorker param))
        = .ok ((List.range' i m).map (deliverySpec param rows), []) := by
  induction m with
  | zero => intro i _; simp [sendLog]
  | succ m ih =>
    intro i h
    obtain ⟨hcol, hp⟩ := party_completes param rows i hM hrows
      (fun r hr => by have := h r hr; omega)
    have hih := ih (i + 1) (fun r hr => by have := h r hr; omega)
    rw [List.range'_succ, sendLog]
    simp only [hcol]
    rw [← List.range'_succ, takeListener_fresh]
    simp only [hp, hih]
    simp [List.range'_succ, deliverySpec, freshWorker]

/-! ## `Setup` on an instance that is already configured -/

theorem spawnLoop_append (param : Parameters) (m todo : Nat) :
    ∀ (i : Nat) (dim : DistributedIntMean), dim.parties = List.range (m + i) →
      spawnLoop param (NewBroadcastAgent param.n) todo i dim
        = .ok { dim with
            parties := List.range (m + i + todo)
            wg := dim.wg + todo
            workers := dim.workers ++ (List.range' i todo).map (freshWorker param) } := by
  induction todo with
  | zero =>
    intro i dim hp
    simp only [spawnLoop, Nat.add_zero, Nat.cast_zero, add_zero, List.range'_zero, List.map_nil,
      List.append_nil]
    rw [← hp]
  | succ t ih =>
    intro i dim hp
    have hch : load (dim.parties ++ [dim.parties.length]) i = .ok i := by
      have hlt : i < (List.range (m + i) ++ [m + i]).length := by simp; omega
      simp only [load, hp, List.length_range]
      rw [← List.range_succ, List.getElem?_range (by omega)]
    rw [spawnLoop]
    simp only [hch]
    rw [ih (i + 1) _ (by simp only [hp, List.length_range]; rw [← List.range_succ]; rfl)]
    have e : m + (i + 1) + t = m + i + (t + 1) := by omega
    have e2 : dim.wg + 1 + (t : Int) = dim.wg + ((t : Int) + 1) := by ring
    simp only [Nat.cast_succ, e, e2, List.append_assoc, List.singleton_append,
      List.range'_succ, List.map_cons, freshWorker]

theorem column_out_of_range (i : Nat) (rows : List (List Int)) (hrows : rows ≠ [])
    (hlen : ∀ r ∈ rows, r.length ≤ i) :
    column i (rows.map (List.map some)) = .error .indexOutOfRange := by
  cases rows with
  | nil => exact absurd rfl hrows
  | cons r t =>
    have h := hlen r (by simp)
    have hl : load (r.map some) i = .error .indexOutOfRange := by
      have : (r.map some)[i]? = none := by
        rw [List.getElem?_eq_none_iff]
        simpa using h
      simp [load, this]
    simp only [List.map_cons, column, hl]

theorem sendLoop_served_prefix (param : Parameters) (hM : 0 < param.M)
    (rows : List (List Int)) (hrows : rows ≠ []) (m : Nat) :
    ∀ (i : Nat) (tail : List Nat) (others : List DistributedIntMeanParty)
      (offered : List (Nat × BigInts)), (∀ r ∈ rows, i + m ≤ r.length) →
      sendLoop (rows.map (List.map some)) i (List.range' i m ++ tail)
          ((List.range' i m).map (freshWorker param) ++ others) offered
        = sendLoop (rows.map (List.map some)) (i + m) tail others
            (offered ++ (List.range' i m).map
              (fun t => (t, toReply (replySpec param.M (colSpec t rows))))) := by
  induction m with
  | zero => intro i tail others offered _; simp
  | succ m ih =>
    intro i tail others offered h
    obtain ⟨hcol, hp⟩ := party_completes param rows i hM hrows
      (fun r hr => by have := h r hr; omega)
    have hih := ih (i + 1) tail others
      (offered ++ [(i, toReply (replySpec param.M (colSpec i rows)))])
      (fun r hr => by have := h r hr; omega)
    have ht : takeListener i
        (freshWorker param i :: ((List.range' (i + 1) m).map (freshWorker param) ++ others))
        = some (freshWorker param i,
            (List.range' (i + 1) m).map (freshWorker param) ++ others) := by
      simp [takeListener, freshWorker]
    rw [List.range'_succ, List.cons_append, sendLoop]
    simp only [hcol, List.map_cons, List.cons_append, ht, hp]
    rw [hih]
    simp [Nat.add_assoc, Nat.add_comm 1 m]

theorem Setup_second_eq (param : Parameters) (args args2 : List Int)
    (rows : List (List Int)) (rnd : Rand)
    (hn : 2 ≤ param.n) (hM : 0 < param.M) (hargs : args2 ≠ [])
    (hk : args2.length ≤ rnd.slots.length)
    (hj : ∀ j ∈ rnd.slots.take args2.length, (j : Int) < param.n)
    (hu : args2.length * (param.n.toNat - 1) ≤ (units param.M rnd.crypto).length) :
    Setup (configured param args rows) param args2 rnd
      = .ok (none,
          { param := some param
            parcels := args2
            parties := List.range (param.n.toNat + param.n.toNat)
            shares := (rowsSpec param.M param.n.toNat args2 rnd.slots
              (units param.M rnd.crypto)).map (List.map some)
            ba := some (NewBroadcastAgent param.n)
            wg := param.n + param.n
            result := 0
            workers := (List.range param.n.toNat).map (freshWorker param) ++
              (List.range' 0 param.n.toNat).map (freshWorker param) },
          { crypto := skipUnits param.M (args2.length * (param.n.toNat - 1)) rnd.crypto
            slots := rnd.slots.drop args2.length }) := by
  have h1 : ¬ param.n < 2 := by omega
  have h2 : ¬ args2.length < 1 := by
    cases args2 with
    | nil => exact absurd rfl hargs
    | cons a t => simp
  unfold Setup
  simp only [h1, h2, if_false, setupShares_eq param.n param.M hM args2 rnd hk hj hu]
  rw [spawnLoop_append param param.n.toNat param.n.toNat 0 _ (by simp [configured])]
  have e : ((param.n.toNat : Nat) : Int) = param.n := Int.toNat_of_nonneg (by omega)
  simp only [configured, e, Nat.add_zero]

theorem Run_after_second_Setup (param : Parameters) (args2 : List Int)
    (rows : List (List Int)) (wg result : Int)
    (hn : 2 ≤ param.n) (hM : 0 < param.M) (hrows : rows ≠ [])
    (hlen : ∀ r ∈ rows, r.length = param.n.toNat) :
    Run { param := some param
          parcels := args2
          parties := List.range (param.n.toNat + param.n.toNat)
          shares := rows.map (List.map some)
          ba := some (NewBroadcastAgent param.n)
          wg := wg
          result := result
          workers := (List.range param.n.toNat).map (freshWorker param) ++
            (List.range' 0 param.n.toNat).map (freshWorker param) }
      = .error .indexOutOfRange := by
  have hsplit : List.range (param.n.toNat + param.n.toNat)
      = List.range' 0 param.n.toNat ++ List.range' param.n.toNat param.n.toNat := by
    rw [List.range_eq_range']
    simpa using (List.range'_append 0 param.n.toNat param.n.toNat 1).symm
  have hpre := sendLoop_served_prefix param hM rows hrows param.n.toNat 0
    (List.range' param.n.toNat param.n.toNat)
    ((List.range' 0 param.n.toNat).map (freshWorker param)) []
    (fun r hr => by rw [hlen r hr]; omega)
  have hcol := column_out_of_range param.n.toNat rows hrows (fun r hr => (hlen r hr).le)
  obtain ⟨m, hm⟩ : ∃ m, param.n.toNat = m + 1 := ⟨param.n.toNat - 1, by omega⟩
  have hfail : ∀ (others : List DistributedIntMeanParty) (offered : List (Nat × BigInts)),
      sendLoop (rows.map (List.map some)) param.n.toNat
        (List.range' param.n.toNat param.n.toNat) others offered
        = .error .indexOutOfRange := by
    intro others offered
    conv_lhs => rw [show List.range' param.n.toNat param.n.toNat
      = param.n.toNat :: List.range' (param.n.toNat + 1) m by rw [hm, List.range'_succ]]
    rw [sendLoop]
    simp only [hcol]
  unfold Run exchange
  simp only [hsplit, List.range_eq_range']
  rw [hpre]
  simp only [Nat.zero_add, hfail]

/-! ## `Broadcast` -/

theorem Broadcast_eq (ba : BroadcastAgent) (ps : List (Int × Nat)) (r : Int) (m : Message)
    (hp : ba.parties = some ps) :
    Broadcast ba r m
      = ({ ba with messages := ba.messages ++ [m] },
          if ba.messages.length + 1 = ps.length then
            ps.map (fun e => (e.2, ba.messages ++ [m]))
          else []) := by
  unfold Broadcast
  simp only [hp, Option.getD_some, List.length_append, List.length_singleton]
  split <;> rfl

theorem broadcasts_first_batch (ps : List (Int × Nat)) (calls : List (Int × Message)) :
    ∀ (ba : BroadcastAgent), ba.parties = some ps → calls ≠ [] →
      ba.messages.length + calls.length = ps.length →
      broadcasts ba calls
        = ({ ba with messages := ba.messages ++ calls.map Prod.snd },
            List.replicate (calls.length - 1) [] ++
              [ps.map (fun e => (e.2, ba.messages ++ calls.map Prod.snd))]) := by
  induction calls with
  | nil => intro ba _ h; exact absurd rfl h
  | cons c rest ih =>
    intro ba hp _ hlen
    cases rest with
    | nil =>
      simp only [List.length_singleton] at hlen
      simp only [broadcasts, Broadcast_eq ba ps c.1 c.2 hp, hlen, if_true, List.map_cons,
        List.map_nil, List.length_singleton, Nat.sub_self, List.replicate_zero, List.nil_append]
    | cons c2 rest2 =>
      simp only [List.length_cons] at hlen
      have hne : ¬ ba.messages.length + 1 = ps.length := by omega
      have hb := Broadcast_eq ba ps c.1 c.2 hp
      simp only [hne, if_false] at hb
      have hih := ih { ba with messages := ba.messages ++ [c.2] } hp (by simp)
        (by
          show (ba.messages ++ [c.2]).length + (c2 :: rest2).length = ps.length
          simp only [List.length_append, List.length_singleton, List.length_cons, List.length_nil]
          omega)
      rw [broadcasts, hb]
      simp only [hih, List.length_cons, List.append_assoc, List.singleton_append,
        List.map_cons, Nat.add_sub_cancel]
      rfl

/-! ## The interleavings of `Run` and the party goroutines -/

theorem sum_map_set {α : Type} (f : α → Nat) (l : List α) :
    ∀ (t : Nat) (a b : α), l[t]? = some a →
      ((l.set t b).map f).sum + f a = (l.map f).sum + f b := by
  induction l with
  | nil => intro t a b h; simp at h
  | cons x xs ih =>
    intro t a b h
    cases t with
    | zero =>
      simp only [List.getElem?_cons_zero, Option.some.injEq] at h
      subst h
      simp only [List.set_cons_zero, List.map_cons, List.sum_cons]
      omega
    | succ t =>
      simp only [List.getElem?_cons_succ] at h
      have := ih t a b h
      simp only [List.set_cons_succ, List.map_cons, List.sum_cons]
      omega

theorem stageTask_worker (param : Parameters) (rows : List (List Int)) (t k : Nat) :
    (stageTask param rows t k).worker = freshWorker param t := by
  match k with
  | 0 | 1 | 2 | 3 => rfl
  | _ + 4 => rfl

theorem stageTask_listening (param : Parameters) (rows : List (List Int)) (t k : Nat)
    (h : (stageTask param rows t k).pc = .listening) : k = 0 := by
  match k with
  | 0 => rfl
  | 1 | 2 | 3 => simp [stageTask] at h
  | _ + 4 => simp [stageTask] at h

theorem stageTask_received (param : Parameters) (rows : List (List Int)) (t k : Nat)
    (v : BigInts) (h : (stageTask param rows t k).pc = .received v) :
    k = 1 ∧ v = colOf rows t := by
  match k with
  | 1 => simp [stageTask] at h; exact ⟨rfl, h.symm⟩
  | 0 | 2 | 3 => simp [stageTask] at h
  | _ + 4 => simp [stageTask] at h

theorem stageTask_offering (param : Parameters) (rows : List (List Int)) (t k : Nat)
    (r : BigInts) (h : (stageTask param rows t k).pc = .offering r) :
    k = 2 ∧ r = replyOf param rows t := by
  match k with
  | 2 => simp [stageTask] at h; exact ⟨rfl, h.symm⟩
  | 0 | 1 | 3 => simp [stageTask] at h
  | _ + 4 => simp [stageTask] at h

theorem stageTask_replied (param : Parameters) (rows : List (List Int)) (t k : Nat)
    (h : (stageTask param rows t k).pc = .replied) : k = 3 := by
  match k with
  | 3 => rfl
  | 0 | 1 | 2 => simp [stageTask] at h
  | _ + 4 => simp [stageTask] at h

theorem stageTask_counts (param : Parameters) (rows : List (List Int)) (t k : Nat) :
    (stageTask param rows t k).received ≤ 1 ∧ (stageTask param rows t k).sent ≤ 1 ∧
      (3 ≤ k → (stageTask param rows t k).received = 1 ∧ (stageTask param rows t k).sent = 1) := by
  match k with
  | 0 | 1 | 2 | 3 => simp [stageTask]
  | _ + 4 => simp [stageTask]

theorem configured_parties_some (param : Parameters) (args : List Int)
    (rows : List (List Int)) (i p : Nat)
    (h : (configured param args rows).parties[i]?  = some p) : p = i ∧ i < param.n.toNat := by
  simp only [configured] at h
  obtain ⟨hlt, heq⟩ := List.getElem?_eq_some_iff.mp h
  simp only [List.length_range] at hlt
  simp only [List.getElem_range] at heq
  exact ⟨heq.symm, hlt⟩

theorem configured_parties_none (param : Parameters) (args : List Int)
    (rows : List (List Int)) (i : Nat)
    (h : (configured param args rows).parties[i]?  = none) : param.n.toNat ≤ i := by
  simp only [configured] at h
  have := List.getElem?_eq_none_iff.mp h
  simpa using this

theorem tasks_set_inv (param : Parameters) (rows : List (List Int)) (pc pc1 : RunPc)
    (tasks : List Task) (t : Nat) (new : Task)
    (hinv : ∀ (u : Nat) (task : Task), tasks[u]? = some task →
      ∃ k, allowed pc u k ∧ task = stageTask param rows u k)
    (hnew : ∃ k, allowed pc1 t k ∧ new = stageTask param rows t k)
    (hothers : ∀ u k, u ≠ t → allowed pc u k → allowed pc1 u k) :
    ∀ (u : Nat) (task : Task), (tasks.set t new)[u]? = some task →
      ∃ k, allowed pc1 u k ∧ task = stageTask param rows u k := by
  intro u task h
  by_cases hu : t = u
  · subst hu
    rw [List.getElem?_set] at h
    simp only [if_true] at h
    split at h
    · simp only [Option.some.injEq] at h
      subst h
      exact hnew
    · exact absurd h (by simp)
  · rw [List.getElem?_set_ne hu] at h
    obtain ⟨k, hk, hk2⟩ := hinv u task h
    exact ⟨k, hothers u k (fun e => hu e.symm) hk, hk2⟩

theorem allowed_send (i t k : Nat) :
    allowed (.send i) t k ↔ (t < i ∧ (k = 1 ∨ k = 2)) ∨ (i ≤ t ∧ k = 0) := by
  by_cases h : t < i
  · have h2 : ¬ i ≤ t := by omega
    simp [allowed, h, h2]
  · have h2 : i ≤ t := by omega
    simp [allowed, h, h2]

theorem allowed_recv (i t k : Nat) :
    allowed (.recv i) t k ↔ (t < i ∧ (k = 3 ∨ k = 4)) ∨ (i ≤ t ∧ (k = 1 ∨ k = 2)) := by
  by_cases h : t < i
  · have h2 : ¬ i ≤ t := by omega
    simp [allowed, h, h2]
  · have h2 : i ≤ t := by omega
    simp [allowed, h, h2]

theorem allowed_reconstruct (t k : Nat) : allowed .reconstruct t k ↔ (k = 3 ∨ k = 4) := Iff.rfl

theorem allowed_wait (t k : Nat) : allowed .wait t k ↔ (k = 3 ∨ k = 4) := Iff.rfl

theorem allowed_returned (t k : Nat) : allowed .returned t k ↔ (k = 3 ∨ k = 4) := Iff.rfl

theorem allowed_advance_compute (pc : RunPc) (t : Nat) (h : allowed pc t 1) : allowed pc t 2 := by
  cases pc with
  | send i => rw [allowed_send] at h ⊢; omega
  | recv i => rw [allowed_recv] at h ⊢; omega
  | reconstruct => rw [allowed_reconstruct] at h; omega
  | wait => rw [allowed_wait] at h; omega
  | returned => rw [allowed_returned] at h; omega

theorem allowed_advance_done (pc : RunPc) (t : Nat) (h : allowed pc t 3) : allowed pc t 4 := by
  cases pc with
  | send i => rw [allowed_send] at h; omega
  | recv i => rw [allowed_recv] at h ⊢; omega
  | reconstruct => rw [allowed_reconstruct]; omega
  | wait => rw [allowed_wait]; omega
  | returned => rw [allowed_returned]; omega

theorem RunInv_init (param : Parameters) (args : List Int) (rows : List (List Int))
    (hn : 0 ≤ param.n) :
    RunInv param args rows (Sys.init (configured param args rows)) := by
  have e : ((param.n.toNat : Nat) : Int) = param.n := Int.toNat_of_nonneg hn
  refine ⟨rfl, by simp [Sys.init, configured], ?_, ?_, ?_⟩
  · intro t task h
    simp only [Sys.init, configured, List.map_map, List.getElem?_map] at h
    cases hr : (List.range param.n.toNat)[t]? with
    | none => simp [hr] at h
    | some x =>
      obtain ⟨hlt, hx⟩ := List.getElem?_eq_some_iff.mp hr
      simp only [List.getElem_range] at hx
      subst hx
      simp only [hr, Option.map_some', Function.comp_apply, Option.some.injEq] at h
      refine ⟨0, ?_, h.symm⟩
      show allowed (.send 0) t 0
      rw [allowed_send]
      omega
  · simp only [Sys.init, configured, List.map_map]
    have : (Task.alive ∘ (fun w => ({ worker := w, pc := .listening, received := 0, sent := 0 } : Task)) ∘
        freshWorker param) = fun _ => 1 := by
      funext t
      simp [Task.alive]
    rw [this]
    simp [e]
  · show (0 : Nat) ≤ param.n.toNat
    omega

theorem configured_column (param : Parameters) (args : List Int) (rows : List (List Int))
    (hlen : ∀ r ∈ rows, r.length = param.n.toNat) (i : Nat) (hi : i < param.n.toNat) :
    column i (configured param args rows).shares = .ok (colOf rows i) :=
  column_eq i rows (fun r hr => by rw [hlen r hr]; exact hi)

theorem fresh_party_reply (param : Parameters) (rows : List (List Int)) (hM : 0 < param.M)
    (hrows : rows ≠ []) (t : Nat) :
    PartyRun (freshWorker param t) (colOf rows t) = .ok (replyOf param rows t) := by
  have hne : colSpec t rows ≠ [] := by
    cases rows with
    | nil => exact absurd rfl hrows
    | cons a r => simp [colSpec]
  exact PartyRun_eq (freshWorker param t) (colSpec t rows) hM hne

theorem replies_as_range (param : Parameters) (rows : List (List Int)) :
    (List.range param.n.toNat).map (replyOf param rows)
      = (repliesSpec param.M param.n.toNat rows).map toReply := by
  simp [repliesSpec, replyOf, Function.comp_def]

theorem wg_after_set (tasks : List Task) (t : Nat) (old new : Task) (wg : Int)
    (ht : tasks[t]? = some old) (hwg : wg = (((tasks.map Task.alive).sum : Nat) : Int))
    (ho : old.alive = 1) :
    (new.alive = 1 → wg = ((((tasks.set t new).map Task.alive).sum : Nat) : Int)) ∧
    (new.alive = 0 → wg - 1 = ((((tasks.set t new).map Task.alive).sum : Nat) : Int)) := by
  have h := sum_map_set Task.alive tasks t old new ht
  constructor
  · intro hn
    omega
  · intro hn
    omega

theorem RunInv_step (param : Parameters) (args : List Int) (rows : List (List Int))
    (hM : 0 < param.M) (hrows : rows ≠ [])
    (hlen : ∀ r ∈ rows, r.length = param.n.toNat)
    (hdiv : param.M / (args.length : Int) ≠ 0)
    (s s1 : Sys) (hinv : RunInv param args rows s) (hstep : Step s s1) :
    RunInv param args rows s1 := by
  have htasks := hinv.tasks
  have hphase := hinv.phase
  cases hstep with
  | handover i p t task pShares hpc hp hcol ht hcl hlis =>
    obtain ⟨k, hk, rfl⟩ := htasks t task ht
    have hk0 := stageTask_listening _ _ _ _ hlis
    subst hk0
    rw [hinv.dim_eq] at hp hcol
    obtain ⟨hpi, hi⟩ := configured_parties_some param args rows i p hp
    subst hpi
    have hti : t = p := hcl
    subst hti
    rw [configured_column param args rows hlen t hi] at hcol
    simp only [Except.ok.injEq] at hcol
    subst hcol
    rw [hpc] at htasks
    refine ⟨hinv.dim_eq, by simp [hinv.len], ?_, ?_, ?_⟩
    · refine tasks_set_inv param rows (.send t) (.send (t + 1)) s.tasks t _ htasks
        ⟨1, by rw [allowed_send]; omega, rfl⟩ ?_
      intro u k hu h
      rw [allowed_send] at h ⊢
      omega
    · exact (wg_after_set s.tasks t _ _ s.wg ht hinv.wg (by simp [Task.alive, stageTask])).1
        (by simp [Task.alive, stageTask])
    · show t + 1 ≤ param.n.toNat
      omega
  | sendDone i param1 hpc hnone hparam hn1 =>
    rw [hinv.dim_eq] at hnone hparam
    have hge := configured_parties_none param args rows i hnone
    have hp1 : param1 = param := by
      simp only [configured, Option.some.injEq] at hparam
      exact hparam.symm
    subst hp1
    rw [hpc] at htasks
    refine ⟨hinv.dim_eq, hinv.len, ?_, hinv.wg, ?_⟩
    · intro u task hu
      have hul : u < param1.n.toNat := by
        obtain ⟨h, _⟩ := List.getElem?_eq_some_iff.mp hu
        rw [hinv.len] at h
        exact h
      obtain ⟨k, hk, hk2⟩ := htasks u task hu
      refine ⟨k, ?_, hk2⟩
      rw [allowed_send] at hk
      show allowed (.recv 0) u k
      rw [allowed_recv]
      omega
    · show 0 ≤ param1.n.toNat ∧ List.replicate param1.n.toNat ([] : BigInts)
        = (List.range 0).map (replyOf param1 rows) ++ List.replicate (param1.n.toNat - 0) []
      simp
  | compute t task parcels reply ht hpc hrun =>
    obtain ⟨k, hk, rfl⟩ := htasks t task ht
    obtain ⟨hk1, hv⟩ := stageTask_received _ _ _ _ _ hpc
    subst hk1 hv
    rw [show (stageTask param rows t 1).worker = freshWorker param t from rfl,
      fresh_party_reply param rows hM hrows t] at hrun
    simp only [Except.ok.injEq] at hrun
    subst hrun
    refine ⟨hinv.dim_eq, by simp [hinv.len], ?_, ?_, hphase⟩
    · exact tasks_set_inv param rows s.pc s.pc s.tasks t _ htasks
        ⟨2, allowed_advance_compute _ _ hk, rfl⟩ (fun u k _ h => h)
    · exact (wg_after_set s.tasks t _ _ s.wg ht hinv.wg (by simp [Task.alive, stageTask])).1
        (by simp [Task.alive, stageTask])
  | takeReply i p t task reply zs1 hpc hp ht hcl hoff hstore =>
    obtain ⟨k, hk, rfl⟩ := htasks t task ht
    obtain ⟨hk2, hr⟩ := stageTask_offering _ _ _ _ _ hoff
    subst hk2 hr
    rw [hinv.dim_eq] at hp
    obtain ⟨hpi, hi⟩ := configured_parties_some param args rows i p hp
    subst hpi
    have hti : t = p := hcl
    subst hti
    rw [hpc] at htasks
    have hph : t ≤ param.n.toNat ∧ s.zs = (List.range t).map (replyOf param rows)
        ++ List.replicate (param.n.toNat - t) [] := by
      have := hphase
      simp only [phase, hpc] at this
      exact this
    have hzs : zs1 = (List.range (t + 1)).map (replyOf param rows)
        ++ List.replicate (param.n.toNat - (t + 1)) [] := by
      obtain ⟨m, hm⟩ : ∃ m, param.n.toNat - t = m + 1 := ⟨param.n.toNat - t - 1, by omega⟩
      have hm2 : param.n.toNat - (t + 1) = m := by omega
      rw [hph.2, hm, List.replicate_succ] at hstore
      unfold store at hstore
      have hl : t < ((List.range t).map (replyOf param rows) ++
          ([] : BigInts) :: List.replicate m []).length := by simp
      simp only [hl, if_true, Except.ok.injEq] at hstore
      rw [set_at_length _ _ _ _ _ (by simp)] at hstore
      rw [← hstore, hm2, List.range_succ]
      simp
    refine ⟨hinv.dim_eq, by simp [hinv.len], ?_, ?_, ?_⟩
    · refine tasks_set_inv param rows (.recv t) (.recv (t + 1)) s.tasks t _ htasks
        ⟨3, by rw [allowed_recv]; omega, rfl⟩ ?_
      intro u k hu h
      rw [allowed_recv] at h ⊢
      omega
    · exact (wg_after_set s.tasks t _ _ s.wg ht hinv.wg (by simp [Task.alive, stageTask])).1
        (by simp [Task.alive, stageTask])
    · show t + 1 ≤ param.n.toNat ∧ zs1 = (List.range (t + 1)).map (replyOf param rows)
        ++ List.replicate (param.n.toNat - (t + 1)) []
      exact ⟨by omega, hzs⟩
  | relay t u task other reply hne ht hu hcl hoff hlis =>
    obtain ⟨k, _, rfl⟩ := htasks t task ht
    obtain ⟨k2, _, rfl⟩ := htasks u other hu
    rw [stageTask_worker, stageTask_worker] at hcl
    exact absurd hcl hne
  | recvDone i hpc hnone =>
    rw [hinv.dim_eq] at hnone
    have hge := configured_parties_none param args rows i hnone
    have hph : i ≤ param.n.toNat ∧ s.zs = (List.range i).map (replyOf param rows)
        ++ List.replicate (param.n.toNat - i) [] := by
      have := hphase
      simp only [phase, hpc] at this
      exact this
    have hi : i = param.n.toNat := by omega
    subst hi
    rw [hpc] at htasks
    refine ⟨hinv.dim_eq, hinv.len, ?_, hinv.wg, ?_⟩
    · intro u task hu
      have hul : u < param.n.toNat := by
        obtain ⟨h, _⟩ := List.getElem?_eq_some_iff.mp hu
        rw [hinv.len] at h
        exact h
      obtain ⟨k, hk, hk2⟩ := htasks u task hu
      refine ⟨k, ?_, hk2⟩
      rw [allowed_recv] at hk
      show allowed .reconstruct u k
      rw [allowed_reconstruct]
      omega
    · show s.zs = (List.range param.n.toNat).map (replyOf param rows)
      rw [hph.2]
      simp
  | reconstructed param1 result sumMod hpc hparam hrec =>
    rw [hinv.dim_eq] at hparam hrec
    have hp1 : param1 = param := by
      simp only [configured, Option.some.injEq] at hparam
      exact hparam.symm
    subst hp1
    have hph : s.zs = (List.range param1.n.toNat).map (replyOf param1 rows) := by
      have := hphase
      simp only [phase, hpc] at this
      exact this
    rw [hph, replies_as_range,
      show (configured param1 args rows).parcels.length = args.length from rfl,
      reconstruct_eq _ _ _ hdiv] at hrec
    simp only [Except.ok.injEq, Prod.mk.injEq] at hrec
    rw [hpc] at htasks
    refine ⟨hinv.dim_eq, hinv.len, ?_, hinv.wg, ?_⟩
    · intro u task hu
      obtain ⟨k, hk, hk2⟩ := htasks u task hu
      exact ⟨k, hk, hk2⟩
    · show s.zs = (List.range param1.n.toNat).map (replyOf param1 rows) ∧
        result = resultOf param1 args rows
      exact ⟨hph, hrec.1.symm⟩
  | done t task ht hrep =>
    obtain ⟨k, hk, rfl⟩ := htasks t task ht
    have hk3 := stageTask_replied _ _ _ _ hrep
    subst hk3
    have hwg := (wg_after_set s.tasks t _
      ({ stageTask param rows t 3 with pc := .terminated } : Task) s.wg ht hinv.wg
      (by simp [Task.alive, stageTask])).2 (by simp [Task.alive])
    refine ⟨hinv.dim_eq, by simp [hinv.len], ?_, hwg, ?_⟩
    · exact tasks_set_inv param rows s.pc s.pc s.tasks t _ htasks
        ⟨4, allowed_advance_done _ _ hk, rfl⟩ (fun u k _ h => h)
    · have hph := hphase
      unfold phase at hph ⊢
      cases hpc : s.pc with
      | send i => simpa [hpc] using hph
      | recv i => simpa [hpc] using hph
      | reconstruct => simpa [hpc] using hph
      | wait => simpa [hpc] using hph
      | returned =>
        simp only [hpc] at hph
        rw [hph.2.2] at hwg
        omega
  | waited hpc hwg =>
    have hph : s.zs = (List.range param.n.toNat).map (replyOf param rows) ∧
        s.result = resultOf param args rows := by
      have := hphase
      simp only [phase, hpc] at this
      exact this
    rw [hpc] at htasks
    refine ⟨hinv.dim_eq, hinv.len, ?_, hinv.wg, ?_⟩
    · intro u task hu
      obtain ⟨k, hk, hk2⟩ := htasks u task hu
      exact ⟨k, hk, hk2⟩
    · show s.zs = (List.range param.n.toNat).map (replyOf param rows) ∧
        s.result = resultOf param args rows ∧ s.wg = 0
      exact ⟨hph.1, hph.2, hwg⟩

theorem RunInv_reachable (param : Parameters) (args : List Int) (rows : List (List Int))
    (hn : 0 ≤ param.n) (hM : 0 < param.M) (hrows : rows ≠ [])
    (hlen : ∀ r ∈ rows, r.length = param.n.toNat)
    (hdiv : param.M / (args.length : Int) ≠ 0)
    (s : Sys) (h : Reachable (configured param args rows) s) : RunInv param args rows s := by
  induction h with
  | refl => exact RunInv_init param args rows hn
  | tail _ hstep ih => exact RunInv_step param args rows hM hrows hlen hdiv _ _ ih hstep

theorem exists_alive (tasks : List Task) (h : (tasks.map Task.alive).sum ≠ 0) :
    ∃ (t : Nat) (task : Task), tasks[t]? = some task ∧ task.pc ≠ .terminated := by
  induction tasks with
  | nil => simp at h
  | cons a l ih =>
    by_cases ha : a.pc = .terminated
    · have : (l.map Task.alive).sum ≠ 0 := by
        simpa [Task.alive, ha] using h
      obtain ⟨t, task, h1, h2⟩ := ih this
      exact ⟨t + 1, task, by simpa using h1, h2⟩
    · exact ⟨0, a, by simp, ha⟩

theorem Step_measure (s s1 : Sys) (h : Step s s1) : s1.measure < s.measure := by
  cases h with
  | handover i p t task pShares hpc hp hcol ht hcl hlis =>
    have hi : i < s.dim.parties.length := (List.getElem?_eq_some_iff.mp hp).1
    have hs := sum_map_set Task.rank s.tasks t task
      ({ task with pc := .received pShares, received := task.received + 1 } : Task) ht
    have h1 : task.rank = 4 := by simp [Task.rank, hlis]
    have h2 : ({ task with pc := .received pShares, received := task.received + 1 } : Task).rank
        = 3 := rfl
    simp only [Sys.measure, hpc, RunPc.rank]
    omega
  | sendDone i param hpc hnone hparam hn =>
    have hi : s.dim.parties.length ≤ i := List.getElem?_eq_none_iff.mp hnone
    simp only [Sys.measure, hpc, RunPc.rank]
    omega
  | compute t task parcels reply ht hpc hrun =>
    have hs := sum_map_set Task.rank s.tasks t task
      ({ task with pc := .offering reply } : Task) ht
    have h1 : task.rank = 3 := by simp [Task.rank, hpc]
    have h2 : ({ task with pc := .offering reply } : Task).rank = 2 := rfl
    simp only [Sys.measure]
    omega
  | takeReply i p t task reply zs1 hpc hp ht hcl hoff hstore =>
    have hi : i < s.dim.parties.length := (List.getElem?_eq_some_iff.mp hp).1
    have hs := sum_map_set Task.rank s.tasks t task
      ({ task with pc := .replied, sent := task.sent + 1 } : Task) ht
    have h1 : task.rank = 2 := by simp [Task.rank, hoff]
    have h2 : ({ task with pc := .replied, sent := task.sent + 1 } : Task).rank = 1 := rfl
    simp only [Sys.measure, hpc, RunPc.rank]
    omega
  | relay t u task other reply hne ht hu hcl hoff hlis =>
    have hs := sum_map_set Task.rank s.tasks t task
      ({ task with pc := .replied, sent := task.sent + 1 } : Task) ht
    have hu2 : (s.tasks.set t ({ task with pc := .replied, sent := task.sent + 1 } : Task))[u]?
        = some other := by
      rw [List.getElem?_set_ne hne]
      exact hu
    have hs2 := sum_map_set Task.rank _ u other
      ({ other with pc := .received reply, received := other.received + 1 } : Task) hu2
    have h1 : task.rank = 2 := by simp [Task.rank, hoff]
    have h2 : ({ task with pc := .replied, sent := task.sent + 1 } : Task).rank = 1 := rfl
    have h3 : other.rank = 4 := by simp [Task.rank, hlis]
    have h4 : ({ other with pc := .received reply, received := other.received + 1 } : Task).rank
        = 3 := rfl
    simp only [Sys.measure]
    omega
  | recvDone i hpc hnone =>
    have hi : s.dim.parties.length ≤ i := List.getElem?_eq_none_iff.mp hnone
    simp only [Sys.measure, hpc, RunPc.rank]
    omega
  | reconstructed param result sumMod hpc hparam hrec =>
    simp only [Sys.measure, hpc, RunPc.rank]
    omega
  | done t task ht hrep =>
    have hs := sum_map_set Task.rank s.tasks t task
      ({ task with pc := .terminated } : Task) ht
    have h1 : task.rank = 1 := by simp [Task.rank, hrep]
    have h2 : ({ task with pc := .terminated } : Task).rank = 0 := rfl
    simp only [Sys.measure]
    omega
  | waited hpc hwg =>
    simp only [Sys.measure, hpc, RunPc.rank]
    omega

theorem RunInv_task_at (param : Parameters) (args : List Int) (rows : List (List Int))
    (s : Sys) (hinv : RunInv param args rows s) (t : Nat) (ht : t < param.n.toNat) :
    ∃ k, allowed s.pc t k ∧ s.tasks[t]? = some (stageTask param rows t k) := by
  have hlt : t < s.tasks.length := by rw [hinv.len]; exact ht
  obtain ⟨k, hk, hk2⟩ := hinv.tasks t (s.tasks[t]) (List.getElem?_eq_getElem hlt)
  exact ⟨k, hk, by rw [List.getElem?_eq_getElem hlt, hk2]⟩

theorem RunInv_progress (param : Parameters) (args : List Int) (rows : List (List Int))
    (hn : 0 ≤ param.n) (hM : 0 < param.M) (hrows : rows ≠ [])
    (hlen : ∀ r ∈ rows, r.length = param.n.toNat)
    (hdiv : param.M / (args.length : Int) ≠ 0)
    (s : Sys) (hinv : RunInv param args rows s) (hpc : s.pc ≠ .returned) :
    ∃ s1, Step s s1 := by
  have hphase := hinv.phase
  have hparties : ∀ i, i < param.n.toNat → s.dim.parties[i]? = some i := by
    intro i hi
    rw [hinv.dim_eq]
    simp only [configured]
    exact List.getElem?_range hi
  have hnone : s.dim.parties[param.n.toNat]? = none := by
    rw [hinv.dim_eq]
    simp [configured]
  have hparam : s.dim.param = some param := by rw [hinv.dim_eq]; rfl
  cases hp : s.pc with
  | send i =>
    have hi : i ≤ param.n.toNat := by
      simp only [phase, hp] at hphase
      exact hphase
    by_cases hlt : i < param.n.toNat
    · obtain ⟨k, hk, htask⟩ := RunInv_task_at param args rows s hinv i hlt
      rw [hp, allowed_send] at hk
      have hk0 : k = 0 := by omega
      subst hk0
      exact ⟨_, Step.handover s i i i _ (colOf rows i) hp (hparties i hlt)
        (by rw [hinv.dim_eq]; exact configured_column param args rows hlen i hlt)
        htask rfl rfl⟩
    · have hi2 : i = param.n.toNat := by omega
      subst hi2
      exact ⟨_, Step.sendDone s _ param hp hnone hparam hn⟩
  | recv i =>
    have hph : i ≤ param.n.toNat ∧ s.zs = (List.range i).map (replyOf param rows)
        ++ List.replicate (param.n.toNat - i) [] := by
      simp only [phase, hp] at hphase
      exact hphase
    by_cases hlt : i < param.n.toNat
    · obtain ⟨k, hk, htask⟩ := RunInv_task_at param args rows s hinv i hlt
      rw [hp, allowed_recv] at hk
      have hk12 : k = 1 ∨ k = 2 := by omega
      rcases hk12 with rfl | rfl
      · exact ⟨_, Step.compute s i _ (colOf rows i) (replyOf param rows i) htask rfl
          (fresh_party_reply param rows hM hrows i)⟩
      · have hst : store s.zs i (replyOf param rows i)
            = .ok (s.zs.set i (replyOf param rows i)) := by
          have : i < s.zs.length := by
            rw [hph.2]
            simp
            omega
          simp [store, this]
        exact ⟨_, Step.takeReply s i i i _ (replyOf param rows i) _ hp (hparties i hlt)
          htask rfl rfl hst⟩
    · have hi2 : i = param.n.toNat := by omega
      subst hi2
      exact ⟨_, Step.recvDone s _ hp hnone⟩
  | reconstruct =>
    have hph : s.zs = (List.range param.n.toNat).map (replyOf param rows) := by
      simp only [phase, hp] at hphase
      exact hphase
    have hrec : reconstruct param.M s.dim.parcels.length s.zs
        = .ok (resultOf param args rows,
            (((repliesSpec param.M param.n.toNat rows).map Prod.snd).sum +
              ((repliesSpec param.M param.n.toNat rows).map Prod.fst).sum
                % (param.M / (args.length : Int))) / (args.length : Int)
              % (param.M / (args.length : Int))) := by
      rw [hph, replies_as_range, hinv.dim_eq,
        show (configured param args rows).parcels.length = args.length from rfl,
        reconstruct_eq _ _ _ hdiv]
      rfl
    exact ⟨_, Step.reconstructed s param _ _ hp hparam hrec⟩
  | wait =>
    by_cases hwg : s.wg = 0
    · exact ⟨_, Step.waited s hp hwg⟩
    · have hsum : (s.tasks.map Task.alive).sum ≠ 0 := by
        intro h0
        have := hinv.wg
        rw [h0] at this
        exact hwg (by simpa using this)
      obtain ⟨t, task, ht, halive⟩ := exists_alive s.tasks hsum
      obtain ⟨k, hk, rfl⟩ := hinv.tasks t task ht
      rw [hp, allowed_wait] at hk
      rcases hk with rfl | rfl
      · exact ⟨_, Step.done s t _ ht rfl⟩
      · exact absurd rfl halive
  | returned => exact absurd hp hpc

theorem le_sum_map_of_mem {α : Type} (f : α → Nat) (l : List α) (a : α) (h : a ∈ l) :
    f a ≤ (l.map f).sum := by
  induction l with
  | nil => simp at h
  | cons x xs ih =>
    simp only [List.mem_cons] at h
    simp only [List.map_cons, List.sum_cons]
    rcases h with rfl | h
    · omega
    · have := ih h
      omega

theorem RunInv_counts (param : Parameters) (args : List Int) (rows : List (List Int))
    (s : Sys) (hinv : RunInv param args rows s) :
    (∀ task ∈ s.tasks, task.received ≤ 1 ∧ task.sent ≤ 1) ∧
    ((s.pc = .reconstruct ∨ s.pc = .wait ∨ s.pc = .returned) →
      ∀ task ∈ s.tasks, task.received = 1 ∧ task.sent = 1) := by
  constructor
  · intro task hmem
    obtain ⟨t, ht⟩ := List.mem_iff_getElem?.mp hmem
    obtain ⟨k, _, rfl⟩ := hinv.tasks t task ht
    exact ⟨(stageTask_counts param rows t k).1, (stageTask_counts param rows t k).2.1⟩
  · intro hpc task hmem
    obtain ⟨t, ht⟩ := List.mem_iff_getElem?.mp hmem
    obtain ⟨k, hk, rfl⟩ := hinv.tasks t task ht
    have hk3 : 3 ≤ k := by
      rcases hpc with h | h | h <;> rw [h] at hk
      · rw [allowed_reconstruct] at hk; omega
      · rw [allowed_wait] at hk; omega
      · rw [allowed_returned] at hk; omega
    exact (stageTask_counts param rows t k).2.2 hk3

theorem RunInv_returned (param : Parameters) (args : List Int) (rows : List (List Int))
    (s : Sys) (hinv : RunInv param args rows s) (hpc : s.pc = .returned) :
    s.wg = 0 ∧ s.result = resultOf param args rows ∧
      ∀ task ∈ s.tasks, task.pc = .terminated := by
  have hph : s.zs = (List.range param.n.toNat).map (replyOf param rows) ∧
      s.result = resultOf param args rows ∧ s.wg = 0 := by
    have := hinv.phase
    simp only [phase, hpc] at this
    exact this
  refine ⟨hph.2.2, hph.2.1, ?_⟩
  intro task hmem
  by_contra hne
  have h1 := le_sum_map_of_mem Task.alive s.tasks task hmem
  have h2 : task.alive = 1 := by simp [Task.alive, hne]
  have h3 := hinv.wg
  rw [hph.2.2] at h3
  have h4 : (s.tasks.map Task.alive).sum = 0 := by exact_mod_cast h3.symm
  omega

theorem RunInv_collected (param : Parameters) (args : List Int) (rows : List (List Int))
    (hn : 0 ≤ param.n) (hM : 0 < param.M) (hrows : rows ≠ [])
    (hlen : ∀ r ∈ rows, r.length = param.n.toNat)
    (s : Sys) (hinv : RunInv param args rows s)
    (hpc : s.pc = .reconstruct ∨ s.pc = .wait ∨ s.pc = .returned) :
    (s.zs.length : Int) = param.n ∧ exchange (configured param args rows) = .ok (s.zs, [], 0) := by
  have e : ((param.n.toNat : Nat) : Int) = param.n := Int.toNat_of_nonneg hn
  have hzs : s.zs = (List.range param.n.toNat).map (replyOf param rows) := by
    have := hinv.phase
    rcases hpc with h | h | h <;> simp only [phase, h] at this
    · exact this
    · exact this.1
    · exact this.1
  refine ⟨by simp [hzs, e], ?_⟩
  rw [hzs, replies_as_range]
  exact exchange_configured param args rows hn hM hrows hlen

theorem reaches_returned (param : Parameters) (args : List Int) (rows : List (List Int))
    (hn : 0 ≤ param.n) (hM : 0 < param.M) (hrows : rows ≠ [])
    (hlen : ∀ r ∈ rows, r.length = param.n.toNat)
    (hdiv : param.M / (args.length : Int) ≠ 0) :
    ∀ (m : Nat) (s : Sys), s.measure ≤ m → Reachable (configured param args rows) s →
      ∃ s1, Reachable (configured param args rows) s1 ∧ s1.pc = .returned := by
  intro m
  induction m with
  | zero =>
    intro s hm hs
    by_cases hpc : s.pc = .returned
    · exact ⟨s, hs, hpc⟩
    · have hinv := RunInv_reachable param args rows hn hM hrows hlen hdiv s hs
      obtain ⟨s1, hstep⟩ := RunInv_progress param args rows hn hM hrows hlen hdiv s hinv hpc
      have := Step_measure s s1 hstep
      omega
  | succ m ih =>
    intro s hm hs
    by_cases hpc : s.pc = .returned
    · exact ⟨s, hs, hpc⟩
    · have hinv := RunInv_reachable param args rows hn hM hrows hlen hdiv s hs
      obtain ⟨s1, hstep⟩ := RunInv_progress param args rows hn hM hrows hlen hdiv s hinv hpc
      have := Step_measure s s1 hstep
      exact ih s1 (by omega) (Relation.ReflTransGen.tail hs hstep)

/-! ## Claims on `secret_sharing.go` -/

/-- C1: `GenerateShares` reconstructs the secret.  For every secret (negative
included), every share count `n` and remainder slot `j` with `0 ≤ j < n` (so
`n ≥ 1`), every modulus `M ≥ 1` and every sample stream that supplies the
`n - 1` accepted samples, the call returns shares none of which is nil and
whose sum reduced modulo `M` is `secret mod M`, which is `secret` itself when
`0 ≤ secret < M`. -/
theorem GenerateShares_reconstructs (secret n M : Int) (rnd : Rand) (j : Nat) (sl : List Nat)
    (hM : 1 ≤ M) (hslots : rnd.slots = j :: sl) (hj : (j : Int) < n)
    (hlen : n.toNat - 1 ≤ (units M rnd.crypto).length) :
    ∃ (vals : List Int) (rnd1 : Rand), GenerateShares secret n M rnd = .ok (vals.map some, rnd1) ∧
      vals.sum % M = secret % M ∧
      (0 ≤ secret → secret < M → vals.sum % M = secret) := by
  refine ⟨_, _, GenerateShares_eq secret n M rnd j sl (by omega) hslots hj hlen, ?_, ?_⟩
  · exact sharesSpec_sum secret M j n.toNat _ (by omega)
  · intro h0 h1
    rw [sharesSpec_sum secret M j n.toNat _ (by omega)]
    exact Int.emod_eq_of_lt h0 h1

theorem GenerateShares_reconstructs_witness :
    ∃ (vals : List Int) (rnd1 : Rand), GenerateShares (-4) 4 45 ⟨[3, 7, 44, 2, 8], [2]⟩ = .ok (vals.map some, rnd1) ∧
      vals.sum % 45 = (-4) % 45 ∧
      (0 ≤ (-4 : Int) → (-4 : Int) < 45 → vals.sum % 45 = -4) :=
  GenerateShares_reconstructs (-4) 4 45 ⟨[3, 7, 44, 2, 8], [2]⟩ 2 [] (by decide) rfl
    (by decide) (by decide)

/-- C2: `GenerateShares` returns exactly `n` shares, none of them nil, each in
`[0, M)`: for every secret, every `n` and slot `j` with `0 ≤ j < n`, every
modulus `M ≥ 1` and every stream of samples drawn from `[0, M)` that supplies
the `n - 1` accepted samples. -/
theorem GenerateShares_count_and_range (secret n M : Int) (rnd : Rand) (j : Nat)
    (sl : List Nat) (hM : 1 ≤ M) (hslots : rnd.slots = j :: sl) (hj : (j : Int) < n)
    (hlen : n.toNat - 1 ≤ (units M rnd.crypto).length)
    (hrange : ∀ s ∈ rnd.crypto, 0 ≤ s ∧ s < M) :
    ∃ (shares : BigInts) (rnd1 : Rand), GenerateShares secret n M rnd = .ok (shares, rnd1) ∧
      (shares.length : Int) = n ∧
      ∀ e ∈ shares, ∃ v, e = some v ∧ 0 ≤ v ∧ v < M := by
  refine ⟨_, _, GenerateShares_eq secret n M rnd j sl (by omega) hslots hj hlen, ?_, ?_⟩
  · rw [List.length_map, sharesSpec_length secret M j n.toNat _ (by omega) hlen]
    omega
  · intro e he
    obtain ⟨v, hv, rfl⟩ := List.mem_map.mp he
    refine ⟨v, rfl, ?_⟩
    rcases sharesSpec_mem secret M j n.toNat _ v hv with h | h
    · exact hrange v (units_mem M _ v h).1
    · rw [h]
      exact ⟨Int.emod_nonneg _ (by omega), Int.emod_lt_of_pos _ (by omega)⟩

theorem GenerateShares_count_and_range_witness :
    ∃ (shares : BigInts) (rnd1 : Rand), GenerateShares 4 4 45 ⟨[3, 7, 44, 2, 8], [2]⟩ = .ok (shares, rnd1) ∧
      (shares.length : Int) = 4 ∧
      ∀ e ∈ shares, ∃ v, e = some v ∧ 0 ≤ v ∧ v < 45 :=
  GenerateShares_count_and_range 4 4 45 ⟨[3, 7, 44, 2, 8], [2]⟩ 2 [] (by decide) rfl
    (by decide) (by decide) (by decide)

/-- C4: `getRandom` returns a unit of `ℤ/N`.  For every `N ≥ 1` and every
stream of samples in `[0, N)` that holds a value coprime with `N`, the stream
splits as `pre ++ r :: rest` where no sample of `pre` is coprime with `N`,
`getRandom` returns `r` leaving `rest` (so at least one sample is drawn), and
`0 ≤ r < N` with `gcd(r, N) = 1`. -/
theorem getRandom_returns_first_unit (N : Int) (rnd : Rand) (hN : 1 ≤ N)
    (hrange : ∀ s ∈ rnd.crypto, 0 ≤ s ∧ s < N)
    (hex : ∃ s ∈ rnd.crypto, Int.gcd s N = 1) :
    ∃ (pre : List Int) (r : Int) (rest : List Int), rnd.crypto = pre ++ r :: rest ∧ (∀ s ∈ pre, Int.gcd s N ≠ 1) ∧
      getRandom N rnd = .ok (r, { rnd with crypto := rest }) ∧
      Int.gcd r N = 1 ∧ 0 ≤ r ∧ r < N := by
  obtain ⟨s, hs, hsu⟩ := hex
  have hmem : s ∈ units N rnd.crypto := by simp [units, hs, hsu]
  cases hU : units N rnd.crypto with
  | nil => rw [hU] at hmem; simp at hmem
  | cons u us =>
    obtain ⟨rest, hd, _⟩ := dropWhile_of_units_cons N _ u us hU
    have hg := (getRandom_of_units N (by omega) rnd u us hU).1
    have hu : u ∈ units N rnd.crypto := by rw [hU]; simp
    have hsplit := List.takeWhile_append_dropWhile
      (fun s => !decide (Int.gcd s N = 1)) rnd.crypto
    rw [hd] at hsplit
    refine ⟨_, u, rest, hsplit.symm, ?_, ?_, (units_mem N _ u hu).2,
      hrange u (units_mem N _ u hu).1⟩
    · intro x hx
      have := List.mem_takeWhile_imp hx
      simpa using this
    · rw [hg]
      simp [afterUnit, hd]

theorem getRandom_returns_first_unit_witness :
    ∃ (pre : List Int) (r : Int) (rest : List Int), ([3, 9, 7, 44] : List Int) = pre ++ r :: rest ∧
      (∀ s ∈ pre, Int.gcd s 45 ≠ 1) ∧
      getRandom 45 ⟨[3, 9, 7, 44], []⟩ = .ok (r, { crypto := rest, slots := [] }) ∧
      Int.gcd r 45 = 1 ∧ 0 ≤ r ∧ r < 45 :=
  getRandom_returns_first_unit 45 ⟨[3, 9, 7, 44], []⟩ (by decide) (by decide)
    ⟨7, by decide, by decide⟩

/-- C3: `GenerateBeaverTriplet` is consistent in both branches.  For every
modulus `N ≥ 1` (prime or not), every stream of samples in `[0, N)` that
supplies the two accepted samples `x` and `y`, and every coin value `c`, the
call returns a triplet without nil entry (the inverses of the second branch
exist) with `(t[1] * t[2]) mod N = t[0]`. -/
theorem GenerateBeaverTriplet_consistent (N : Int) (rnd : Rand) (c : Nat) (sl : List Nat)
    (hN : 1 ≤ N) (hslots : rnd.slots = c :: sl)
    (hrange : ∀ s ∈ rnd.crypto, 0 ≤ s ∧ s < N)
    (hlen : 2 ≤ (units N rnd.crypto).length) :
    ∃ (w u v : Int) (rnd1 : Rand),
      GenerateBeaverTriplet N rnd = .ok ((some w, some u, some v), rnd1) ∧
        (u * v) % N = w := by
  have hN0 : 0 < N := by omega
  obtain ⟨cr, sls⟩ := rnd
  simp only at hslots hrange hlen
  subst hslots
  match hU : units N cr, hlen with
  | x :: y :: us, _ =>
    obtain ⟨hg1, hr1⟩ := getRandom_of_units N hN0 ⟨cr, c :: sl⟩ x (y :: us) hU
    obtain ⟨hg2, _⟩ := getRandom_of_units N hN0
      ⟨afterUnit N cr, c :: sl⟩ y us hr1
    have hx := units_mem N cr x (by rw [hU]; simp)
    have hy := units_mem N cr y (by rw [hU]; simp)
    unfold GenerateBeaverTriplet
    simp only [hg1, hg2, Intn]
    by_cases hc : c > 0
    · exact ⟨(x * y) % N, x, y, ⟨afterUnit N (afterUnit N cr), sl⟩, by simp [hc], rfl⟩
    · obtain ⟨yi, hyi, hyinv⟩ := ModInverse_of_coprime y N hy.2
      have hcop : Int.gcd (x * yi) N = 1 := by
        rw [← Int.isCoprime_iff_gcd_eq_one]
        exact IsCoprime.mul_left (Int.isCoprime_iff_gcd_eq_one.mpr hx.2)
          (Int.isCoprime_iff_gcd_eq_one.mpr (coprime_of_inverse y yi N hyinv))
      obtain ⟨t, ht, htinv⟩ := ModInverse_of_coprime (x * yi) N hcop
      refine ⟨y, x, t, ⟨afterUnit N (afterUnit N cr), sl⟩, by simp [hc, hyi, ht], ?_⟩
      have := beaver_second_branch x y yi t N hyinv htinv
      rw [this.eq]
      exact Int.emod_eq_of_lt (hrange y hy.1).1 (hrange y hy.1).2

theorem GenerateBeaverTriplet_consistent_witness :
    ∃ (w u v : Int) (rnd1 : Rand),
      GenerateBeaverTriplet 45 ⟨[3, 7, 44, 2, 8], [0]⟩ = .ok ((some w, some u, some v), rnd1) ∧
        (u * v) % 45 = w :=
  GenerateBeaverTriplet_consistent 45 ⟨[3, 7, 44, 2, 8], [0]⟩ 0 [] (by decide) rfl
    (by decide) (by decide)

/-! ## Claims on `mean.go` -/

/-- C5: `Setup` validates its configuration.  For every instance, every
`Parameters` value with a positive modulus and every parcel list, `Setup`
returns an error when `partyCount < 2`, returns an error when the parcel list
is empty, and returns nil in every other case, as soon as the random sources
supply one slot below `partyCount` and `partyCount - 1` accepted samples per
parcel. -/
theorem Setup_validates (dim : DistributedIntMean) (param : Parameters) (args : List Int)
    (rnd : Rand) (hM : 0 < param.M) :
    (param.n < 2 → ∃ msg, Setup dim param args rnd = .ok (some msg, dim, rnd)) ∧
    (args = [] → ∃ msg, Setup dim param args rnd = .ok (some msg, dim, rnd)) ∧
    (2 ≤ param.n → args ≠ [] → args.length ≤ rnd.slots.length →
      (∀ j ∈ rnd.slots.take args.length, (j : Int) < param.n) →
      args.length * (param.n.toNat - 1) ≤ (units param.M rnd.crypto).length →
      ∃ dim1 rnd1, Setup dim param args rnd = .ok (none, dim1, rnd1)) := by
  refine ⟨?_, ?_, ?_⟩
  · intro h
    simp [Setup, h]
  · intro h
    subst h
    by_cases hn : param.n < 2
    · simp [Setup, hn]
    · simp [Setup, hn]
  · intro hn hargs hk hj hu
    have h1 : ¬ param.n < 2 := by omega
    have h2 : ¬ args.length < 1 := by
      cases args with
      | nil => exact absurd rfl hargs
      | cons a t => simp
    obtain ⟨d, hd, _⟩ := spawnLoop_ok param (NewBroadcastAgent param.n) param.n.toNat 0
      { dim with
        param := some param
        parcels := args
        shares := (rowsSpec param.M param.n.toNat args rnd.slots
          (units param.M rnd.crypto)).map (List.map some)
        ba := some (NewBroadcastAgent param.n) } (Nat.zero_le _)
    refine ⟨d, ⟨skipUnits param.M (args.length * (param.n.toNat - 1)) rnd.crypto,
      rnd.slots.drop args.length⟩, ?_⟩
    unfold Setup
    simp only [h1, h2, if_false, setupShares_eq param.n param.M hM args rnd hk hj hu, hd]

theorem Setup_validates_witness :
    ∃ dim1 rnd1,
      Setup NewDistributedIntMean ⟨2, 7, (none, none, none), 0⟩ [1, 2, 3, 4]
        ⟨[0, 2, 6, 5, 1], [1, 0, 1, 1]⟩ = .ok (none, dim1, rnd1) :=
  (Setup_validates NewDistributedIntMean ⟨2, 7, (none, none, none), 0⟩ [1, 2, 3, 4]
    ⟨[0, 2, 6, 5, 1], [1, 0, 1, 1]⟩ (by decide)).2.2 (by decide) (by decide) (by decide)
    (by decide) (by decide)

/-- C6: `Setup` is atomic on failure.  `Setup` returns an error exactly when
`partyCount < 2` or the parcel list is empty, and whenever it returns an error
the instance it leaves is the instance it was given (`param`, `parcels`, the
share matrix, the party channels, the broadcast agent and the started workers
included) and neither random source has been read. -/
theorem Setup_atomic_on_failure (dim : DistributedIntMean) (param : Parameters)
    (args : List Int) (rnd : Rand) :
    (param.n < 2 ∨ args = [] → ∃ msg, Setup dim param args rnd = .ok (some msg, dim, rnd)) ∧
    (∀ msg dim1 rnd1, Setup dim param args rnd = .ok (some msg, dim1, rnd1) →
      (param.n < 2 ∨ args = []) ∧ dim1 = dim ∧ rnd1 = rnd ∧
        dim1.param = dim.param ∧ dim1.parcels = dim.parcels ∧ dim1.shares = dim.shares ∧
        dim1.parties = dim.parties ∧ dim1.ba = dim.ba ∧ dim1.workers = dim.workers) := by
  have key : ∀ msg dim1 rnd1, Setup dim param args rnd = .ok (some msg, dim1, rnd1) →
      (param.n < 2 ∨ args = []) ∧ dim1 = dim ∧ rnd1 = rnd := by
    intro msg dim1 rnd1 h
    unfold Setup at h
    by_cases h1 : param.n < 2
    · simp only [h1, if_true, Except.ok.injEq, Prod.mk.injEq] at h
      exact ⟨Or.inl h1, h.2.1.symm, h.2.2.symm⟩
    · by_cases h2 : args.length < 1
      · simp only [h1, h2, if_true, if_false, Except.ok.injEq, Prod.mk.injEq] at h
        refine ⟨Or.inr ?_, h.2.1.symm, h.2.2.symm⟩
        cases args with
        | nil => rfl
        | cons a t => simp at h2
      · simp only [h1, h2, if_false] at h
        split at h
        · exact absurd h (by simp)
        · split at h
          · exact absurd h (by simp)
          · simp at h
  refine ⟨?_, ?_⟩
  · rintro (h | h)
    · simp [Setup, h]
    · subst h
      by_cases hn : param.n < 2
      · simp [Setup, hn]
      · simp [Setup, hn]
  · intro msg dim1 rnd1 h
    obtain ⟨h1, h2, h3⟩ := key msg dim1 rnd1 h
    subst h2
    exact ⟨h1, rfl, h3, rfl, rfl, rfl, rfl, rfl, rfl⟩

/-- C7: the document comments of `mean.go` and the test table promise the
integer mean, `2` for parcels `[1, 3]`; the code returns `1` for party count
2 under the prime modulus 7 and under the 128-bit prime modulus `prime128`
when both parties' reduced share sums are odd: the remainders the parties
reply are summed and then left out of the result. -/
theorem session_misses_mean :
    Nat.Prime 7 ∧ ([1, 3] : List Int).sum / 2 = 2 ∧
    session ⟨2, 7, (none, none, none), 0⟩ [1, 3] ⟨[2, 6], [1, 1]⟩ = .ok 1 ∧
    Nat.Prime prime128 ∧ 2 ^ 127 ≤ prime128 ∧ prime128 < 2 ^ 128 ∧
    session ⟨2, prime128, (none, none, none), 0⟩ [1, 3]
      ⟨[2, 285451712094810683706092566195203997696], [1, 1]⟩ = .ok 1 := by
  refine ⟨by norm_num, by decide, by rfl, prime128_prime, by decide, by decide, ?_⟩
  set_option maxRecDepth 100000 in rfl

/-- C8 as amended: for party count 2, every modulus `M` of 128 bits (prime or
not) and every outcome of the random share generation, `Setup` and `Run` on
parcels `[1, 2, 3, 5, 7]` and on parcels `[4, 14, 21]` both return a nil
error, and `Output()` is the value `Run` stored; when the remainder slot
drawn for every parcel is 1 and every sample accepted is 1, `Output()` is the
integer mean of the parcels, 3 for `[1, 2, 3, 5, 7]` and 13 for
`[4, 14, 21]`. -/
theorem session_test_table (M : Int) (triplet : Option Int × Option Int × Option Int)
    (assinc : Int) (args : List Int) (rnd : Rand)
    (hM : 2 ^ 127 ≤ M) (hargs : args = [1, 2, 3, 5, 7] ∨ args = [4, 14, 21])
    (hk : args.length ≤ rnd.slots.length)
    (hj : ∀ j ∈ rnd.slots.take args.length, j < 2)
    (hu : args.length ≤ (units M rnd.crypto).length) :
    ∃ (dim1 : DistributedIntMean) (rnd1 : Rand) (dim2 : DistributedIntMean),
      Setup NewDistributedIntMean ⟨2, M, triplet, assinc⟩ args rnd = .ok (none, dim1, rnd1) ∧
      Run dim1 = .ok (none, dim2) ∧
      session ⟨2, M, triplet, assinc⟩ args rnd = .ok (Output dim2) ∧
      (rnd.slots.take args.length = List.replicate args.length 1 →
        (units M rnd.crypto).take args.length = List.replicate args.length 1 →
        Output dim2 = args.sum / (args.length : Int) ∧
        (args = [1, 2, 3, 5, 7] → Output dim2 = 3) ∧
        (args = [4, 14, 21] → Output dim2 = 13)) := by
  have hM0 : (0 : Int) < M := by
    have : (0 : Int) < 2 ^ 127 := by norm_num
    omega
  have hM1 : (170141183460469231731687303715884105728 : Int) ≤ M := by
    have e : (2 : Int) ^ 127 = 170141183460469231731687303715884105728 := by norm_num
    omega
  have hne : args ≠ [] := by
    rcases hargs with rfl | rfl <;> simp
  have hdiv : M / (args.length : Int) ≠ 0 := by
    rcases hargs with rfl | rfl
    · simp only [List.length_cons, List.length_nil]
      norm_num
      omega
    · simp only [List.length_cons, List.length_nil]
      norm_num
      omega
  have hj2 : ∀ j ∈ rnd.slots.take args.length, (j : Int) < 2 := by
    intro j hjm
    have := hj j hjm
    omega
  have hsetup := Setup_fresh_eq ⟨2, M, triplet, assinc⟩ args rnd (by norm_num) hM0 hne hk hj2
    (by simpa using hu)
  obtain ⟨_, hr2, _⟩ := rowsSpec_props M 2 args rnd.slots (units M rnd.crypto) hk hj
    (by simpa using hu)
  have hrne : rowsSpec M 2 args rnd.slots (units M rnd.crypto) ≠ [] := by
    rcases hargs with rfl | rfl
    · cases hs : rnd.slots with
      | nil => rw [hs] at hk; simp at hk
      | cons j js => simp [rowsSpec]
    · cases hs : rnd.slots with
      | nil => rw [hs] at hk; simp at hk
      | cons j js => simp [rowsSpec]
  have hrun := Run_configured ⟨2, M, triplet, assinc⟩ args
    (rowsSpec M 2 args rnd.slots (units M rnd.crypto)) (by norm_num) hM0 hrne hr2 hdiv
  refine ⟨_, _, _, hsetup, hrun, ?_, ?_⟩
  · have two : (2 : Int).toNat = 2 := rfl
    unfold session
    simp only [hsetup, two]
    rw [hrun]
    rfl
  · intro hs hc
    have hs2 : rnd.slots = List.replicate args.length 1 ++ rnd.slots.drop args.length := by
      rw [← hs]
      exact (List.take_append_drop _ _).symm
    have hc2 : units M rnd.crypto
        = List.replicate args.length 1 ++ (units M rnd.crypto).drop args.length := by
      rw [← hc]
      exact (List.take_append_drop _ _).symm
    generalize rnd.slots.drop args.length = js at hs2
    generalize (units M rnd.crypto).drop args.length = us at hc2
    have e0 : (0 : Int) % M = 0 := Int.emod_eq_of_lt (by norm_num) (by omega)
    have e1 : (1 : Int) % M = 1 := Int.emod_eq_of_lt (by norm_num) (by omega)
    have e2 : (2 : Int) % M = 2 := Int.emod_eq_of_lt (by norm_num) (by omega)
    have e3 : (3 : Int) % M = 3 := Int.emod_eq_of_lt (by norm_num) (by omega)
    have e4 : (4 : Int) % M = 4 := Int.emod_eq_of_lt (by norm_num) (by omega)
    have e5 : (5 : Int) % M = 5 := Int.emod_eq_of_lt (by norm_num) (by omega)
    have e6 : (6 : Int) % M = 6 := Int.emod_eq_of_lt (by norm_num) (by omega)
    have e13 : (13 : Int) % M = 13 := Int.emod_eq_of_lt (by norm_num) (by omega)
    have e20 : (20 : Int) % M = 20 := Int.emod_eq_of_lt (by norm_num) (by omega)
    have e36 : (36 : Int) % M = 36 := Int.emod_eq_of_lt (by norm_num) (by omega)
    have two : (2 : Int).toNat = 2 := rfl
    simp only [Output]
    rw [hs2, hc2]
    rcases hargs with rfl | rfl
    · have q : (3 : Int) % (M / 5) = 3 := Int.emod_eq_of_lt (by norm_num) (by omega)
      simp [two, rowsSpec, sharesSpec, repliesSpec, replySpec, colSpec, List.replicate,
        List.range_succ, e0, e1, e2, e4, e5, e6, e13, q, toInt64_small]
    · have q : (13 : Int) % (M / 3) = 13 := Int.emod_eq_of_lt (by norm_num) (by omega)
      simp [two, rowsSpec, sharesSpec, repliesSpec, replySpec, colSpec, List.replicate,
        List.range_succ, e1, e3, e13, e20, e36, q, toInt64_small]

set_option maxRecDepth 100000 in
theorem session_test_table_witness :
    ∃ (dim1 : DistributedIntMean) (rnd1 : Rand) (dim2 : DistributedIntMean),
      Setup NewDistributedIntMean ⟨2, prime128, (none, none, none), 0⟩ [4, 14, 21]
          ⟨[1, 1, 1], [1, 1, 1]⟩ = .ok (none, dim1, rnd1) ∧
      Run dim1 = .ok (none, dim2) ∧
      session ⟨2, prime128, (none, none, none), 0⟩ [4, 14, 21] ⟨[1, 1, 1], [1, 1, 1]⟩
        = .ok (Output dim2) ∧
      Output dim2 = 13 := by
  obtain ⟨dim1, rnd1, dim2, h1, h2, h3, h4⟩ :=
    session_test_table prime128 (none, none, none) 0 [4, 14, 21] ⟨[1, 1, 1], [1, 1, 1]⟩
      (by decide) (Or.inr rfl) (by decide) (by decide) (by decide)
  exact ⟨dim1, rnd1, dim2, h1, h2, h3, (h4 (by decide) (by decide)).2.2 rfl⟩

/-- C8 as stated fails: under the 128-bit prime modulus `prime128` with party
count 2, `Output()` is 13 for parcels `[4, 14, 21]` and 3 for parcels
`[1, 2, 3, 5, 7]` when every random sample is 1 and the remainder goes to
slot 1. -/
theorem session_test_table_counterexample :
    Nat.Prime prime128 ∧ 2 ^ 127 ≤ prime128 ∧ prime128 < 2 ^ 128 ∧
    session ⟨2, prime128, (none, none, none), 0⟩ [4, 14, 21]
      ⟨[1, 1, 1], [1, 1, 1]⟩ = .ok 13 ∧
    session ⟨2, prime128, (none, none, none), 0⟩ [1, 2, 3, 5, 7]
      ⟨[1, 1, 1, 1, 1], [1, 1, 1, 1, 1]⟩ = .ok 3 := by
  refine ⟨prime128_prime, by decide, by decide, ?_, ?_⟩
  · set_option maxRecDepth 100000 in rfl
  · set_option maxRecDepth 100000 in rfl

/-- C9: two sessions with the same `Parameters` value and the same parcels
`[1, 3]` that differ only in the samples `GenerateShares` draws return
different `Output()` values, 1 and 2, under the prime modulus 7 and under the
128-bit prime modulus `prime128`. -/
theorem session_depends_on_randomness :
    session ⟨2, 7, (none, none, none), 0⟩ [1, 3] ⟨[2, 6], [1, 1]⟩ = .ok 1 ∧
    session ⟨2, 7, (none, none, none), 0⟩ [1, 3] ⟨[2, 2], [1, 1]⟩ = .ok 2 ∧
    session ⟨2, prime128, (none, none, none), 0⟩ [1, 3]
      ⟨[2, 285451712094810683706092566195203997696], [1, 1]⟩ = .ok 1 ∧
    session ⟨2, prime128, (none, none, none), 0⟩ [1, 3] ⟨[2, 2], [1, 1]⟩ = .ok 2 := by
  refine ⟨by rfl, by rfl, ?_, ?_⟩
  · set_option maxRecDepth 100000 in rfl
  · set_option maxRecDepth 100000 in rfl

/-- C10: the reconstruction of `Run` returns the reduced quotient sum and
nothing else.  For every list of party replies `(q_i, r_i)`, modulus `M` and
parcel count `k` with `M div k ≥ 1`, the reconstruction succeeds with the
`int64` value of `(Σ q_i) mod (M div k)`; any reply list with the same
quotients gives the same value whatever its remainders; and whenever the
exchange of `Run` collects these replies with every party done, `Run` stores
that value and `Output` returns it. -/
theorem Run_returns_reduced_quotient_sum (replies : List (Int × Int)) (M : Int) (k : Nat)
    (h : 1 ≤ M / (k : Int)) :
    (∃ sm, reconstruct M k (replies.map toReply)
        = .ok (toInt64 ((replies.map Prod.fst).sum % (M / (k : Int))), sm)) ∧
    (∀ replies2 : List (Int × Int), replies2.map Prod.fst = replies.map Prod.fst →
      ∃ sm2, reconstruct M k (replies2.map toReply)
        = .ok (toInt64 ((replies.map Prod.fst).sum % (M / (k : Int))), sm2)) ∧
    (∀ (dim : DistributedIntMean) (param : Parameters)
        (waiting : List DistributedIntMeanParty),
      dim.param = some param → param.M = M → dim.parcels.length = k →
      exchange dim = .ok (replies.map toReply, waiting, 0) →
      ∃ dim1, Run dim = .ok (none, dim1) ∧
        Output dim1 = toInt64 ((replies.map Prod.fst).sum % (M / (k : Int)))) := by
  have h0 : M / (k : Int) ≠ 0 := by omega
  refine ⟨⟨_, reconstruct_eq replies M k h0⟩, ?_, ?_⟩
  · intro replies2 heq
    refine ⟨(((replies2.map Prod.snd).sum + (replies.map Prod.fst).sum % (M / (k : Int)))
      / (k : Int)) % (M / (k : Int)), ?_⟩
    rw [reconstruct_eq replies2 M k h0, heq]
  · intro dim param waiting hp hM hk hex
    subst hM hk
    exact ⟨_, Run_of_exchange dim param replies waiting hp h0 hex, rfl⟩

theorem Run_returns_reduced_quotient_sum_witness :
    ∃ sm, reconstruct 7 2 ([((0 : Int), (1 : Int)), (1, 1)].map toReply)
        = .ok (toInt64 (([((0 : Int), (1 : Int)), (1, 1)].map Prod.fst).sum
            % (7 / ((2 : Nat) : Int))), sm) :=
  (Run_returns_reduced_quotient_sum [(0, 1), (1, 1)] 7 2 (by decide)).1

/-- C11: a party replies with the Euclidean quotient and remainder of its
reduced share sum.  For every non-empty share vector of `k` integers and
every modulus `M ≥ 1`, `Party.Run` replies `(q, r)` with `q` and `r` the
quotient and remainder of `sum = (s_0 + ... + s_{k-1}) mod M` by `k`, so
`q * k + r = sum`, `0 ≤ r < k` and `0 ≤ q < M`, and the final reductions
modulo `M` change neither. -/
theorem PartyRun_quotient_remainder (dmp : DistributedIntMeanParty) (vals : List Int)
    (hM : 1 ≤ dmp.param.M) (hk : vals ≠ []) :
    ∃ q r : Int, PartyRun dmp (vals.map some) = .ok [some q, some r] ∧
      q = (vals.sum % dmp.param.M) / (vals.length : Int) ∧
      r = (vals.sum % dmp.param.M) % (vals.length : Int) ∧
      q * (vals.length : Int) + r = vals.sum % dmp.param.M ∧
      0 ≤ r ∧ r < (vals.length : Int) ∧ 0 ≤ q ∧ q < dmp.param.M ∧
      q % dmp.param.M = q ∧ r % dmp.param.M = r := by
  have hM0 : 0 < dmp.param.M := by omega
  have hlen : (0 : Int) < (vals.length : Int) := by
    cases vals with
    | nil => exact absurd rfl hk
    | cons a t => simp only [List.length_cons]; omega
  have hs0 := Int.emod_nonneg vals.sum hM0.ne'
  have hs1 := Int.emod_lt_of_pos vals.sum hM0
  obtain ⟨e1, e2⟩ := ediv_small (vals.sum % dmp.param.M) vals.length dmp.param.M hs0 hs1 hlen
  have hq0 : 0 ≤ (vals.sum % dmp.param.M) / (vals.length : Int) := Int.ediv_nonneg hs0 hlen.le
  have hq1 : (vals.sum % dmp.param.M) / (vals.length : Int) ≤ vals.sum % dmp.param.M :=
    Int.ediv_le_self _ hs0
  refine ⟨(vals.sum % dmp.param.M) / (vals.length : Int),
    (vals.sum % dmp.param.M) % (vals.length : Int), PartyRun_eq dmp vals hM0 hk, rfl, rfl, ?_,
    Int.emod_nonneg _ hlen.ne', Int.emod_lt_of_pos _ hlen, hq0, by omega, e1, e2⟩
  have := Int.emod_add_ediv (vals.sum % dmp.param.M) (vals.length : Int)
  linarith

theorem PartyRun_quotient_remainder_witness :
    ∃ q r : Int,
      PartyRun ⟨0, ⟨2, 7, (none, none, none), 0⟩, NewBroadcastAgent 2, 0⟩
        (([6, 4] : List Int).map some) = .ok [some q, some r] ∧
      q = (([6, 4] : List Int).sum % 7) / 2 ∧
      r = (([6, 4] : List Int).sum % 7) % 2 ∧
      q * 2 + r = ([6, 4] : List Int).sum % 7 ∧
      0 ≤ r ∧ r < 2 ∧ 0 ≤ q ∧ q < 7 ∧ q % 7 = q ∧ r % 7 = r :=
  PartyRun_quotient_remainder ⟨0, ⟨2, 7, (none, none, none), 0⟩, NewBroadcastAgent 2, 0⟩
    [6, 4] (by decide) (by decide)

/-- C13: `Run` succeeds on every validly configured instance.  On the instance
a successful `Setup` leaves from a fresh one, every party's column read and
`Party.Run` complete; when the modulus `M` is at least the number of parcels
`Run` returns nil, and when `M` is less the reduction modulus
`M div len(parcels)` is 0 and `Run` panics with a division by zero instead of
returning an error. -/
theorem Run_succeeds_when_configured (param : Parameters) (args : List Int) (rnd : Rand)
    (hn : 2 ≤ param.n) (hM : 0 < param.M) (hargs : args ≠ [])
    (hk : args.length ≤ rnd.slots.length)
    (hj : ∀ j ∈ rnd.slots.take args.length, (j : Int) < param.n)
    (hu : args.length * (param.n.toNat - 1) ≤ (units param.M rnd.crypto).length) :
    ∃ (dim1 : DistributedIntMean) (rnd1 : Rand),
      Setup NewDistributedIntMean param args rnd = .ok (none, dim1, rnd1) ∧
      (∀ i : Nat, (i : Int) < param.n → ∃ col reply,
        column i dim1.shares = .ok col ∧ PartyRun (freshWorker param i) col = .ok reply) ∧
      ((args.length : Int) ≤ param.M → ∃ dim2, Run dim1 = .ok (none, dim2)) ∧
      (param.M < (args.length : Int) →
        param.M / (args.length : Int) = 0 ∧ Run dim1 = .error .divByZero) := by
  have hlen0 : 0 < args.length := List.length_pos.mpr hargs
  have hkpos : (0 : Int) < (args.length : Int) := by exact_mod_cast hlen0
  obtain ⟨hr1, hr2, _⟩ := rowsSpec_props param.M param.n.toNat args rnd.slots
    (units param.M rnd.crypto) hk (fun j hj' => by have := hj j hj'; omega) hu
  have hne : rowsSpec param.M param.n.toNat args rnd.slots (units param.M rnd.crypto) ≠ [] := by
    intro h0
    rw [h0] at hr1
    simp at hr1
    omega
  refine ⟨_, _, Setup_fresh_eq param args rnd hn hM hargs hk hj hu, ?_, ?_, ?_⟩
  · intro i hi
    obtain ⟨h1, h2⟩ := party_completes param _ i hM hne
      (fun r hr => by rw [hr2 r hr]; omega)
    exact ⟨_, _, h1, h2⟩
  · intro hle
    have hdiv : param.M / (args.length : Int) ≠ 0 := by
      have : 1 ≤ param.M / (args.length : Int) := by
        rw [Int.le_ediv_iff_mul_le hkpos]
        omega
      omega
    exact ⟨_, Run_configured param args _ (by omega) hM hne hr2 hdiv⟩
  · intro hlt
    have hdiv : param.M / (args.length : Int) = 0 := Int.ediv_eq_zero_of_lt hM.le hlt
    exact ⟨hdiv, Run_configured_divByZero param args _ (by omega) hM hne hr2 hargs hdiv⟩

theorem Run_succeeds_when_configured_witness :
    ∃ (dim1 : DistributedIntMean) (rnd1 : Rand),
      Setup NewDistributedIntMean ⟨2, 2, (none, none, none), 0⟩ [0, 0, 1]
        ⟨[1, 1, 1], [1, 1, 0]⟩ = .ok (none, dim1, rnd1) ∧
      (∀ i : Nat, (i : Int) < 2 → ∃ col reply,
        column i dim1.shares = .ok col ∧
          PartyRun (freshWorker ⟨2, 2, (none, none, none), 0⟩ i) col = .ok reply) ∧
      (((3 : Nat) : Int) ≤ 2 → ∃ dim2, Run dim1 = .ok (none, dim2)) ∧
      ((2 : Int) < ((3 : Nat) : Int) →
        (2 : Int) / ((3 : Nat) : Int) = 0 ∧ Run dim1 = .error .divByZero) :=
  Run_succeeds_when_configured ⟨2, 2, (none, none, none), 0⟩ [0, 0, 1]
    ⟨[1, 1, 1], [1, 1, 0]⟩ (by decide) (by decide) (by decide) (by decide) (by decide)
    (by decide)

/-- C16: the state after a successful `Setup` on a fresh instance is
well-formed.  The share matrix has `len(parcels)` rows, every row has
`partyCount` entries, none nil and each in `[0, M)`, row `j` sums modulo `M`
to `parcels[j] mod M`, and the instance holds `partyCount` channels and
`partyCount` workers, worker `i` listening on channel `i`. -/
theorem Setup_state_well_formed (param : Parameters) (args : List Int) (rnd : Rand)
    (hn : 2 ≤ param.n) (hM : 0 < param.M) (hargs : args ≠ [])
    (hk : args.length ≤ rnd.slots.length)
    (hj : ∀ j ∈ rnd.slots.take args.length, (j : Int) < param.n)
    (hu : args.length * (param.n.toNat - 1) ≤ (units param.M rnd.crypto).length)
    (hrange : ∀ s ∈ rnd.crypto, 0 ≤ s ∧ s < param.M) :
    ∃ (dim1 : DistributedIntMean) (rnd1 : Rand),
      Setup NewDistributedIntMean param args rnd = .ok (none, dim1, rnd1) ∧
      dim1.shares.length = args.length ∧
      (∀ row ∈ dim1.shares, (row.length : Int) = param.n ∧
        ∀ e ∈ row, ∃ v : Int, e = some v ∧ 0 ≤ v ∧ v < param.M) ∧
      (∀ (j : Nat) (p : Int), args[j]? = some p →
        ∃ vals : List Int, dim1.shares[j]? = some (vals.map some) ∧
          vals.sum % param.M = p % param.M) ∧
      (dim1.parties.length : Int) = param.n ∧ (dim1.workers.length : Int) = param.n ∧
      (∀ i : Nat, (i : Int) < param.n →
        ∃ w, dim1.workers[i]? = some w ∧ w.id = i ∧ dim1.parties[i]? = some w.client) := by
  have e : ((param.n.toNat : Nat) : Int) = param.n := Int.toNat_of_nonneg (by omega)
  have hj' : ∀ j ∈ rnd.slots.take args.length, j < param.n.toNat := by
    intro j hjm
    have := hj j hjm
    omega
  obtain ⟨hr1, hr2, _⟩ := rowsSpec_props param.M param.n.toNat args rnd.slots
    (units param.M rnd.crypto) hk hj' hu
  have hrg := rowsSpec_range param.M hM param.n.toNat args rnd.slots (units param.M rnd.crypto)
    (fun u hu' => hrange u (units_mem param.M _ u hu').1)
  refine ⟨_, _, Setup_fresh_eq param args rnd hn hM hargs hk hj hu, ?_, ?_, ?_, ?_, ?_, ?_⟩
  · simp [configured, hr1]
  · intro row hrow
    simp only [configured, List.mem_map] at hrow
    obtain ⟨r, hr, rfl⟩ := hrow
    refine ⟨by rw [List.length_map, hr2 r hr, e], ?_⟩
    intro x hx
    obtain ⟨v, hv, rfl⟩ := List.mem_map.mp hx
    exact ⟨v, rfl, hrg r hr v hv⟩
  · intro j p hp
    obtain ⟨r, h1, h2⟩ := rowsSpec_row param.M param.n.toNat args rnd.slots
      (units param.M rnd.crypto) j p hk hj' hp
    exact ⟨r, by simp [configured, h1], h2⟩
  · simp [configured, e]
  · simp [configured, e]
  · intro i hi
    have hi' : i < param.n.toNat := by omega
    refine ⟨freshWorker param i, ?_, rfl, ?_⟩
    · simp [configured, hi']
    · simp [configured, hi', freshWorker]

theorem Setup_state_well_formed_witness :
    ∃ (dim1 : DistributedIntMean) (rnd1 : Rand),
      Setup NewDistributedIntMean ⟨2, 7, (none, none, none), 0⟩ [1, 3]
        ⟨[2, 6], [1, 1]⟩ = .ok (none, dim1, rnd1) ∧
      dim1.shares.length = ([1, 3] : List Int).length ∧
      (∀ row ∈ dim1.shares, (row.length : Int) = 2 ∧
        ∀ e ∈ row, ∃ v : Int, e = some v ∧ 0 ≤ v ∧ v < 7) ∧
      (∀ (j : Nat) (p : Int), ([1, 3] : List Int)[j]? = some p →
        ∃ vals : List Int, dim1.shares[j]? = some (vals.map some) ∧ vals.sum % 7 = p % 7) ∧
      (dim1.parties.length : Int) = 2 ∧ (dim1.workers.length : Int) = 2 ∧
      (∀ i : Nat, (i : Int) < 2 →
        ∃ w, dim1.workers[i]? = some w ∧ w.id = i ∧ dim1.parties[i]? = some w.client) :=
  Setup_state_well_formed ⟨2, 7, (none, none, none), 0⟩ [1, 3] ⟨[2, 6], [1, 1]⟩
    (by decide) (by decide) (by decide) (by decide) (by decide) (by decide) (by decide)

/-- C17: the party replies are jointly an additive sharing of the parcel
total.  On the instance a successful `Setup` leaves from a fresh one, with `k`
parcels and modulus `M ≥ 1`, let `(q_i, r_i)` be the reply `Party.Run`
computes from column `i` of the share matrix; these are the replies the
exchange of `Run` collects, and the sum over the parties of `q_i * k + r_i`
is congruent modulo `M` to the sum of the parcels. -/
theorem replies_share_parcel_total (param : Parameters) (args : List Int) (rnd : Rand)
    (hn : 2 ≤ param.n) (hM : 1 ≤ param.M) (hargs : args ≠ [])
    (hk : args.length ≤ rnd.slots.length)
    (hj : ∀ j ∈ rnd.slots.take args.length, (j : Int) < param.n)
    (hu : args.length * (param.n.toNat - 1) ≤ (units param.M rnd.crypto).length) :
    ∃ (dim1 : DistributedIntMean) (rnd1 : Rand) (replies : List (Int × Int)),
      Setup NewDistributedIntMean param args rnd = .ok (none, dim1, rnd1) ∧
      (replies.length : Int) = param.n ∧
      (∀ (i : Nat) (qr : Int × Int), replies[i]? = some qr →
        ∃ col, column i dim1.shares = .ok col ∧
          PartyRun (freshWorker param i) col = .ok [some qr.1, some qr.2]) ∧
      exchange dim1 = .ok (replies.map (fun qr => [some qr.1, some qr.2]), [], 0) ∧
      (replies.map (fun qr => qr.1 * (args.length : Int) + qr.2)).sum
        ≡ args.sum [ZMOD param.M] := by
  have hM0 : 0 < param.M := by omega
  have e : ((param.n.toNat : Nat) : Int) = param.n := Int.toNat_of_nonneg (by omega)
  have hlen0 : 0 < args.length := List.length_pos.mpr hargs
  obtain ⟨hr1, hr2, hr3⟩ := rowsSpec_props param.M param.n.toNat args rnd.slots
    (units param.M rnd.crypto) hk (fun j hj' => by have := hj j hj'; omega) hu
  set rows := rowsSpec param.M param.n.toNat args rnd.slots (units param.M rnd.crypto)
    with hrows
  have hne : rows ≠ [] := by
    intro h0
    rw [h0] at hr1
    simp at hr1
    omega
  refine ⟨_, _, repliesSpec param.M param.n.toNat rows,
    Setup_fresh_eq param args rnd hn hM0 hargs hk hj hu, ?_, ?_, ?_, ?_⟩
  · simp [repliesSpec, e]
  · intro i qr hqr
    have hi : i < param.n.toNat := by
      have := List.getElem?_eq_some_iff.mp hqr
      obtain ⟨h, _⟩ := this
      simpa [repliesSpec] using h
    have hq : qr = replySpec param.M (colSpec i rows) := by
      simp [repliesSpec, hi] at hqr
      exact hqr.symm
    obtain ⟨h1, h2⟩ := party_completes param rows i hM0 hne
      (fun r hr => by rw [hr2 r hr]; exact hi)
    refine ⟨_, h1, ?_⟩
    rw [h2, hq]
    rfl
  · exact exchange_configured param args rows (by omega) hM0 hne hr2
  · have hc := column_sums_modEq param.M param.n.toNat rows args.sum hr2 hr3
    have : (repliesSpec param.M param.n.toNat rows).map
        (fun qr => qr.1 * (args.length : Int) + qr.2)
        = (List.range param.n.toNat).map (fun t => (colSpec t rows).sum % param.M) := by
      simp only [repliesSpec, List.map_map]
      apply List.map_congr_left
      intro t _
      have := replySpec_recombine param.M (colSpec t rows)
      rw [colSpec_length, hr1] at this
      exact this
    rw [this]
    exact hc

theorem replies_share_parcel_total_witness :
    ∃ (dim1 : DistributedIntMean) (rnd1 : Rand) (replies : List (Int × Int)),
      Setup NewDistributedIntMean ⟨2, 7, (none, none, none), 0⟩ [1, 3]
        ⟨[2, 6], [1, 1]⟩ = .ok (none, dim1, rnd1) ∧
      (replies.length : Int) = 2 ∧
      (∀ (i : Nat) (qr : Int × Int), replies[i]? = some qr →
        ∃ col, column i dim1.shares = .ok col ∧
          PartyRun (freshWorker ⟨2, 7, (none, none, none), 0⟩ i) col
            = .ok [some qr.1, some qr.2]) ∧
      exchange dim1 = .ok (replies.map (fun qr => [some qr.1, some qr.2]), [], 0) ∧
      (replies.map (fun qr => qr.1 * (([1, 3] : List Int).length : Int) + qr.2)).sum
        ≡ ([1, 3] : List Int).sum [ZMOD 7] :=
  replies_share_parcel_total ⟨2, 7, (none, none, none), 0⟩ [1, 3] ⟨[2, 6], [1, 1]⟩
    (by decide) (by decide) (by decide) (by decide) (by decide) (by decide)

/-- C18: `Output()` is within `partyCount - 1` of the integer mean.  For every
party count `n ≥ 2`, modulus `M`, `k ≥ 1` parcels whose sum `S` satisfies
`0 ≤ S < M`, with `mu = floor(S / k)`, `n - 1 ≤ mu` and
`mu + n - 1 < min(M div k, 2^63)`, and every outcome of the share generation,
`Setup` and `Run` succeed and `Output()` lies in `[mu - (n - 1), mu + (n - 1)]`,
which for `n = 2` is `{mu - 1, mu, mu + 1}`; each of the three values is
attained: `mu - 1` and `mu` for parcels `[1, 3]` under modulus 8, `mu + 1`
for parcels `[2, 3]` under modulus 9. -/
theorem Output_within_band_of_mean :
    (∀ (param : Parameters) (args : List Int) (rnd : Rand),
      2 ≤ param.n → args ≠ [] → args.length ≤ rnd.slots.length →
      (∀ j ∈ rnd.slots.take args.length, (j : Int) < param.n) →
      args.length * (param.n.toNat - 1) ≤ (units param.M rnd.crypto).length →
      0 ≤ args.sum → args.sum < param.M →
      param.n - 1 ≤ args.sum / (args.length : Int) →
      args.sum / (args.length : Int) + (param.n - 1) < param.M / (args.length : Int) →
      args.sum / (args.length : Int) + (param.n - 1) < 2 ^ 63 →
      ∃ v : Int, session param args rnd = .ok v ∧
        args.sum / (args.length : Int) - (param.n - 1) ≤ v ∧
        v ≤ args.sum / (args.length : Int) + (param.n - 1) ∧
        (param.n = 2 → v = args.sum / (args.length : Int) - 1 ∨
          v = args.sum / (args.length : Int) ∨ v = args.sum / (args.length : Int) + 1)) ∧
    (([1, 3] : List Int).sum / 2 = 2 ∧ (2 : Int) + 1 < 8 / 2 ∧
      session ⟨2, 8, (none, none, none), 0⟩ [1, 3] ⟨[1, 1], [0, 1]⟩ = .ok (2 - 1)) ∧
    (session ⟨2, 8, (none, none, none), 0⟩ [1, 3] ⟨[1, 1], [1, 1]⟩ = .ok 2) ∧
    (([2, 3] : List Int).sum / 2 = 2 ∧ (2 : Int) + 1 < 9 / 2 ∧
      session ⟨2, 9, (none, none, none), 0⟩ [2, 3] ⟨[1, 5], [0, 0]⟩ = .ok (2 + 1)) := by
  refine ⟨?_, ⟨by decide, by decide, by rfl⟩, by rfl, ⟨by decide, by decide, by rfl⟩⟩
  intro param args rnd hn hargs hk hj hu hS0 hSM hlo hhi h63
  obtain ⟨v, h1, h2, h3⟩ := session_in_band param args rnd hn hargs hk hj hu hS0 hSM hlo hhi h63
  refine ⟨v, h1, h2, h3, ?_⟩
  intro h2n
  rw [h2n] at h2 h3
  omega

theorem Output_within_band_of_mean_witness :
    ∃ v : Int, session ⟨3, 101, (none, none, none), 0⟩ [10, 20, 31] ⟨[1, 2, 3, 4, 5, 6], [0, 1, 2]⟩
        = .ok v ∧
      ([10, 20, 31] : List Int).sum / (([10, 20, 31] : List Int).length : Int) - (3 - 1) ≤ v ∧
      v ≤ ([10, 20, 31] : List Int).sum / (([10, 20, 31] : List Int).length : Int) + (3 - 1) ∧
      ((3 : Int) = 2 →
        v = ([10, 20, 31] : List Int).sum / (([10, 20, 31] : List Int).length : Int) - 1 ∨
        v = ([10, 20, 31] : List Int).sum / (([10, 20, 31] : List Int).length : Int) ∨
        v = ([10, 20, 31] : List Int).sum / (([10, 20, 31] : List Int).length : Int) + 1) :=
  Output_within_band_of_mean.1 ⟨3, 101, (none, none, none), 0⟩ [10, 20, 31]
    ⟨[1, 2, 3, 4, 5, 6], [0, 1, 2]⟩ (by decide) (by decide) (by decide) (by decide)
    (by decide) (by decide) (by decide) (by decide) (by decide) (by decide)

/-- C20: only the remainder slot can hold a non-unit.  For every output of
`GenerateShares` with `M > 1` and remainder slot `j`, every share at an index
other than `j` is coprime with `M` and therefore nonzero, so a returned share
that is 0 or not coprime with `M` sits at index `j`; the share at slot `j` can
be 0 (secret 4, modulus 45, sample 4) and can share a factor with `M` (secret
4, modulus 45, sample 1 gives 3). -/
theorem non_unit_identifies_slot :
    (∀ (secret n M : Int) (rnd : Rand) (j : Nat) (sl : List Nat),
      1 < M → rnd.slots = j :: sl → (j : Int) < n →
      n.toNat - 1 ≤ (units M rnd.crypto).length →
      ∃ (vals : List Int) (rnd1 : Rand),
        GenerateShares secret n M rnd = .ok (vals.map some, rnd1) ∧
        (∀ (i : Nat) (v : Int), vals[i]? = some v → i ≠ j → Int.gcd v M = 1 ∧ v ≠ 0) ∧
        (∀ (i : Nat) (v : Int), vals[i]? = some v → v = 0 ∨ Int.gcd v M ≠ 1 → i = j)) ∧
    (∃ rnd1, GenerateShares 4 2 45 ⟨[4], [1]⟩ = .ok ([some 4, some 0], rnd1)) ∧
    (∃ rnd1, GenerateShares 4 2 45 ⟨[1], [1]⟩ = .ok ([some 1, some 3], rnd1) ∧
      Int.gcd 3 45 ≠ 1) := by
  refine ⟨?_, ⟨_, rfl⟩, ⟨_, rfl, by decide⟩⟩
  intro secret n M rnd j sl hM hslots hj hlen
  have hunit : ∀ (i : Nat) (v : Int),
      (sharesSpec secret M j n.toNat (units M rnd.crypto))[i]? = some v → i ≠ j →
      Int.gcd v M = 1 ∧ v ≠ 0 := by
    intro i v hv hne
    have hmem := sharesSpec_unit_of_ne secret M j n.toNat _ i v hv hne (by omega)
    have hg := (units_mem M _ v hmem).2
    refine ⟨hg, ?_⟩
    rintro rfl
    rw [Int.gcd_zero_left] at hg
    omega
  refine ⟨_, _, GenerateShares_eq secret n M rnd j sl (by omega) hslots hj hlen, hunit, ?_⟩
  intro i v hv hbad
  by_contra hne
  obtain ⟨h1, h2⟩ := hunit i v hv hne
  rcases hbad with h | h
  · exact h2 h
  · exact h h1

theorem non_unit_identifies_slot_witness :
    ∃ (vals : List Int) (rnd1 : Rand),
      GenerateShares 4 4 45 ⟨[3, 7, 44, 2, 8], [2]⟩ = .ok (vals.map some, rnd1) ∧
      (∀ (i : Nat) (v : Int), vals[i]? = some v → i ≠ 2 → Int.gcd v 45 = 1 ∧ v ≠ 0) ∧
      (∀ (i : Nat) (v : Int), vals[i]? = some v → v = 0 ∨ Int.gcd v 45 ≠ 1 → i = 2) :=
  non_unit_identifies_slot.1 4 4 45 ⟨[3, 7, 44, 2, 8], [2]⟩ 2 [] (by decide) rfl
    (by decide) (by decide)

/-- C12: `Run` sends party `i` the `i`-th column of the share matrix in parcel
order.  On the instance a successful `Setup` leaves from a fresh one, with `k`
parcels and `n` parties, the first loop of `Run` makes `n` hand-overs, the
`i`-th of them on channel `i` to party `i`; the vector handed over has length
`k` and its `j`-th entry is `shares[j][i]`, so party `i` gets one share of
every parcel and the entry `shares[j][i]` goes to party `i` only; the replies
`Run` then collects are the replies to these vectors, in party order. -/
theorem Run_sends_columns (param : Parameters) (args : List Int) (rnd : Rand)
    (hn : 2 ≤ param.n) (hM : 0 < param.M) (hargs : args ≠ [])
    (hk : args.length ≤ rnd.slots.length)
    (hj : ∀ j ∈ rnd.slots.take args.length, (j : Int) < param.n)
    (hu : args.length * (param.n.toNat - 1) ≤ (units param.M rnd.crypto).length) :
    ∃ (dim1 : DistributedIntMean) (rnd1 : Rand) (log : List Delivery),
      Setup NewDistributedIntMean param args rnd = .ok (none, dim1, rnd1) ∧
      sendLog dim1.shares 0 dim1.parties dim1.workers = .ok (log, []) ∧
      exchange dim1 = .ok (log.map (fun d => d.reply), [], 0) ∧
      (log.length : Int) = param.n ∧
      (∀ i : Nat, (i : Int) < param.n →
        ∃ d, log[i]? = some d ∧ d.party = i ∧ dim1.parties[i]? = some d.channel ∧
          d.vector.length = args.length ∧
          ∀ j : Nat, j < args.length →
            ∃ (row : BigInts) (v : Int), dim1.shares[j]? = some row ∧
              row[i]? = some (some v) ∧ d.vector[j]? = some (some v)) := by
  have e : ((param.n.toNat : Nat) : Int) = param.n := Int.toNat_of_nonneg (by omega)
  have hlen0 : 0 < args.length := List.length_pos.mpr hargs
  obtain ⟨hr1, hr2, _⟩ := rowsSpec_props param.M param.n.toNat args rnd.slots
    (units param.M rnd.crypto) hk (fun j hj' => by have := hj j hj'; omega) hu
  set rows := rowsSpec param.M param.n.toNat args rnd.slots (units param.M rnd.crypto)
    with hrows
  have hne : rows ≠ [] := by
    intro h0
    rw [h0] at hr1
    simp at hr1
    omega
  have hlog := sendLog_fresh param hM rows hne param.n.toNat 0
    (fun r hr => by rw [hr2 r hr]; omega)
  refine ⟨_, _, (List.range' 0 param.n.toNat).map (deliverySpec param rows),
    Setup_fresh_eq param args rnd hn hM hargs hk hj hu, ?_, ?_, ?_, ?_⟩
  · simpa [configured, List.range_eq_range'] using hlog
  · rw [exchange_configured param args rows (by omega) hM hne hr2]
    simp [repliesSpec, List.range_eq_range', deliverySpec, Function.comp_def]
  · simp [e]
  · intro i hi
    have hi' : i < param.n.toNat := by omega
    refine ⟨deliverySpec param rows i, ?_, rfl, ?_, ?_, ?_⟩
    · rw [List.getElem?_map, List.getElem?_range' _ _ hi']
      simp
    · simp [configured, hi', deliverySpec]
    · simp [deliverySpec, colSpec, hr1]
    · intro j hjk
      have hjr : j < rows.length := by omega
      have hrow : rows[j] ∈ rows := List.getElem_mem _
      have hil : i < (rows[j]).length := by rw [hr2 _ hrow]; exact hi'
      refine ⟨(rows[j]).map some, (rows[j])[i], ?_, ?_, ?_⟩
      · simp [configured, hjr]
      · simp [hil]
      · simp [deliverySpec, colSpec, hjr, hil]

theorem Run_sends_columns_witness :
    ∃ (dim1 : DistributedIntMean) (rnd1 : Rand) (log : List Delivery),
      Setup NewDistributedIntMean ⟨2, 7, (none, none, none), 0⟩ [1, 3]
        ⟨[2, 6], [1, 1]⟩ = .ok (none, dim1, rnd1) ∧
      sendLog dim1.shares 0 dim1.parties dim1.workers = .ok (log, []) ∧
      exchange dim1 = .ok (log.map (fun d => d.reply), [], 0) ∧
      (log.length : Int) = 2 ∧
      (∀ i : Nat, (i : Int) < 2 →
        ∃ d, log[i]? = some d ∧ d.party = i ∧ dim1.parties[i]? = some d.channel ∧
          d.vector.length = ([1, 3] : List Int).length ∧
          ∀ j : Nat, j < ([1, 3] : List Int).length →
            ∃ (row : BigInts) (v : Int), dim1.shares[j]? = some row ∧
              row[i]? = some (some v) ∧ d.vector[j]? = some (some v)) :=
  Run_sends_columns ⟨2, 7, (none, none, none), 0⟩ [1, 3] ⟨[2, 6], [1, 1]⟩
    (by decide) (by decide) (by decide) (by decide) (by decide) (by decide)

/-- C19: `Setup` does not reset an already configured instance.  After a
successful `Setup` on a fresh instance, a second successful `Setup` with the
same `Parameters` leaves `2 * partyCount` channels whose first `partyCount`
are the old ones; the old workers stay and the `partyCount` new workers
listen on the first `partyCount` channels; every share row has `partyCount`
entries; so the column read of `Run` for `i = partyCount` is out of range and
`Run` panics with an index out of range. -/
theorem second_Setup_breaks_invariant (param : Parameters) (args args2 : List Int)
    (rnd rnd2 : Rand) (hn : 2 ≤ param.n) (hM : 0 < param.M)
    (hargs : args ≠ []) (hk : args.length ≤ rnd.slots.length)
    (hj : ∀ j ∈ rnd.slots.take args.length, (j : Int) < param.n)
    (hu : args.length * (param.n.toNat - 1) ≤ (units param.M rnd.crypto).length)
    (hargs2 : args2 ≠ []) (hk2 : args2.length ≤ rnd2.slots.length)
    (hj2 : ∀ j ∈ rnd2.slots.take args2.length, (j : Int) < param.n)
    (hu2 : args2.length * (param.n.toNat - 1) ≤ (units param.M rnd2.crypto).length) :
    ∃ (dim1 : DistributedIntMean) (rnd1 : Rand) (dim2 : DistributedIntMean) (rnd3 : Rand),
      Setup NewDistributedIntMean param args rnd = .ok (none, dim1, rnd1) ∧
      Setup dim1 param args2 rnd2 = .ok (none, dim2, rnd3) ∧
      (dim2.parties.length : Int) = 2 * param.n ∧
      dim2.parties.take param.n.toNat = dim1.parties ∧
      (∃ new : List DistributedIntMeanParty, dim2.workers = dim1.workers ++ new ∧
        (new.length : Int) = param.n ∧
        ∀ (i : Nat) (w : DistributedIntMeanParty), new[i]? = some w →
          w.id = i ∧ (i : Int) < param.n ∧ dim2.parties[i]? = some w.client) ∧
      (∀ row ∈ dim2.shares, (row.length : Int) = param.n) ∧
      column param.n.toNat dim2.shares = .error .indexOutOfRange ∧
      Run dim2 = .error .indexOutOfRange := by
  have e : ((param.n.toNat : Nat) : Int) = param.n := Int.toNat_of_nonneg (by omega)
  have hlen0 : 0 < args2.length := List.length_pos.mpr hargs2
  obtain ⟨hr1, hr2, _⟩ := rowsSpec_props param.M param.n.toNat args2 rnd2.slots
    (units param.M rnd2.crypto) hk2 (fun j hj' => by have := hj2 j hj'; omega) hu2
  set rows2 := rowsSpec param.M param.n.toNat args2 rnd2.slots (units param.M rnd2.crypto)
    with hrows2
  have hne : rows2 ≠ [] := by
    intro h0
    rw [h0] at hr1
    simp at hr1
    omega
  refine ⟨_, _, _, _, Setup_fresh_eq param args rnd hn hM hargs hk hj hu,
    Setup_second_eq param args args2 _ rnd2 hn hM hargs2 hk2 hj2 hu2, ?_, ?_, ?_, ?_, ?_, ?_⟩
  · simp only [List.length_range, Nat.cast_add, e]
    ring
  · have hs : List.range (param.n.toNat + param.n.toNat)
        = List.range param.n.toNat ++ List.range' param.n.toNat param.n.toNat := by
      rw [List.range_eq_range', List.range_eq_range']
      simpa using (List.range'_append 0 param.n.toNat param.n.toNat 1).symm
    simp only [configured, hs]
    rw [List.take_left' (by simp)]
  · refine ⟨(List.range' 0 param.n.toNat).map (freshWorker param), rfl, by simp [e], ?_⟩
    intro i w hw
    have hi : i < param.n.toNat := by
      obtain ⟨h, _⟩ := List.getElem?_eq_some_iff.mp hw
      simpa using h
    have hwi : w = freshWorker param i := by
      rw [List.getElem?_map, List.getElem?_range' _ _ hi] at hw
      simp at hw
      exact hw.symm
    subst hwi
    refine ⟨rfl, by omega, ?_⟩
    simp only [freshWorker]
    rw [List.getElem?_range (by omega)]
  · intro row hrow
    simp only [List.mem_map] at hrow
    obtain ⟨r, hr, rfl⟩ := hrow
    rw [List.length_map, hr2 r hr, e]
  · exact column_out_of_range param.n.toNat rows2 hne (fun r hr => (hr2 r hr).le)
  · exact Run_after_second_Setup param args2 rows2 _ _ hn hM hne hr2

theorem second_Setup_breaks_invariant_witness :
    ∃ (dim1 : DistributedIntMean) (rnd1 : Rand) (dim2 : DistributedIntMean) (rnd3 : Rand),
      Setup NewDistributedIntMean ⟨2, 7, (none, none, none), 0⟩ [1, 3] ⟨[2, 6], [1, 1]⟩
        = .ok (none, dim1, rnd1) ∧
      Setup dim1 ⟨2, 7, (none, none, none), 0⟩ [1, 3] ⟨[2, 2], [1, 1]⟩
        = .ok (none, dim2, rnd3) ∧
      (dim2.parties.length : Int) = 2 * 2 ∧
      dim2.parties.take (2 : Int).toNat = dim1.parties ∧
      (∃ new : List DistributedIntMeanParty, dim2.workers = dim1.workers ++ new ∧
        (new.length : Int) = 2 ∧
        ∀ (i : Nat) (w : DistributedIntMeanParty), new[i]? = some w →
          w.id = i ∧ (i : Int) < 2 ∧ dim2.parties[i]? = some w.client) ∧
      (∀ row ∈ dim2.shares, (row.length : Int) = 2) ∧
      column (2 : Int).toNat dim2.shares = .error .indexOutOfRange ∧
      Run dim2 = .error .indexOutOfRange :=
  second_Setup_breaks_invariant ⟨2, 7, (none, none, none), 0⟩ [1, 3] [1, 3]
    ⟨[2, 6], [1, 1]⟩ ⟨[2, 2], [1, 1]⟩ (by decide) (by decide) (by decide) (by decide)
    (by decide) (by decide) (by decide) (by decide) (by decide) (by decide)

/-- C15 as amended: `Broadcast` keeps one buffer for all rounds and does not
read `round`.  For every agent with `p ≥ 1` registered parties and an empty
buffer and every sequence of `p` calls `Broadcast(round_i, m_i)`, whatever the
rounds, every `m_i` is appended to the one buffer, nothing is delivered at the
first `p - 1` calls, and the `p`-th call delivers the batch `[m_1, ..., m_p]`
to every registered channel; the result of a call does not depend on
`round`. -/
theorem Broadcast_single_buffer (ba : BroadcastAgent) (ps : List (Int × Nat))
    (calls : List (Int × Message))
    (hp : ba.parties = some ps) (hps : 1 ≤ ps.length) (hempty : ba.messages = [])
    (hcalls : calls.length = ps.length) :
    broadcasts ba calls
      = ({ ba with messages := calls.map Prod.snd },
          List.replicate (ps.length - 1) [] ++ [ps.map (fun e => (e.2, calls.map Prod.snd))]) ∧
    (∀ (b : BroadcastAgent) (r1 r2 : Int) (m : Message),
      Broadcast b r1 m = Broadcast b r2 m) ∧
    (∀ (b : BroadcastAgent) (r : Int) (m : Message),
      (Broadcast b r m).1.messages = b.messages ++ [m]) := by
  refine ⟨?_, fun _ _ _ _ => rfl, ?_⟩
  · have hne : calls ≠ [] := by
      intro h0
      rw [h0] at hcalls
      simp at hcalls
      omega
    have h := broadcasts_first_batch ps calls ba hp hne (by rw [hempty, hcalls]; simp)
    rw [h, hempty, hcalls]
    simp
  · intro b r m
    unfold Broadcast
    simp only
    split <;> rfl

theorem Broadcast_single_buffer_witness :
    broadcasts ⟨some [(0, 10), (1, 11)], []⟩ [(0, ⟨0, [some 5]⟩), (0, ⟨1, [some 6]⟩)]
      = ({ (⟨some [(0, 10), (1, 11)], []⟩ : BroadcastAgent) with
            messages := [(0, (⟨0, [some 5]⟩ : Message)), (0, ⟨1, [some 6]⟩)].map Prod.snd },
          List.replicate (([((0 : Int), 10), (1, 11)] : List (Int × Nat)).length - 1) [] ++
            [([((0 : Int), 10), (1, 11)] : List (Int × Nat)).map
              (fun e => (e.2, [(0, (⟨0, [some 5]⟩ : Message)), (0, ⟨1, [some 6]⟩)].map Prod.snd))]) :=
  (Broadcast_single_buffer ⟨some [(0, 10), (1, 11)], []⟩ [(0, 10), (1, 11)]
    [(0, ⟨0, [some 5]⟩), (0, ⟨1, [some 6]⟩)] rfl (by decide) rfl rfl).1

/-- C15 as stated fails: with two registered parties (channels 10 and 11), the
calls `Broadcast(0, a)` and `Broadcast(1, c)` of party 0 alone deliver the
batch `[a, c]`, which mixes rounds 0 and 1, although party 1 has broadcast
nothing; and once a first batch is delivered, the two broadcasts of round 1
deliver nothing. -/
theorem Broadcast_mixes_rounds :
    (broadcasts ⟨some [(0, 10), (1, 11)], []⟩ [(0, ⟨0, [some 5]⟩), (1, ⟨0, [some 7]⟩)]).2
      = [[], [(10, [⟨0, [some 5]⟩, ⟨0, [some 7]⟩]), (11, [⟨0, [some 5]⟩, ⟨0, [some 7]⟩])]] ∧
    (broadcasts ⟨some [(0, 10), (1, 11)], []⟩
        [(0, ⟨0, [some 5]⟩), (0, ⟨1, [some 6]⟩), (1, ⟨0, [some 7]⟩), (1, ⟨1, [some 8]⟩)]).2
      = [[], [(10, [⟨0, [some 5]⟩, ⟨1, [some 6]⟩]), (11, [⟨0, [some 5]⟩, ⟨1, [some 6]⟩])],
          [], []] := by
  refine ⟨by decide, by decide⟩

/-- C14: a single synchronous round.  On the instance a successful `Setup`
leaves from a fresh one (with `M ≥ len(parcels)`), in every state that some
interleaving of `Run` and the party goroutines reaches: no party has received
or sent more than one message; once `Run` is at the reconstruction or beyond,
every party has received exactly one vector and sent exactly one reply and
`zs` holds the `partyCount` replies (those of the sequential `exchange`); once
`Run` has returned, the wait group is at zero, every party has terminated and
the result is the one of the sequential `Run`; a state in which `Run` has not
returned always has a next step, and every step lowers `Sys.measure`, so
every interleaving ends with the return of `Run`, which is reached. -/
theorem Run_single_round (param : Parameters) (args : List Int) (rnd : Rand)
    (hn : 2 ≤ param.n) (hargs : args ≠ [])
    (hk : args.length ≤ rnd.slots.length)
    (hj : ∀ j ∈ rnd.slots.take args.length, (j : Int) < param.n)
    (hu : args.length * (param.n.toNat - 1) ≤ (units param.M rnd.crypto).length)
    (hM : (args.length : Int) ≤ param.M) :
    ∃ (dim1 : DistributedIntMean) (rnd1 : Rand),
      Setup NewDistributedIntMean param args rnd = .ok (none, dim1, rnd1) ∧
      (∃ s : Sys, Reachable dim1 s ∧ s.pc = .returned) ∧
      ∀ s : Sys, Reachable dim1 s →
        (s.tasks.length : Int) = param.n ∧
        (∀ task ∈ s.tasks, task.received ≤ 1 ∧ task.sent ≤ 1) ∧
        ((s.pc = .reconstruct ∨ s.pc = .wait ∨ s.pc = .returned) →
          (∀ task ∈ s.tasks, task.received = 1 ∧ task.sent = 1) ∧
          (s.zs.length : Int) = param.n ∧ exchange dim1 = .ok (s.zs, [], 0)) ∧
        (s.pc = .returned →
          s.wg = 0 ∧ (∀ task ∈ s.tasks, task.pc = .terminated) ∧
          ∃ dim2, Run dim1 = .ok (none, dim2) ∧ s.result = Output dim2) ∧
        (s.pc ≠ .returned → ∃ s1, Step s s1) ∧
        (∀ s1, Step s s1 → s1.measure < s.measure) := by
  have hlen0 : 0 < args.length := List.length_pos.mpr hargs
  have hkpos : (0 : Int) < (args.length : Int) := by exact_mod_cast hlen0
  have hM0 : 0 < param.M := by omega
  have hn0 : 0 ≤ param.n := by omega
  have e : ((param.n.toNat : Nat) : Int) = param.n := Int.toNat_of_nonneg hn0
  have hdiv : param.M / (args.length : Int) ≠ 0 := by
    have : 1 ≤ param.M / (args.length : Int) := by
      rw [Int.le_ediv_iff_mul_le hkpos]
      omega
    omega
  obtain ⟨hr1, hr2, _⟩ := rowsSpec_props param.M param.n.toNat args rnd.slots
    (units param.M rnd.crypto) hk (fun j hj' => by have := hj j hj'; omega) hu
  set rows := rowsSpec param.M param.n.toNat args rnd.slots (units param.M rnd.crypto)
    with hrows
  have hne : rows ≠ [] := by
    intro h0
    rw [h0] at hr1
    simp at hr1
    omega
  refine ⟨_, _, Setup_fresh_eq param args rnd hn hM0 hargs hk hj hu,
    reaches_returned param args rows hn0 hM0 hne hr2 hdiv _ _ (le_refl _)
      Relation.ReflTransGen.refl, ?_⟩
  intro s hs
  have hinv := RunInv_reachable param args rows hn0 hM0 hne hr2 hdiv s hs
  obtain ⟨hc1, hc2⟩ := RunInv_counts param args rows s hinv
  refine ⟨by rw [hinv.len, e], hc1, ?_, ?_, ?_, ?_⟩
  · intro hpc
    obtain ⟨h1, h2⟩ := RunInv_collected param args rows hn0 hM0 hne hr2 s hinv hpc
    exact ⟨hc2 hpc, h1, h2⟩
  · intro hpc
    obtain ⟨h1, h2, h3⟩ := RunInv_returned param args rows s hinv hpc
    exact ⟨h1, h3, _, Run_configured param args rows hn0 hM0 hne hr2 hdiv, h2⟩
  · exact RunInv_progress param args rows hn0 hM0 hne hr2 hdiv s hinv
  · exact fun s1 h => Step_measure s s1 h

theorem Run_single_round_witness :
    ∃ (dim1 : DistributedIntMean) (rnd1 : Rand),
      Setup NewDistributedIntMean ⟨2, 7, (none, none, none), 0⟩ [1, 3] ⟨[2, 6], [1, 1]⟩
        = .ok (none, dim1, rnd1) ∧
      (∃ s : Sys, Reachable dim1 s ∧ s.pc = .returned) ∧
      ∀ s : Sys, Reachable dim1 s →
        (s.tasks.length : Int) = 2 ∧
        (∀ task ∈ s.tasks, task.received ≤ 1 ∧ task.sent ≤ 1) ∧
        ((s.pc = .reconstruct ∨ s.pc = .wait ∨ s.pc = .returned) →
          (∀ task ∈ s.tasks, task.received = 1 ∧ task.sent = 1) ∧
          (s.zs.length : Int) = 2 ∧ exchange dim1 = .ok (s.zs, [], 0)) ∧
        (s.pc = .returned →
          s.wg = 0 ∧ (∀ task ∈ s.tasks, task.pc = .terminated) ∧
          ∃ dim2, Run dim1 = .ok (none, dim2) ∧ s.result = Output dim2) ∧
        (s.pc ≠ .returned → ∃ s1, Step s s1) ∧
        (∀ s1, Step s s1 → s1.measure < s.measure) :=
  Run_single_round ⟨2, 7, (none, none, none), 0⟩ [1, 3] ⟨[2, 6], [1, 1]⟩
    (by decide) (by decide) (by decide) (by decide) (by decide) (by decide)

end Mpc
